import Mathlib

/-!
# The colour-separation pipeline of `src/js/colorworker.js`

A shallow embedding of `extractColors` and `convertToColorSVG`.

* JavaScript strings are lists of characters (`Str`).
* The pixel buffer is a `Uint8ClampedArray`: a list of bytes.  A read past the
  end of a typed array gives `undefined`, which is `none` here.
* The object `colors` is an association list in insertion order.  Its keys
  always contain commas, so they are never array indices (which
  `Object.entries` would enumerate first) and never name a property inherited
  from `Object.prototype`; every stored value is an array, which is truthy.
-/

namespace ColorWorker

/-- JavaScript string. -/
abbrev Str := List Char

/-- One element of a `Uint8ClampedArray`. -/
abbrev Byte := Fin 256

/-- The object `colors`: colour key and occurrence list, in insertion order. -/
abbrev Colors := List (Str × List Nat)

/-- Number-to-string conversion of a non-negative integer (template interpolation). -/
def decimal (n : Nat) : Str := Nat.toDigits 10 n

/-- Template interpolation `${x}` of a value read from the buffer. -/
def showElem : Option Byte → Str
  | some x => decimal x.val
  | none => "undefined".toList

/-- The template literal `${r},${g},${b},${a}` of `extractColors`. -/
def rgbaKey (r g b a : Option Byte) : Str :=
  showElem r ++ [','] ++ showElem g ++ [','] ++ showElem b ++ [','] ++ showElem a

/-- Property read `colors[rgba]`. -/
def lookup (rgba : Str) : Colors → Option (List Nat)
  | [] => none
  | (k, v) :: rest => if k = rgba then some v else lookup rgba rest

/-- The statement `colors[rgba].push(i)` on an existing property. -/
def push (rgba : Str) (i : Nat) : Colors → Colors
  | [] => []
  | (k, v) :: rest =>
    if k = rgba then (k, v ++ [i]) :: rest else (k, v) :: push rgba i rest

/-- The body `if (!colors[rgba]) { colors[rgba] = [i]; } else { colors[rgba].push(i); }`. -/
def record (colors : Colors) (rgba : Str) (i : Nat) : Colors :=
  match lookup rgba colors with
  | none => colors ++ [(rgba, [i])]
  | some _ => push rgba i colors

/-- The loop `for (let i = 0; i < imageData.data.length; i += 4)` of
`extractColors`, from offset `i` on, the list being the buffer from `i` on.
The three short cases are the reads past the end of a buffer whose length is
not a multiple of 4: there `a` is `undefined`, which is not `=== 0`. -/
def extractLoop : List Byte → Nat → Colors → Colors
  | [], _, colors => colors
  | [r], i, colors => record colors (rgbaKey (some r) none none none) i
  | [r, g], i, colors => record colors (rgbaKey (some r) (some g) none none) i
  | [r, g, b], i, colors => record colors (rgbaKey (some r) (some g) (some b) none) i
  | r :: g :: b :: a :: rest, i, colors =>
    if a.val = 0 then extractLoop rest (i + 4) colors
    else extractLoop rest (i + 4)
      (record colors (rgbaKey (some r) (some g) (some b) (some a)) i)

/-- The function `extractColors(imageData)`, on `imageData.data`. -/
def extractColors (data : List Byte) : Colors :=
  extractLoop data 0 []

/-- All offsets stored in a `colors` object, list after list. -/
def allOffsets (colors : Colors) : List Nat :=
  (colors.map Prod.snd).flatten

/-- Whether pixel `j` of the buffer has an alpha byte different from 0. -/
def opaqueAt (data : List Byte) (j : Nat) : Bool :=
  (data.getD (4 * j + 3) 0).val != 0

/-- The starting offsets of the pixels whose alpha byte is not 0, ascending. -/
def opaqueOffsets (data : List Byte) : List Nat :=
  ((List.range (data.length / 4)).filter (opaqueAt data)).map (4 * ·)

/-- The key that `extractColors` forms for pixel `j` of the buffer. -/
def keyAt (data : List Byte) (j : Nat) : Str :=
  rgbaKey data[4 * j]? data[4 * j + 1]? data[4 * j + 2]? data[4 * j + 3]?

/-- The starting offsets of the non-transparent pixels whose key is `key`, ascending. -/
def keyOffsets (key : Str) (data : List Byte) : List Nat :=
  ((List.range (data.length / 4)).filter
    (fun j => opaqueAt data j && decide (keyAt data j = key))).map (4 * ·)

/-- Value of a decimal digit character, if it is one. -/
def digitValue (c : Char) : Option Nat :=
  if '0' ≤ c ∧ c ≤ '9' then some (c.toNat - 48) else none

/-- The conversion `ToNumber` of a string of decimal digits (the empty string
is 0); `none` is `NaN`.  The other forms that `ToNumber` reads (sign, fraction,
exponent, white space, hexadecimal, `Infinity`) do not occur in the components
of a colour key, which are decimal texts of bytes or `undefined`. -/
def parseDecimal (s : Str) : Option Nat :=
  s.foldl (fun acc d => acc.bind fun n => (digitValue d).map fun v => n * 10 + v) (some 0)

/-- A sample buffer of three pixels: opaque red, a transparent pixel, red again. -/
def sampleBuffer : List Byte := [255, 0, 0, 255, 9, 9, 9, 0, 255, 0, 0, 255]

/-! ## Strings and regular expressions

The regular expressions of the source are sequences of literals, quantified
character classes and capture groups that are not nested.  `run` is the
backtracking matcher of ECMAScript specialised to such sequences: a greedy
quantifier tries the longest repetition first and gives characters back one at
a time, a lazy one tries the shortest first.  None of the classes below
separates the two halves of a surrogate pair from each other, so matching
whole characters agrees with matching UTF-16 code units. -/

/-- Line terminators: the characters that `.` does not match without the `s` flag. -/
def isLineTerminator (c : Char) : Bool :=
  c.toNat = 0x0A || c.toNat = 0x0D || c.toNat = 0x2028 || c.toNat = 0x2029

/-- The class `.`. -/
def dot (c : Char) : Bool := !isLineTerminator c

/-- The class `[^>]`. -/
def notGt (c : Char) : Bool := c != '>'

/-- The class `[^"]`. -/
def notQuote (c : Char) : Bool := c.toNat != 0x22

/-- The class `\s`: white space and line terminators. -/
def isSpace (c : Char) : Bool :=
  c.toNat = 0x09 || c.toNat = 0x0A || c.toNat = 0x0B || c.toNat = 0x0C || c.toNat = 0x0D ||
  c.toNat = 0x20 || c.toNat = 0xA0 || c.toNat = 0x1680 ||
  (0x2000 ≤ c.toNat && c.toNat ≤ 0x200A) ||
  c.toNat = 0x2028 || c.toNat = 0x2029 || c.toNat = 0x202F || c.toNat = 0x205F ||
  c.toNat = 0x3000 || c.toNat = 0xFEFF

/-- One element of a regular expression. -/
inductive Atom where
  /-- A literal text. -/
  | lit (text : Str)
  /-- The quantifier `*` on a character class, greedy. -/
  | star (cls : Char → Bool)
  /-- The quantifier `+` on a character class, greedy. -/
  | plus (cls : Char → Bool)
  /-- The quantifier `*?` on a character class, lazy. -/
  | lazyStar (cls : Char → Bool)
  /-- An opening parenthesis of a capture group. -/
  | openGroup
  /-- A closing parenthesis of a capture group. -/
  | closeGroup

/-- Remove a literal from the front of the input, if it is there. -/
def stripPrefix : Str → Str → Option Str
  | [], s => some s
  | _ :: _, [] => none
  | p :: ps, c :: cs => if p = c then stripPrefix ps cs else none

/-- Greedy `cls*` followed by the continuation `k`. -/
def greedyStar {R : Type} (cls : Char → Bool) (k : Str → Option R) : Str → Option R
  | [] => k []
  | c :: cs =>
    if cls c then
      match greedyStar cls k cs with
      | some r => some r
      | none => k (c :: cs)
    else k (c :: cs)

/-- Greedy `cls+` followed by the continuation `k`. -/
def greedyPlus {R : Type} (cls : Char → Bool) (k : Str → Option R) : Str → Option R
  | [] => none
  | c :: cs => if cls c then greedyStar cls k cs else none

/-- Lazy `cls*?` followed by the continuation `k`. -/
def lazyStar {R : Type} (cls : Char → Bool) (k : Str → Option R) : Str → Option R
  | [] => k []
  | c :: cs =>
    match k (c :: cs) with
    | some r => some r
    | none => if cls c then lazyStar cls k cs else none

/-- Match a regular expression at the start of the input.  `marks` collects the
remaining input at every parenthesis passed; the result is the marks and the
input left after the match. -/
def run : List Atom → Str → List Str → Option (List Str × Str)
  | [], s, marks => some (marks, s)
  | .lit text :: re, s, marks =>
    match stripPrefix text s with
    | some s' => run re s' marks
    | none => none
  | .star cls :: re, s, marks => greedyStar cls (fun s' => run re s' marks) s
  | .plus cls :: re, s, marks => greedyPlus cls (fun s' => run re s' marks) s
  | .lazyStar cls :: re, s, marks => lazyStar cls (fun s' => run re s' marks) s
  | .openGroup :: re, s, marks => run re s (marks ++ [s])
  | .closeGroup :: re, s, marks => run re s (marks ++ [s])

/-- The text between two positions, each given by the input remaining there. -/
def between (start stop : Str) : Str :=
  start.take (start.length - stop.length)

/-- The texts of the capture groups, from the marks of their parentheses. -/
def groupTexts : List Str → List Str
  | start :: stop :: marks => between start stop :: groupTexts marks
  | _ => []

/-- A successful match. -/
structure Match where
  /-- The input before the match. -/
  before : Str
  /-- The matched text. -/
  matched : Str
  /-- The texts of the capture groups. -/
  groups : List Str
  /-- The input after the match. -/
  after : Str

/-- Capture group `n` (from 1) of a match. -/
def Match.group (m : Match) (n : Nat) : Str :=
  m.groups.getD (n - 1) []

/-- The match at the start of the input, if there is one. -/
def matchHere (re : List Atom) (s : Str) : Option Match :=
  match run re s [] with
  | some (marks, rest) => some ⟨[], between s rest, groupTexts marks, rest⟩
  | none => none

/-- The leftmost match: `re.exec(s)` from index 0. -/
def search (re : List Atom) : Str → Option Match
  | [] => matchHere re []
  | c :: cs =>
    match matchHere re (c :: cs) with
    | some m => some m
    | none => (search re cs).map fun m => { m with before := c :: m.before }

/-- The call `s.replace(re, '$n')` for a regular expression without the `g`
flag: the first match is replaced by its capture group `n`. -/
def replaceByGroup (re : List Atom) (n : Nat) (s : Str) : Str :=
  match search re s with
  | some m => m.before ++ m.group n ++ m.after
  | none => s

/-- The loop `while ((matches = re.exec(s)) !== null)` for a regular expression
with the `g` flag and an input that the body does not change: all matches from
left to right, each search starting where the previous match ended.  `skip`
counts the characters of the current match still to pass.  (The regular
expression of the source matches no empty text.) -/
def matchAll (re : List Atom) : Str → Nat → List Match
  | [], _ => []
  | _ :: cs, skip + 1 => matchAll re cs skip
  | c :: cs, 0 =>
    match matchHere re (c :: cs) with
    | some m => m :: matchAll re cs (m.matched.length - 1)
    | none => matchAll re cs 0

/-- The first occurrence of a text: what comes before it and what comes after. -/
def findText (pat : Str) : Str → Option (Str × Str)
  | [] => if pat = [] then some ([], []) else none
  | c :: cs =>
    match stripPrefix pat (c :: cs) with
    | some rest => some ([], rest)
    | none => (findText pat cs).map fun r => (c :: r.1, r.2)

/-- The expansion of a replacement text for a text pattern (`GetSubstitution`
without captures): `$$`, `$&`, the dollar with a backtick and the dollar with an
apostrophe are special, every other character stands for itself. -/
def substitute (matched before after : Str) : Str → Str
  | [] => []
  | c :: tail =>
    if c = '$' then
      match tail with
      | [] => [c]
      | d :: rest =>
        if d = '$' then '$' :: substitute matched before after rest
        else if d = '&' then matched ++ substitute matched before after rest
        else if d.toNat = 0x60 then before ++ substitute matched before after rest
        else if d.toNat = 0x27 then after ++ substitute matched before after rest
        else c :: d :: substitute matched before after rest
    else c :: substitute matched before after tail

/-- The call `s.replace(pat, rep)` for a text pattern: only the first occurrence
is replaced. -/
def replaceText (pat rep : Str) (s : Str) : Str :=
  match findText pat s with
  | some (before, after) => before ++ substitute pat before after rep ++ after
  | none => s

/-- The call `s.split(sep)` for a separator of one character. -/
def splitOn (sep : Char) : Str → List Str
  | [] => [[]]
  | c :: cs =>
    if c = sep then [] :: splitOn sep cs
    else
      match splitOn sep cs with
      | [] => [[c]]
      | piece :: pieces => (c :: piece) :: pieces

/-- The text `<svg`. -/
def svgOpen : Str := "<svg".toList

/-- The text `>`. -/
def tagEnd : Str := ">".toList

/-- The text `</svg>`. -/
def svgClose : Str := "</svg>".toList

/-- The text `<path`. -/
def pathOpen : Str := "<path".toList

/-- The text `d="`. -/
def dOpen : Str := "d=\"".toList

/-- The text `"/>`. -/
def pathClose : Str := "\"/>".toList

/-- The regular expression `/(.*?<svg[^>]+>)(.*?)(<\/svg>)/` of the merge loop. -/
def svgRegEx : List Atom :=
  [.openGroup, .lazyStar dot, .lit svgOpen, .plus notGt, .lit tagEnd, .closeGroup,
   .openGroup, .lazyStar dot, .closeGroup,
   .openGroup, .lit svgClose, .closeGroup]

/-- The regular expression `/<path\s*d="([^"]+)"\/>/g` of the short-path filter. -/
def pathRegEx : List Atom :=
  [.lit pathOpen, .star isSpace, .lit dOpen,
   .openGroup, .plus notQuote, .closeGroup, .lit pathClose]

/-! ## The merge loop -/

/-- The variables of the merge loop: `pre` is `prefix`, `suf` is `suffix`. -/
structure MergeState where
  /-- The variable `prefix`. -/
  pre : Str
  /-- The variable `suffix`. -/
  suf : Str
  /-- The variable `svgString`. -/
  svgString : Str

/-- One iteration of `for (const svg of svgs.flat())`.  The test `!prefix` holds
iff `prefix` is the empty string. -/
def mergeStep (st : MergeState) (svg : Str) : MergeState :=
  let st₁ : MergeState :=
    if st.pre = [] then
      { pre := replaceByGroup svgRegEx 1 svg
        suf := replaceByGroup svgRegEx 3 svg
        svgString := replaceByGroup svgRegEx 1 svg }
    else st
  { st₁ with svgString := st₁.svgString ++ replaceByGroup svgRegEx 2 svg }

/-- The merge loop and the final `svgString += suffix`, on the flattened
results of the tasks. -/
def mergeSvgs (svgs : List Str) : Str :=
  let st := svgs.foldl mergeStep ⟨[], [], []⟩
  st.svgString ++ st.suf

/-- A fragment as the specification describes it: the text before the opening
svg tag, the attribute text of that tag, and the body between the opening and
the closing svg tag. -/
structure Fragment where
  /-- The text before `<svg`. -/
  lead : Str
  /-- The text between `<svg` and the `>` of the opening tag. -/
  attrs : Str
  /-- The text between the opening tag and `</svg>`. -/
  body : Str

/-- The wrapping prefix of a fragment: everything up to and including the opening svg tag. -/
def Fragment.opening (f : Fragment) : Str :=
  f.lead ++ svgOpen ++ f.attrs ++ tagEnd

/-- The text of a fragment: wrapping prefix, body, closing svg tag. -/
def Fragment.text (f : Fragment) : Str :=
  f.opening ++ f.body ++ svgClose

/-- The fragments on which the regular expression of the merge loop finds the
three parts: prefix and body are free of line terminators, the opening tag is
the first `<svg` of the fragment, it has at least one attribute character and
none of them is `>`, and `</svg>` does not begin inside the body. -/
def Fragment.OneLine (f : Fragment) : Prop :=
  (∀ c ∈ f.lead, dot c = true) ∧
  (∀ j, j < f.lead.length → ¬ svgOpen <+: (f.lead ++ svgOpen).drop j) ∧
  f.attrs ≠ [] ∧ (∀ c ∈ f.attrs, notGt c = true) ∧
  (∀ c ∈ f.body, dot c = true) ∧
  (∀ j, j < f.body.length → ¬ svgClose <+: (f.body ++ svgClose).drop j)

/-- The result of a task: the empty string or the text of a fragment. -/
def resultText : Option Fragment → Str
  | none => []
  | some f => f.text

/-- A fragment whose body holds a line feed. -/
def twoLineFragment : Fragment := ⟨[], " a".toList, "\n".toList⟩

/-- A fragment on one line with one path. -/
def redFragment : Fragment := ⟨[], " width=\"1\"".toList, "<g><path d=\"M0 0 1 1z\"/></g>".toList⟩

/-- A second fragment on one line. -/
def greenFragment : Fragment := ⟨[], " width=\"1\"".toList, "<g><path d=\"M2 2 3 3z\"/></g>".toList⟩

/-- The invariant of the merge loop: while `prefix` is empty nothing has been written. -/
def MergeState.Clean (st : MergeState) : Prop :=
  st.pre = [] → st.svgString = [] ∧ st.suf = []

/-! ## The tracing task -/

/-- The tracing parameters read by the task: the text that the template
literal gives for `params.strokeWidth`, and `params.minPathSegments`. -/
structure Params where
  /-- The text of `${params.strokeWidth}`. -/
  strokeWidth : Str
  /-- The number `params.minPathSegments`. -/
  minPathSegments : Nat

/-- The double nearest to `n / d` (IEEE 754 division, round to nearest, ties
to even) for integers `0 ≤ n < 2 ^ 53` and `0 < d < 2 ^ 53` that a double holds
exactly: the pair `(m, k)` stands for `m / 2 ^ k`, with `2 ^ 52 ≤ m ≤ 2 ^ 53`
unless `n = 0`. -/
def divDouble (n d : Nat) : Nat × Nat :=
  if n = 0 then (0, 0)
  else
    match (List.range (53 + d)).find? (fun k => decide (d * 2 ^ 52 ≤ n * 2 ^ k)) with
    | none => (0, 0)
    | some k =>
      let q := n * 2 ^ k / d
      let r := n * 2 ^ k % d
      (if d < 2 * r ∨ (2 * r = d ∧ q % 2 = 1) then q + 1 else q, k)

/-- The call `x.toFixed(2)` for `x = m / 2 ^ k` below `10 ^ 21`: the integer `n`
nearest to `100 x` (the larger one of two), written with at least three digits
and a point before the last two. -/
def toFixed2 (x : Nat × Nat) : Str :=
  let n := (200 * x.1 + 2 ^ x.2) / 2 ^ (x.2 + 1)
  let digits := decimal n
  let padded := List.replicate (3 - digits.length) '0' ++ digits
  padded.take (padded.length - 2) ++ '.' :: padded.drop (padded.length - 2)

/-- The expression `(a / 255).toFixed(2)` for a component `a` of a colour key. -/
def alphaText (a : Str) : Str :=
  match parseDecimal a with
  | none => "NaN".toList
  | some n => toFixed2 (divDouble n 255)

/-- The attributes that the tracer writes on its group element. -/
def defaultPaint : Str := "fill=\"#000000\" stroke=\"none\"".toList

/-- Element `i` of the destructuring `[r, g, b, a] = color.split(',')`, as a
template literal or `/`, `===` read it: a missing element is `undefined`. -/
def component (color : Str) (i : Nat) : Str :=
  (splitOn ',' color).getD i "undefined".toList

/-- The opacity attributes of the replacement text. -/
def opacityPaint (a : Str) : Str :=
  if a = "255".toList then []
  else " fill-opacity=\"".toList ++ alphaText a ++ "\" stroke-opacity=\"".toList ++
    alphaText a ++ "\"".toList

/-- The colour attributes of the replacement text. -/
def rgbPaint (r g b : Str) : Str :=
  "fill=\"rgb(".toList ++ r ++ ",".toList ++ g ++ ",".toList ++ b ++
    ")\" stroke=\"rgb(".toList ++ r ++ ",".toList ++ g ++ ",".toList ++ b ++ ")\"".toList

/-- The stroke-width attribute of the replacement text. -/
def widthPaint (params : Params) : Str :=
  " stroke-width=\"".toList ++ params.strokeWidth ++ "px\"".toList

/-- The replacement text of the recolouring, a template literal. -/
def paint (color : Str) (params : Params) : Str :=
  rgbPaint (component color 0) (component color 1) (component color 2) ++
    opacityPaint (component color 3) ++ widthPaint params

/-- The statement `svg = svg.replace('fill="#000000" stroke="none"', ...)`. -/
def recolour (color : Str) (params : Params) (svg : Str) : Str :=
  replaceText defaultPaint (paint color params) svg

/-- The array `shortPaths`: the matched text of every path whose `d`
attribute, split on a space, has fewer than `minPathSegments` parts. -/
def shortPaths (params : Params) (svg : Str) : List Str :=
  ((matchAll pathRegEx svg 0).filter
    (fun m => decide ((splitOn ' ' (m.group 1)).length < params.minPathSegments))).map
    Match.matched

/-- The loop `shortPaths.forEach((path) => { svg = svg.replace(path, ''); })`. -/
def removeShortPaths (params : Params) (svg : Str) : Str :=
  (shortPaths params svg).foldl (fun s path => replaceText path [] s) svg

/-- The fragment of a task after recolouring and filtering. -/
def postProcess (color : Str) (params : Params) (traced : Str) : Str :=
  removeShortPaths params (recolour color params traced)

/-- The test `/<path/.test(svg)`. -/
def hasPath (svg : Str) : Bool :=
  (search [.lit pathOpen] svg).isSome

/-- The value a task resolves with: the empty string when no path is left. -/
def taskResult (color : Str) (params : Params) (traced : Str) : Str :=
  if hasPath (postProcess color params traced) then postProcess color params traced else []

/-! ### Fragments made of path elements -/

/-- A piece of a fragment: a path element with its `d` attribute, or other text. -/
inductive Piece where
  /-- Text between path elements. -/
  | gap (text : Str)
  /-- The path element `<path d="…"/>`. -/
  | path (d : Str)
  deriving DecidableEq

/-- The text `<path d="…"/>` of a path element. -/
def pathElement (d : Str) : Str :=
  pathOpen ++ ' ' :: dOpen ++ d ++ pathClose

/-- The text of a piece. -/
def Piece.text : Piece → Str
  | .gap text => text
  | .path d => pathElement d

/-- The fragment made of a list of pieces. -/
def render (pieces : List Piece) : Str :=
  (pieces.map Piece.text).flatten

/-- Text in which no `<` is followed by `p` and which does not end in `<`:
no tag beginning with `<p` starts in it, also when more text follows. -/
def gapOk : Str → Bool
  | [] => true
  | [c] => c != '<'
  | c :: d :: rest => !(c == '<' && d == 'p') && gapOk (d :: rest)

/-- The pieces of a fragment as a tracer writes it: a `d` attribute is not
empty and holds neither a double quote nor `<`; the text around the path
elements starts no tag beginning with `<p`. -/
def Piece.Plain : Piece → Prop
  | .gap text => gapOk text = true
  | .path d => d ≠ [] ∧ ∀ c ∈ d, notQuote c = true ∧ c ≠ '<'

/-- The `d` attributes of the path elements of a list of pieces, in order. -/
def pathData : List Piece → List Str
  | [] => []
  | .gap _ :: pieces => pathData pieces
  | .path d :: pieces => d :: pathData pieces

/-- The test of the filter: the `d` attribute, split on a space, has fewer than
`minPathSegments` parts. -/
def isShort (params : Params) (d : Str) : Bool :=
  decide ((splitOn ' ' d).length < params.minPathSegments)

/-- The pieces that the filter keeps: all text, and the paths that are not short. -/
def keeps (params : Params) : Piece → Bool
  | .gap _ => true
  | .path d => !isShort params d

/-- What the filter reads of a match: the matched text and the `d` attribute. -/
def Match.seen (m : Match) : Str × Str := (m.matched, m.group 1)

/-- A fragment in which one path element stands inside the `d` attribute of
what looks like another. -/
def nestedPaths : Str := "<path d=\"<path d=\"a\"/>b\"/>".toList

/-- A recoloured fragment of two paths, of four and of two parts. -/
def twoPaths : List Piece :=
  [.gap "<svg a><g fill=\"rgb(0,255,0)\" stroke=\"rgb(0,255,0)\" stroke-width=\"2px\">".toList,
   .path "M0 0 1 1z".toList, .path "M0 0".toList, .gap "</g></svg>".toList]

/-- The fragment that the tracer returns for `twoPaths`, before recolouring. -/
def tracedTwoPaths : Str :=
  "<svg a><g fill=\"#000000\" stroke=\"none\"><path d=\"M0 0 1 1z\"/><path d=\"M0 0\"/></g></svg>".toList

/-- The key of opaque green. -/
def opaqueGreen : Str := "0,255,0,255".toList

/-- The key of green with alpha 128. -/
def halfGreen : Str := "0,255,0,128".toList

/-- Parameters with stroke width 2 and at least 3 parts per path. -/
def sampleParams : Params := ⟨"2".toList, 3⟩

/-! ### Recolouring -/

/-- The hundredths nearest to `a / 255`: the integer `n` with
`|100 a - 255 n| < 255 / 2` (a tie cannot occur, `200 a` being even and
`255 (2 n + 1)` odd). -/
def roundedHundredths (a : Nat) : Nat := (200 * a + 255) / 510

/-- A number of hundredths below 10 written with exactly two decimals. -/
def twoDecimals (n : Nat) : Str :=
  decimal (n / 100) ++ '.' :: decimal (n / 10 % 10) ++ decimal (n % 10)

/-- The characters of the texts that number-to-string conversion produces. -/
def numberChars : Str := "0123456789.e+-NaInfity".toList

/-- A tracer fragment without the default attributes. -/
def unpaintedFragment : Str := "<svg a><g><path d=\"M0 0 1 1z\"/></g></svg>".toList

/-- A tracer fragment with the default attributes on two group elements. -/
def twicePaintedFragment : Str :=
  "<svg a><g fill=\"#000000\" stroke=\"none\"><g fill=\"#000000\" stroke=\"none\"></g></g></svg>".toList

/-- The text of a tracer fragment before its default attributes. -/
def samplePre : Str := "<svg a><g ".toList

/-- The text of a tracer fragment after its default attributes. -/
def samplePost : Str := "><path d=\"M0 0 1 1z\"/></g></svg>".toList

/-- The opacity attributes for an alpha byte, as the specification describes
them: none for 255, otherwise both opacities with the rounded hundredths. -/
def specOpacity (a : Nat) : Str :=
  if a = 255 then []
  else " fill-opacity=\"".toList ++ twoDecimals (roundedHundredths a) ++
    "\" stroke-opacity=\"".toList ++ twoDecimals (roundedHundredths a) ++ "\"".toList

/-! ## The conversion

`convertToColorSVG` is asynchronous.  Its observable behaviour is modelled by
the list of what it does in order (calls of the tracer, messages posted on the
progress port) and by how its promise settles.  The tracer is a function from
the mask to what its promise does; the order in which the calls of one batch
complete is a parameter.  A continuation after `await` runs without
interruption, so `processed++` and `postMessage` of one task are one step. -/

/-- An `ImageData` object, or any object with these three properties. -/
structure ImageData where
  /-- The property `data`. -/
  data : List Byte
  /-- The property `width`. -/
  width : Nat
  /-- The property `height`. -/
  height : Nat
  deriving DecidableEq

/-- What the promise of one call `potrace(newImageData, params)` does. -/
inductive Traced where
  /-- The promise is fulfilled with a fragment. -/
  | fragment (svg : Str)
  /-- The call throws or the promise is rejected. -/
  | failure
  deriving DecidableEq

/-- A message on the progress port: `{ processed, total }` or `{ processed, total, svg }`. -/
structure ProgressEvent where
  /-- The property `processed`. -/
  processed : Nat
  /-- The property `total`. -/
  total : Nat
  /-- The property `svg`, when present. -/
  svg : Option Str
  deriving DecidableEq

/-- One observable step of a conversion. -/
inductive Action where
  /-- A call of the tracer with a mask. -/
  | trace (mask : ImageData)
  /-- A message posted on the progress port. -/
  | post (event : ProgressEvent)
  deriving DecidableEq

/-- How the promise of `convertToColorSVG` settles. -/
inductive Outcome where
  /-- Fulfilled with the document. -/
  | resolved (svg : Str)
  /-- Rejected. -/
  | rejected
  /-- Never settled. -/
  | pending
  deriving DecidableEq

/-- One entry of `Object.entries(colors)`: the key and its occurrence list. -/
abbrev Task := Str × List Nat

/-- The statements `new ImageData(width, height)` and `data.fill(255)`.  The
constructor throws when the width or the height is 0. -/
def blankMask (width height : Nat) : Option (List Byte) :=
  if width = 0 ∨ height = 0 then none
  else some (List.replicate (width * height * 4) 255)

/-- The loop over `occurrences` that blackens the mask.  A write past the end
of a typed array does nothing. -/
def paintMask (mask : List Byte) (occurrences : List Nat) : List Byte :=
  occurrences.foldl
    (fun m location =>
      (((m.set location 0).set (location + 1) 0).set (location + 2) 0).set (location + 3) 255)
    mask

/-- The mask of a task; `none` when the constructor throws. -/
def buildMask (img : ImageData) (task : Task) : Option ImageData :=
  (blankMask img.width img.height).map fun m =>
    ⟨paintMask m task.2, img.width, img.height⟩

/-- The expression `2 * navigator.hardwareConcurrency || 16`; `none` is an
absent property, for which the product is `NaN`. -/
def chunkSize (hardwareConcurrency : Option Nat) : Nat :=
  match hardwareConcurrency with
  | none => 16
  | some n => if 2 * n = 0 then 16 else 2 * n

/-- The loop `while (promises.length > 0) promiseChunks.push(promises.splice(0, chunkSize))`,
at most `fuel` times round. -/
def chunkLoop {α : Type} (size : Nat) : Nat → List α → List (List α)
  | 0, _ => []
  | _ + 1, [] => []
  | fuel + 1, p :: ps => (p :: ps).take size :: chunkLoop size fuel ((p :: ps).drop size)

/-- The array `promiseChunks` after the loop, which needs at most one round per task. -/
def promiseChunks {α : Type} (size : Nat) (promises : List α) : List (List α) :=
  chunkLoop size promises.length promises

/-- The counter `processed` and what the conversion has done so far. -/
structure RunState where
  /-- The variable `processed`. -/
  processed : Nat
  /-- The calls and messages so far, oldest first. -/
  log : List Action
  deriving DecidableEq

/-- The message of a task whose fragment is `svg` after recolouring and filtering. -/
def progressEvent (processed total : Nat) (svg : Str) : ProgressEvent :=
  if hasPath svg then ⟨processed, total, some svg⟩ else ⟨processed, total, none⟩

/-- The values of a list when none is missing. -/
def allValues {α : Type} : List (Option α) → Option (List α)
  | [] => some []
  | none :: _ => none
  | some a :: rest => (allValues rest).map (a :: ·)

/-- The calls `chunk.map((f) => f())`: every task of the batch builds its mask
and calls the tracer, in order.  `none` when a constructor throws, which
rejects the conversion; it throws for every task or for none, all masks having
the size of the image. -/
def startChunk (img : ImageData) (chunk : List Task) : Option (List ImageData) :=
  allValues (chunk.map (buildMask img))

/-- The continuation of the task at position `i` of a batch, run when its call
of the tracer completes: `processed++` and one message.  A task whose call fails
never runs its continuation. -/
def completeTask (tracer : ImageData → Traced) (params : Params) (total : Nat)
    (chunk : List (Task × ImageData)) (st : RunState) (i : Nat) : RunState :=
  match chunk[i]? with
  | none => st
  | some (task, mask) =>
    match tracer mask with
    | .failure => st
    | .fragment traced =>
      ⟨st.processed + 1,
       st.log ++ [.post (progressEvent (st.processed + 1) total
         (postProcess task.1 params traced))]⟩

/-- The continuations of the tasks of a batch, run in the order `order` in
which the calls of the tracer complete (positions in the batch). -/
def completeChunk (tracer : ImageData → Traced) (params : Params) (total : Nat)
    (chunk : List (Task × ImageData)) (order : List Nat) (st : RunState) : RunState :=
  order.foldl (completeTask tracer params total chunk) st

/-- The value that the promise of a task is resolved with; `none` when it is
never resolved, the tracer having failed. -/
def taskValue (tracer : ImageData → Traced) (params : Params) (tm : Task × ImageData) :
    Option Str :=
  match tracer tm.2 with
  | .failure => none
  | .fragment traced => some (taskResult tm.1.1 params traced)

/-- The loop `for (const chunk of promiseChunks)` from batch number `k` on,
then the merge.  `svgs` holds the results of the batches before.  The call
`Promise.all` is fulfilled with the values in the order of the tasks once all
tasks are resolved; a task promise is never rejected, so the `await` does not
return when one of them stays unresolved. -/
def runChunks (tracer : ImageData → Traced) (params : Params) (img : ImageData) (total : Nat)
    (order : Nat → List Nat) : List (List Task) → Nat → List (List Str) → RunState →
    Outcome × List Action
  | [], _, svgs, st => (.resolved (mergeSvgs svgs.flatten), st.log)
  | chunk :: chunks, k, svgs, st =>
    match startChunk img chunk with
    | none => (.rejected, st.log)
    | some masks =>
      let started : RunState := ⟨st.processed, st.log ++ masks.map .trace⟩
      let done := completeChunk tracer params total (chunk.zip masks) (order k) started
      match allValues ((chunk.zip masks).map (taskValue tracer params)) with
      | none => (.pending, done.log)
      | some values => runChunks tracer params img total order chunks (k + 1) (svgs ++ [values]) done

/-- The function `convertToColorSVG(imageData, params, progressPort)`: how its
promise settles and what it does, for a tracer, the hardware concurrency and the
completion order of every batch.  The call `init()` of the tracer is taken to
succeed. -/
def convertToColorSVG (tracer : ImageData → Traced) (hardwareConcurrency : Option Nat)
    (order : Nat → List Nat) (img : ImageData) (params : Params) : Outcome × List Action :=
  let promises := extractColors img.data
  runChunks tracer params img promises.length order
    (promiseChunks (chunkSize hardwareConcurrency) promises) 0 [] ⟨0, []⟩

/-- The messages of a log, in the order of posting. -/
def posts : List Action → List ProgressEvent
  | [] => []
  | .post event :: log => event :: posts log
  | .trace _ :: log => posts log

/-- The masks of the tracer calls of a log, in the order of the calls. -/
def traces : List Action → List ImageData
  | [] => []
  | .trace mask :: log => mask :: traces log
  | .post _ :: log => traces log

/-- The pixels of a buffer whose length is a multiple of 4, as `(r, g, b, a)`. -/
def pixels : List Byte → List (Byte × Byte × Byte × Byte)
  | r :: g :: b :: a :: rest => (r, g, b, a) :: pixels rest
  | _ => []

/-- The number of distinct colours among the pixels whose alpha byte is not 0. -/
def distinctColours (data : List Byte) : Nat :=
  ((pixels data).filter (fun p => p.2.2.2.val != 0)).dedup.length

/-- The key of a pixel. -/
def pixelKey (p : Byte × Byte × Byte × Byte) : Str :=
  rgbaKey (some p.1) (some p.2.1) (some p.2.2.1) (some p.2.2.2)

/-- A tracer that returns the same fragment of two paths for every mask. -/
def sampleTracer : ImageData → Traced := fun _ => .fragment tracedTwoPaths

/-- A tracer that fails for every mask. -/
def failingTracer : ImageData → Traced := fun _ => .failure

/-- An image of one opaque red pixel. -/
def onePixel : ImageData := ⟨[255, 0, 0, 255], 1, 1⟩

/-- One pixel of data with the dimensions of two pixels. -/
def wrongSize : ImageData := ⟨[255, 0, 0, 255], 2, 1⟩

/-- A buffer of five bytes. -/
def raggedBuffer : ImageData := ⟨[255, 0, 0, 255, 7], 1, 1⟩

/-- An image of two pixels: opaque red, and green with alpha 128. -/
def redGreen : ImageData := ⟨[255, 0, 0, 255, 0, 255, 0, 128], 2, 1⟩

/-- A completion order in which the second task of the first batch completes first. -/
def secondFirst : Nat → List Nat := fun k => if k = 0 then [1, 0] else []

/-- The log of a state continues the log of an earlier state without a
further call of the tracer. -/
def RunState.Extends (st' st : RunState) : Prop :=
  ∃ extra, st'.log = st.log ++ extra ∧ traces extra = []

/-- The invariant of the progress messages: the values of `processed` posted so
far count up from 1 to the counter, and every message carries `total`. -/
def RunState.Counted (total : Nat) (st : RunState) : Prop :=
  (posts st.log).map ProgressEvent.processed = List.range' 1 st.processed ∧
  ∀ e ∈ posts st.log, e.total = total


/-- The pixels of a buffer whose alpha byte is not 0. -/
def opaquePixels (data : List Byte) : List (Byte × Byte × Byte × Byte) :=
  (pixels data).filter (fun p => p.2.2.2.val != 0)

/-- Whether the promise of a conversion is fulfilled. -/
def Outcome.succeeded : Outcome → Bool
  | .resolved _ => true
  | _ => false

/-- The mask that a task builds for an occurrence list when the image has a
positive width and height. -/
def maskOf (img : ImageData) (occurrences : List Nat) : ImageData :=
  ⟨paintMask (List.replicate (img.width * img.height * 4) 255) occurrences,
    img.width, img.height⟩

/-- An image of two pixels, both with an alpha byte of 0. -/
def transparentImage : ImageData := ⟨[255, 0, 0, 0, 1, 2, 3, 0], 2, 1⟩

/-! ## Definitions for the later claims -/

/-- The invariant of the loop of `extractColors` at offset `i`: every list
is not empty, strictly increasing and below `i`, and the first offsets of the
lists increase in the order of the keys. -/
def Ordered (i : Nat) (c : Colors) : Prop :=
  (∀ e ∈ c, e.2 ≠ [] ∧ e.2.Pairwise (· < ·) ∧ ∀ x ∈ e.2, x < i) ∧
  (c.map (fun e => e.2.head?)).Pairwise (fun a b => ∀ x ∈ a, ∀ y ∈ b, x < y)


/-- The four writes of the mask loop for one occurrence. -/
def blacken (mask : List Byte) (location : Nat) : List Byte :=
  (((mask.set location 0).set (location + 1) 0).set (location + 2) 0).set (location + 3) 255

/-- The pixel at offset `o` of a mask is opaque black: `0, 0, 0, 255`. -/
def isBlack (mask : List Byte) (o : Nat) : Prop :=
  mask[o]? = some 0 ∧ mask[o + 1]? = some 0 ∧ mask[o + 2]? = some 0 ∧ mask[o + 3]? = some 255

/-- The pixel at offset `o` of a mask is opaque white: `255, 255, 255, 255`. -/
def isWhite (mask : List Byte) (o : Nat) : Prop :=
  mask[o]? = some 255 ∧ mask[o + 1]? = some 255 ∧ mask[o + 2]? = some 255 ∧
    mask[o + 3]? = some 255

/-- An image of two by two pixels. -/
def fourPixels : ImageData :=
  ⟨[255, 0, 0, 255, 0, 0, 0, 0, 255, 0, 0, 255, 0, 255, 0, 128], 2, 2⟩

/-- The array `promises` after at most `fuel` rounds of the loop
`while (promises.length > 0) promiseChunks.push(promises.splice(0, chunkSize))`. -/
def chunkLoopRest {α : Type} (size : Nat) : Nat → List α → List α
  | 0, ps => ps
  | _ + 1, [] => []
  | fuel + 1, p :: ps => chunkLoopRest size fuel ((p :: ps).drop size)

/-- The shape of the batches: as many as needed, none empty, all but the last full. -/
def Batched {α : Type} (size n : Nat) (chunks : List (List α)) : Prop :=
  chunks.length = (n + size - 1) / size ∧
  (∀ chunk ∈ chunks, chunk ≠ [] ∧ chunk.length ≤ size) ∧
  (∀ chunk ∈ chunks.dropLast, chunk.length = size)

/-- The array `svgs` after the loop over the batches, when every batch is
fulfilled: one array of results per batch, in the order of `Promise.all`, which
is the order of the tasks and not that of their completion. -/
def awaitChunks (tracer : ImageData → Traced) (params : Params) (img : ImageData) :
    List (List Task) → List (List Str) → Option (List (List Str))
  | [], svgs => some svgs
  | chunk :: chunks, svgs =>
    match startChunk img chunk with
    | none => none
    | some masks =>
      match allValues ((chunk.zip masks).map (taskValue tracer params)) with
      | none => none
      | some values => awaitChunks tracer params img chunks (svgs ++ [values])

/-- The value that the promise of a task of an image is resolved with, if it is. -/
def taskOutcome (tracer : ImageData → Traced) (params : Params) (img : ImageData)
    (task : Task) : Option Str :=
  taskValue tracer params (task, maskOf img task.2)

/-- A log in which the tasks are started batch by batch: with `started` tasks
started and `completed` tasks completed before it, every call of the tracer in
the log comes when all tasks of the earlier batches of `size` tasks have posted
their message, and leaves at most `size` tasks in flight. -/
def Paced (size : Nat) : Nat → Nat → List Action → Prop
  | _, _, [] => True
  | started, completed, .trace _ :: log =>
    size * (started / size) ≤ completed ∧ started + 1 ≤ completed + size ∧
      Paced size (started + 1) completed log
  | started, completed, .post _ :: log => Paced size started (completed + 1) log

/-! ## Definitions for the amended claims -/

/-- A character that ends the name of a tag: a blank, a tab, a line feed, a
carriage return, `/` or `>`. -/
def endsTagName (c : Char) : Bool :=
  c.toNat = 0x20 || c.toNat = 0x09 || c.toNat = 0x0A || c.toNat = 0x0D || c = '/' || c = '>'

/-- Whether a path element, as the specification speaks of one, starts
somewhere in a text: a tag whose name is `path`, which is the text `<path`
followed by a character that ends the name.  This follows the words of the
specification, to be compared with the test `hasPath` of the source. -/
def specHasPathElement : Str → Bool
  | [] => false
  | c :: cs =>
    (match stripPrefix pathOpen (c :: cs) with
      | some (e :: _) => endsTagName e
      | _ => false) || specHasPathElement cs

/-- A fragment with an element whose name only begins with `path`. -/
def pathology : Str := "<svg a><pathology/></svg>".toList

/-- An image of one by one pixel with a buffer of two pixels. -/
def overlong : ImageData := ⟨[255, 0, 0, 255, 0, 0, 255, 255], 1, 1⟩

end ColorWorker

namespace ColorWorker

/-! ## Colour extraction -/

theorem lookup_append (k : Str) (c₁ c₂ : Colors) :
    lookup k (c₁ ++ c₂) = (lookup k c₁).orElse (fun _ => lookup k c₂) := by
  induction c₁ with
  | nil => simp [lookup]
  | cons e c ih =>
    obtain ⟨k', v⟩ := e
    by_cases h : k' = k <;> simp [lookup, h, ih]

theorem lookup_push (k k' : Str) (i : Nat) (c : Colors) :
    lookup k (push k' i c) =
      if k = k' then (lookup k c).map (· ++ [i]) else lookup k c := by
  induction c with
  | nil => simp [lookup, push]
  | cons e c ih =>
    obtain ⟨k₀, v⟩ := e
    by_cases h₀ : k₀ = k' <;> by_cases h : k = k' <;> by_cases h₁ : k₀ = k <;>
      simp_all [lookup, push]

theorem lookup_record (k k' : Str) (i : Nat) (c : Colors) :
    (lookup k (record c k' i)).getD [] =
      if k = k' then (lookup k c).getD [] ++ [i] else (lookup k c).getD [] := by
  unfold record
  cases hl : lookup k' c with
  | none =>
    by_cases h : k = k'
    · subst h; simp [lookup_append, hl, lookup]
    · have h' : ¬ k' = k := fun e => h e.symm
      cases hk : lookup k c <;> simp [lookup_append, hk, lookup, h, h']
  | some v =>
    by_cases h : k = k'
    · subst h; simp [lookup_push, hl]
    · simp [lookup_push, h]

theorem allOffsets_push (k : Str) (i : Nat) (c : Colors) (h : lookup k c ≠ none) :
    (allOffsets (push k i c)).Perm (allOffsets c ++ [i]) := by
  induction c with
  | nil => simp [lookup] at h
  | cons e c ih =>
    obtain ⟨k₀, v⟩ := e
    by_cases h₀ : k₀ = k
    · simp only [push, h₀, if_true, allOffsets, List.map_cons, List.flatten_cons]
      rw [List.append_assoc, List.append_assoc]
      exact List.Perm.append_left _ List.perm_append_comm
    · have h' : lookup k c ≠ none := by simpa [lookup, h₀] using h
      simp only [push, h₀, if_false, allOffsets, List.map_cons, List.flatten_cons,
        List.append_assoc]
      exact List.Perm.append_left _ (ih h')

theorem allOffsets_record (k : Str) (i : Nat) (c : Colors) :
    (allOffsets (record c k i)).Perm (allOffsets c ++ [i]) := by
  unfold record
  cases hl : lookup k c with
  | none => simp [allOffsets]
  | some v => exact allOffsets_push k i c (by simp [hl])

theorem opaqueAt_cons4_zero (r g b a : Byte) (rest : List Byte) :
    opaqueAt (r :: g :: b :: a :: rest) 0 = (a.val != 0) := by
  simp [opaqueAt]

theorem opaqueAt_cons4_succ (r g b a : Byte) (rest : List Byte) (j : Nat) :
    opaqueAt (r :: g :: b :: a :: rest) (j + 1) = opaqueAt rest j := by
  have h : 4 * (j + 1) + 3 = (4 * j + 3) + 1 + 1 + 1 + 1 := by omega
  simp only [opaqueAt, h, List.getD_cons_succ]

theorem opaqueOffsets_cons4 (r g b a : Byte) (rest : List Byte) :
    opaqueOffsets (r :: g :: b :: a :: rest) =
      (if a.val = 0 then [] else [0]) ++ (opaqueOffsets rest).map (4 + ·) := by
  have hlen : (r :: g :: b :: a :: rest).length / 4 = rest.length / 4 + 1 := by
    simp only [List.length_cons]; omega
  have hfun : (opaqueAt (r :: g :: b :: a :: rest)) ∘ Nat.succ = opaqueAt rest := by
    funext j; exact opaqueAt_cons4_succ r g b a rest j
  unfold opaqueOffsets
  rw [hlen, List.range_succ_eq_map, List.filter_cons, opaqueAt_cons4_zero,
    List.filter_map, hfun]
  by_cases ha : a.val = 0
  · simp [ha, Function.comp_def]; intros; omega
  · simp [ha, Function.comp_def]; intros; omega

theorem list_induction4 {α : Type} {P : List α → Prop} (h0 : P [])
    (h1 : ∀ a, P [a]) (h2 : ∀ a b, P [a, b]) (h3 : ∀ a b c, P [a, b, c])
    (h4 : ∀ a b c d rest, P rest → P (a :: b :: c :: d :: rest)) : ∀ l, P l
  | [] => h0
  | [a] => h1 a
  | [a, b] => h2 a b
  | [a, b, c] => h3 a b c
  | a :: b :: c :: d :: rest => h4 a b c d rest (list_induction4 h0 h1 h2 h3 h4 rest)

theorem extractLoop_offsets (data : List Byte) :
    ∀ (i : Nat) (c : Colors), data.length % 4 = 0 →
      (allOffsets (extractLoop data i c)).Perm
        (allOffsets c ++ (opaqueOffsets data).map (i + ·)) := by
  induction data using list_induction4 with
  | h0 => intro i c _; simp [extractLoop, opaqueOffsets]
  | h1 a => intro i c h; simp at h
  | h2 a b => intro i c h; simp at h
  | h3 a b c => intro i c h; simp at h
  | h4 r g b a rest ih =>
    intro i c h
    have hrest : rest.length % 4 = 0 := by
      simp only [List.length_cons] at h; omega
    have hmap : ((opaqueOffsets rest).map (4 + ·)).map (i + ·) =
        (opaqueOffsets rest).map (i + 4 + ·) := by
      simp only [List.map_map]; congr 1; funext x; simp only [Function.comp]; omega
    rw [opaqueOffsets_cons4, List.map_append, hmap]
    by_cases ha : a.val = 0
    · simpa [extractLoop, ha] using ih (i + 4) c hrest
    · simp only [extractLoop, ha, if_false]
      refine (ih (i + 4) _ hrest).trans ?_
      have := (allOffsets_record (rgbaKey (some r) (some g) (some b) (some a)) i c).append_right
        ((opaqueOffsets rest).map (i + 4 + ·))
      simpa [List.append_assoc] using this

theorem extractColors_offsets (data : List Byte) (h : data.length % 4 = 0) :
    (allOffsets (extractColors data)).Perm (opaqueOffsets data) := by
  simpa [extractColors, allOffsets] using extractLoop_offsets data 0 [] h

theorem opaqueOffsets_nodup (data : List Byte) : (opaqueOffsets data).Nodup := by
  unfold opaqueOffsets
  refine List.Nodup.map ?_ (List.Nodup.filter _ (List.nodup_range _))
  intro x y hxy
  simp only at hxy
  omega

theorem mem_opaqueOffsets (data : List Byte) (h : data.length % 4 = 0) (o : Nat) :
    o ∈ opaqueOffsets data ↔
      o % 4 = 0 ∧ ∃ a, data[o + 3]? = some a ∧ a.val ≠ 0 := by
  simp only [opaqueOffsets, List.mem_map, List.mem_filter, List.mem_range, opaqueAt]
  constructor
  · rintro ⟨j, ⟨hj, hop⟩, rfl⟩
    have hlt : 4 * j + 3 < data.length := by omega
    refine ⟨by omega, data[4 * j + 3], ?_, ?_⟩
    · simp [hlt]
    · simpa [List.getD_eq_getElem?_getD, hlt] using hop
  · rintro ⟨hmod, a, hget, ha⟩
    have hlt : o + 3 < data.length := by
      by_contra hc
      rw [List.getElem?_eq_none (by omega)] at hget
      exact absurd hget (by simp)
    refine ⟨o / 4, ⟨by omega, ?_⟩, by omega⟩
    have ho : 4 * (o / 4) + 3 = o + 3 := by omega
    rw [ho]
    simp [List.getD_eq_getElem?_getD, hget, ha]

theorem mem_extractColors_iff (data : List Byte) (h : data.length % 4 = 0) (o : Nat) :
    (∃ e ∈ extractColors data, o ∈ e.2) ↔
      (o % 4 = 0 ∧ ∃ a, data[o + 3]? = some a ∧ a.val ≠ 0) := by
  rw [← mem_opaqueOffsets data h o, ← (extractColors_offsets data h).mem_iff]
  simp only [allOffsets, List.mem_flatten, List.mem_map]
  constructor
  · rintro ⟨e, he, ho⟩; exact ⟨e.2, ⟨e, he, rfl⟩, ho⟩
  · rintro ⟨l, ⟨e, he, rfl⟩, ho⟩; exact ⟨e, he, ho⟩

/-- Claim C1. For a pixel buffer whose length is a multiple of 4, the occurrence
lists returned by `extractColors` partition the non-transparent pixels: an
offset is in some list iff it is the starting offset of a pixel whose alpha byte
is not 0; no list repeats an offset and no two lists share one; and the list
lengths add up to the number of pixels with alpha different from 0. -/
theorem extractColors_partition (data : List Byte) (h : data.length % 4 = 0) :
    (∀ o, (∃ e ∈ extractColors data, o ∈ e.2) ↔
        (o % 4 = 0 ∧ ∃ a, data[o + 3]? = some a ∧ a.val ≠ 0)) ∧
    (∀ e ∈ extractColors data, e.2.Nodup) ∧
    ((extractColors data).map Prod.snd).Pairwise List.Disjoint ∧
    ((extractColors data).map (fun e => e.2.length)).sum =
      (List.range (data.length / 4)).countP (opaqueAt data) := by
  have hperm := extractColors_offsets data h
  have hnd : (allOffsets (extractColors data)).Nodup :=
    hperm.nodup_iff.mpr (opaqueOffsets_nodup data)
  have hnd' := List.nodup_flatten.mp hnd
  refine ⟨?_, ?_, hnd'.2, ?_⟩
  · exact mem_extractColors_iff data h
  · intro e he
    exact hnd'.1 e.2 (List.mem_map.mpr ⟨e, he, rfl⟩)
  · have hlen := hperm.length_eq
    simp only [allOffsets, List.length_flatten, List.map_map] at hlen
    rw [List.countP_eq_length_filter]
    simpa [opaqueOffsets, Function.comp_def] using hlen

theorem extractColors_partition_witness :
    sampleBuffer.length % 4 = 0 ∧
    (∀ o, (∃ e ∈ extractColors sampleBuffer, o ∈ e.2) ↔
        (o % 4 = 0 ∧ ∃ a, sampleBuffer[o + 3]? = some a ∧ a.val ≠ 0)) ∧
    (∀ e ∈ extractColors sampleBuffer, e.2.Nodup) ∧
    ((extractColors sampleBuffer).map Prod.snd).Pairwise List.Disjoint ∧
    ((extractColors sampleBuffer).map (fun e => e.2.length)).sum =
      (List.range (sampleBuffer.length / 4)).countP (opaqueAt sampleBuffer) :=
  ⟨by decide, extractColors_partition sampleBuffer (by decide)⟩

theorem keyAt_cons4_zero (r g b a : Byte) (rest : List Byte) :
    keyAt (r :: g :: b :: a :: rest) 0 = rgbaKey (some r) (some g) (some b) (some a) := by
  simp [keyAt]

theorem keyAt_cons4_succ (r g b a : Byte) (rest : List Byte) (j : Nat) :
    keyAt (r :: g :: b :: a :: rest) (j + 1) = keyAt rest j := by
  have h0 : 4 * (j + 1) = (4 * j) + 1 + 1 + 1 + 1 := by omega
  have h1 : 4 * (j + 1) + 1 = (4 * j + 1) + 1 + 1 + 1 + 1 := by omega
  have h2 : 4 * (j + 1) + 2 = (4 * j + 2) + 1 + 1 + 1 + 1 := by omega
  have h3 : 4 * (j + 1) + 3 = (4 * j + 3) + 1 + 1 + 1 + 1 := by omega
  simp only [keyAt, h0, h1, h2, h3, List.getElem?_cons_succ]

theorem keyOffsets_cons4 (k : Str) (r g b a : Byte) (rest : List Byte) :
    keyOffsets k (r :: g :: b :: a :: rest) =
      (if a.val ≠ 0 ∧ rgbaKey (some r) (some g) (some b) (some a) = k then [0] else []) ++
        (keyOffsets k rest).map (4 + ·) := by
  have hlen : (r :: g :: b :: a :: rest).length / 4 = rest.length / 4 + 1 := by
    simp only [List.length_cons]; omega
  have hfun : (fun j => opaqueAt (r :: g :: b :: a :: rest) j &&
        decide (keyAt (r :: g :: b :: a :: rest) j = k)) ∘ Nat.succ =
      fun j => opaqueAt rest j && decide (keyAt rest j = k) := by
    funext j
    simp only [Function.comp, Nat.succ_eq_add_one, opaqueAt_cons4_succ, keyAt_cons4_succ]
  unfold keyOffsets
  rw [hlen, List.range_succ_eq_map, List.filter_cons, opaqueAt_cons4_zero, keyAt_cons4_zero,
    List.filter_map, hfun]
  by_cases ha : a.val = 0
  · simp [ha, Function.comp_def]; intros; omega
  · by_cases hk : rgbaKey (some r) (some g) (some b) (some a) = k
    · simp [ha, hk, Function.comp_def]; intros; omega
    · simp [ha, hk, Function.comp_def]; intros; omega

theorem extractLoop_lookup (k : Str) (data : List Byte) :
    ∀ (i : Nat) (c : Colors), data.length % 4 = 0 →
      (lookup k (extractLoop data i c)).getD [] =
        (lookup k c).getD [] ++ (keyOffsets k data).map (i + ·) := by
  induction data using list_induction4 with
  | h0 => intro i c _; simp [extractLoop, keyOffsets]
  | h1 a => intro i c h; simp at h
  | h2 a b => intro i c h; simp at h
  | h3 a b c => intro i c h; simp at h
  | h4 r g b a rest ih =>
    intro i c h
    have hrest : rest.length % 4 = 0 := by
      simp only [List.length_cons] at h; omega
    have hmap : ((keyOffsets k rest).map (4 + ·)).map (i + ·) =
        (keyOffsets k rest).map (i + 4 + ·) := by
      simp only [List.map_map]; congr 1; funext x; simp only [Function.comp]; omega
    rw [keyOffsets_cons4, List.map_append, hmap]
    by_cases ha : a.val = 0
    · simpa [extractLoop, ha] using ih (i + 4) c hrest
    · simp only [extractLoop, ha, if_false]
      rw [ih (i + 4) _ hrest, lookup_record]
      by_cases hk : k = rgbaKey (some r) (some g) (some b) (some a)
      · simp [hk, ha]
      · have hk' : ¬ rgbaKey (some r) (some g) (some b) (some a) = k := fun e => hk e.symm
        simp [hk, hk']

theorem lookup_extractColors_eq (k : Str) (data : List Byte) (h : data.length % 4 = 0) :
    (lookup k (extractColors data)).getD [] = keyOffsets k data := by
  simpa [extractColors, lookup] using extractLoop_lookup k data 0 [] h

/-! ### The key encoding -/

set_option maxRecDepth 1000000 in
theorem decimal_no_comma : ∀ n : Byte, (',' : Char) ∉ decimal n.val := by
  unfold decimal; decide

set_option maxRecDepth 1000000 in
theorem parseDecimal_decimal : ∀ n : Byte, parseDecimal (decimal n.val) = some n.val := by
  unfold decimal; decide

theorem decimal_injective (n m : Byte) (h : decimal n.val = decimal m.val) : n = m := by
  have := parseDecimal_decimal n
  rw [h, parseDecimal_decimal m] at this
  exact Fin.ext (Option.some.inj this).symm

theorem append_sep_inj {sep : Char} :
    ∀ (xs xs' ys ys' : Str), sep ∉ xs → sep ∉ xs' →
      xs ++ sep :: ys = xs' ++ sep :: ys' → xs = xs' ∧ ys = ys'
  | [], [], _, _, _, _, h => by simpa using h
  | [], c :: xs', _, _, _, h', h => by
    simp only [List.nil_append, List.cons_append, List.cons.injEq] at h
    exact absurd (h.1 ▸ List.mem_cons_self _ _) h'
  | c :: xs, [], _, _, h', _, h => by
    simp only [List.nil_append, List.cons_append, List.cons.injEq] at h
    exact absurd (h.1 ▸ List.mem_cons_self _ _) h'
  | c :: xs, c' :: xs', ys, ys', h₁, h₂, h => by
    simp only [List.cons_append, List.cons.injEq] at h
    have := append_sep_inj xs xs' ys ys' (fun m => h₁ (List.mem_cons_of_mem _ m))
      (fun m => h₂ (List.mem_cons_of_mem _ m)) h.2
    exact ⟨by rw [h.1, this.1], this.2⟩

theorem rgbaKey_injective (r g b a r' g' b' a' : Byte)
    (h : rgbaKey (some r) (some g) (some b) (some a) =
      rgbaKey (some r') (some g') (some b') (some a')) :
    r = r' ∧ g = g' ∧ b = b' ∧ a = a' := by
  simp only [rgbaKey, showElem, List.append_assoc, List.singleton_append] at h
  obtain ⟨h1, h⟩ := append_sep_inj _ _ _ _ (decimal_no_comma r) (decimal_no_comma r') h
  obtain ⟨h2, h⟩ := append_sep_inj _ _ _ _ (decimal_no_comma g) (decimal_no_comma g') h
  obtain ⟨h3, h4⟩ := append_sep_inj _ _ _ _ (decimal_no_comma b) (decimal_no_comma b') h
  exact ⟨decimal_injective _ _ h1, decimal_injective _ _ h2, decimal_injective _ _ h3,
    decimal_injective _ _ h4⟩

/-- Claim C2. For a pixel buffer whose length is a multiple of 4 and a colour
`(r,g,b,a)`, offset `i` is in the occurrence list stored under the key of
`(r,g,b,a)` iff `i` is a multiple of 4, the four bytes at `i..i+3` are
`r,g,b,a`, and `a` is not 0; a pixel whose alpha byte is 0 is in no list. -/
theorem extractColors_lookup (data : List Byte) (h : data.length % 4 = 0)
    (r g b a : Byte) (i : Nat) :
    (i ∈ (lookup (rgbaKey (some r) (some g) (some b) (some a)) (extractColors data)).getD [] ↔
      (i % 4 = 0 ∧ data[i]? = some r ∧ data[i + 1]? = some g ∧ data[i + 2]? = some b ∧
        data[i + 3]? = some a ∧ a.val ≠ 0)) ∧
    (data[i + 3]? = some 0 → ∀ e ∈ extractColors data, i ∉ e.2) := by
  constructor
  · rw [lookup_extractColors_eq _ data h]
    simp only [keyOffsets, List.mem_map, List.mem_filter, List.mem_range, Bool.and_eq_true,
      decide_eq_true_eq, opaqueAt]
    constructor
    · rintro ⟨j, ⟨hj, hop, hkey⟩, rfl⟩
      have h0 : 4 * j < data.length := by omega
      have h1 : 4 * j + 1 < data.length := by omega
      have h2 : 4 * j + 2 < data.length := by omega
      have h3 : 4 * j + 3 < data.length := by omega
      simp only [keyAt, List.getElem?_eq_getElem h0, List.getElem?_eq_getElem h1,
        List.getElem?_eq_getElem h2, List.getElem?_eq_getElem h3] at hkey
      obtain ⟨e0, e1, e2, e3⟩ := rgbaKey_injective _ _ _ _ _ _ _ _ hkey
      refine ⟨by omega, ?_, ?_, ?_, ?_, ?_⟩
      · rw [List.getElem?_eq_getElem h0, e0]
      · rw [List.getElem?_eq_getElem h1, e1]
      · rw [List.getElem?_eq_getElem h2, e2]
      · rw [List.getElem?_eq_getElem h3, e3]
      · have : (data.getD (4 * j + 3) 0) = a := by
          rw [List.getD_eq_getElem?_getD, List.getElem?_eq_getElem h3, ← e3]; rfl
        rw [this] at hop
        simpa using hop
    · rintro ⟨hmod, e0, e1, e2, e3, ha⟩
      have hlt : i + 3 < data.length := by
        by_contra hc
        rw [List.getElem?_eq_none (by omega)] at e3
        exact absurd e3 (by simp)
      have hi : 4 * (i / 4) = i := by omega
      refine ⟨i / 4, ⟨by omega, ?_, ?_⟩, hi⟩
      · rw [hi, List.getD_eq_getElem?_getD, e3]; simpa using ha
      · simp only [keyAt, hi, e0, e1, e2, e3]
  · intro h0 e he hi
    have := (mem_extractColors_iff data h i).mp ⟨e, he, hi⟩
    obtain ⟨_, a', ha', hne⟩ := this
    rw [h0] at ha'
    exact hne (by rw [← Option.some.inj ha']; rfl)

theorem extractColors_lookup_witness :
    sampleBuffer.length % 4 = 0 ∧
    ((8 ∈ (lookup (rgbaKey (some 255) (some 0) (some 0) (some 255))
        (extractColors sampleBuffer)).getD [] ↔
      (8 % 4 = 0 ∧ sampleBuffer[8]? = some 255 ∧ sampleBuffer[8 + 1]? = some 0 ∧
        sampleBuffer[8 + 2]? = some 0 ∧ sampleBuffer[8 + 3]? = some 255 ∧
        (255 : Byte).val ≠ 0)) ∧
    (sampleBuffer[8 + 3]? = some 0 → ∀ e ∈ extractColors sampleBuffer, 8 ∉ e.2)) ∧
    ((4 ∈ (lookup (rgbaKey (some 9) (some 9) (some 9) (some 0))
        (extractColors sampleBuffer)).getD [] ↔
      (4 % 4 = 0 ∧ sampleBuffer[4]? = some 9 ∧ sampleBuffer[4 + 1]? = some 9 ∧
        sampleBuffer[4 + 2]? = some 9 ∧ sampleBuffer[4 + 3]? = some 0 ∧
        (0 : Byte).val ≠ 0)) ∧
    (sampleBuffer[4 + 3]? = some 0 → ∀ e ∈ extractColors sampleBuffer, 4 ∉ e.2)) :=
  ⟨by decide, extractColors_lookup sampleBuffer (by decide) 255 0 0 255 8,
    extractColors_lookup sampleBuffer (by decide) 9 9 9 0 4⟩

/-! ## The matcher -/

theorem stripPrefix_eq_some (p s s' : Str) : stripPrefix p s = some s' ↔ s = p ++ s' := by
  induction p generalizing s with
  | nil => simp [stripPrefix, eq_comm]
  | cons a p ih =>
    cases s with
    | nil => simp [stripPrefix]
    | cons c cs =>
      by_cases h : a = c
      · simp [stripPrefix, h, ih]
      · have h' : ¬ c = a := fun e => h e.symm
        simp [stripPrefix, h, h']

theorem stripPrefix_append (p s : Str) : stripPrefix p (p ++ s) = some s :=
  (stripPrefix_eq_some p (p ++ s) s).mpr rfl

theorem stripPrefix_eq_none (p s : Str) (h : ¬ p <+: s) : stripPrefix p s = none := by
  cases hs : stripPrefix p s with
  | none => rfl
  | some s' => exact absurd ⟨s', ((stripPrefix_eq_some p s s').mp hs).symm⟩ h

theorem between_append (x y : Str) : between (x ++ y) y = x := by
  simp [between]

theorem lazyStar_sound {R : Type} (cls : Char → Bool) (k : Str → Option R) (r : R) :
    ∀ s, lazyStar cls k s = some r →
      ∃ xs rest, s = xs ++ rest ∧ (∀ c ∈ xs, cls c = true) ∧ k rest = some r
  | [], h => ⟨[], [], rfl, by simp, by simpa [lazyStar] using h⟩
  | c :: cs, h => by
    simp only [lazyStar] at h
    cases hk : k (c :: cs) with
    | some r' =>
      rw [hk] at h
      exact ⟨[], c :: cs, rfl, by simp, by rw [hk]; exact h⟩
    | none =>
      rw [hk] at h
      by_cases hc : cls c = true
      · simp only [hc, if_true] at h
        obtain ⟨xs, rest, e, hx, hr⟩ := lazyStar_sound cls k r cs h
        refine ⟨c :: xs, rest, by rw [e]; rfl, ?_, hr⟩
        intro d hd
        rcases List.mem_cons.mp hd with rfl | hd
        · exact hc
        · exact hx d hd
      · simp [hc] at h

theorem greedyStar_sound {R : Type} (cls : Char → Bool) (k : Str → Option R) (r : R) :
    ∀ s, greedyStar cls k s = some r →
      ∃ xs rest, s = xs ++ rest ∧ (∀ c ∈ xs, cls c = true) ∧ k rest = some r
  | [], h => ⟨[], [], rfl, by simp, by simpa [greedyStar] using h⟩
  | c :: cs, h => by
    simp only [greedyStar] at h
    by_cases hc : cls c = true
    · simp only [hc, if_true] at h
      cases hg : greedyStar cls k cs with
      | some r' =>
        rw [hg] at h
        have h' : greedyStar cls k cs = some r := by rw [hg]; exact h
        obtain ⟨xs, rest, e, hx, hr⟩ := greedyStar_sound cls k r cs h'
        refine ⟨c :: xs, rest, by rw [e]; rfl, ?_, hr⟩
        intro d hd
        rcases List.mem_cons.mp hd with rfl | hd
        · exact hc
        · exact hx d hd
      | none =>
        rw [hg] at h
        exact ⟨[], c :: cs, rfl, by simp, h⟩
    · simp only [hc] at h
      exact ⟨[], c :: cs, rfl, by simp, by simpa using h⟩

theorem greedyPlus_sound {R : Type} (cls : Char → Bool) (k : Str → Option R) (r : R)
    (s : Str) (h : greedyPlus cls k s = some r) :
    ∃ xs rest, s = xs ++ rest ∧ xs ≠ [] ∧ (∀ c ∈ xs, cls c = true) ∧ k rest = some r := by
  cases s with
  | nil => simp [greedyPlus] at h
  | cons c cs =>
    by_cases hc : cls c = true
    · simp only [greedyPlus, hc, if_true] at h
      obtain ⟨xs, rest, e, hx, hr⟩ := greedyStar_sound cls k r cs h
      refine ⟨c :: xs, rest, by rw [e]; rfl, by simp, ?_, hr⟩
      intro d hd
      rcases List.mem_cons.mp hd with rfl | hd
      · exact hc
      · exact hx d hd
    · simp [greedyPlus, hc] at h

theorem lazyStar_of_some {R : Type} (cls : Char → Bool) (k : Str → Option R) (r : R)
    (s : Str) (h : k s = some r) : lazyStar cls k s = some r := by
  cases s with
  | nil => simpa [lazyStar] using h
  | cons c cs => simp [lazyStar, h]

theorem lazyStar_skip {R : Type} (cls : Char → Bool) (k : Str → Option R) (rest : Str) :
    ∀ xs : Str, (∀ c ∈ xs, cls c = true) →
      (∀ j, j < xs.length → k (xs.drop j ++ rest) = none) →
      lazyStar cls k (xs ++ rest) = lazyStar cls k rest
  | [], _, _ => rfl
  | c :: xs, hx, hk => by
    have h0 : k (c :: (xs ++ rest)) = none := by
      simpa using hk 0 (by simp)
    have hc : cls c = true := hx c (List.mem_cons_self _ _)
    have ih := lazyStar_skip cls k rest xs (fun d hd => hx d (List.mem_cons_of_mem _ hd))
      (fun j hj => by simpa using hk (j + 1) (by simpa using hj))
    show lazyStar cls k (c :: (xs ++ rest)) = lazyStar cls k rest
    rw [lazyStar, h0]
    simp only [hc, if_true]
    exact ih

theorem greedyStar_run {R : Type} (cls : Char → Bool) (k : Str → Option R) (r : R)
    (rest : Str) (hrest : ∀ d rest', rest = d :: rest' → cls d = false)
    (hk : k rest = some r) :
    ∀ xs : Str, (∀ c ∈ xs, cls c = true) → greedyStar cls k (xs ++ rest) = some r
  | [], _ => by
    cases rest with
    | nil => simpa [greedyStar] using hk
    | cons d rest' => simp [greedyStar, hrest d rest' rfl, hk]
  | c :: xs, hx => by
    have hc : cls c = true := hx c (List.mem_cons_self _ _)
    have ih := greedyStar_run cls k r rest hrest hk xs
      (fun d hd => hx d (List.mem_cons_of_mem _ hd))
    simp [greedyStar, hc, ih]

theorem greedyPlus_run {R : Type} (cls : Char → Bool) (k : Str → Option R) (r : R)
    (rest : Str) (hrest : ∀ d rest', rest = d :: rest' → cls d = false)
    (hk : k rest = some r) (xs : Str) (hne : xs ≠ []) (hx : ∀ c ∈ xs, cls c = true) :
    greedyPlus cls k (xs ++ rest) = some r := by
  cases xs with
  | nil => exact absurd rfl hne
  | cons c xs =>
    have hc : cls c = true := hx c (List.mem_cons_self _ _)
    have := greedyStar_run cls k r rest hrest hk xs
      (fun d hd => hx d (List.mem_cons_of_mem _ hd))
    simp [greedyPlus, hc, this]

theorem search_of_matchHere (re : List Atom) (s : Str) (m : Match)
    (h : matchHere re s = some m) : search re s = some m := by
  cases s with
  | nil => simpa [search] using h
  | cons c cs => simp [search, h]

theorem search_sound (re : List Atom) (m : Match) :
    ∀ s, search re s = some m →
      ∃ t, s = m.before ++ t ∧ matchHere re t = some { m with before := [] }
  | [], h => by
    simp only [search] at h
    have hb : m.before = [] := by
      unfold matchHere at h
      split at h
      · rw [← Option.some.inj h]
      · exact absurd h (by simp)
    refine ⟨[], by simp [hb], ?_⟩
    rw [h, ← hb]
  | c :: cs, h => by
    simp only [search] at h
    cases hm : matchHere re (c :: cs) with
    | some m' =>
      rw [hm] at h
      have e : m' = m := Option.some.inj h
      have hb : m.before = [] := by
        unfold matchHere at hm
        split at hm
        · rw [← e, ← Option.some.inj hm]
        · exact absurd hm (by simp)
      refine ⟨c :: cs, by simp [hb], ?_⟩
      rw [hm, e, ← hb]
    | none =>
      rw [hm] at h
      cases hs : search re cs with
      | none => rw [hs] at h; exact absurd h (by simp)
      | some m₁ =>
        rw [hs] at h
        have e : m = { m₁ with before := c :: m₁.before } := (Option.some.inj h).symm
        obtain ⟨t, ht, hmt⟩ := search_sound re m₁ cs hs
        refine ⟨t, ?_, ?_⟩
        · rw [e]; simp only [List.cons_append]; rw [← ht]
        · rw [hmt, e]

/-! ## The merge loop -/

theorem run_svgRegEx_sound (s : Str) (marks : List Str) (rest : Str)
    (h : run svgRegEx s [] = some (marks, rest)) :
    ∃ a attrs b, s = a ++ (svgOpen ++ (attrs ++ (tagEnd ++ (b ++ (svgClose ++ rest))))) ∧
      attrs ≠ [] ∧
      marks = [s, b ++ (svgClose ++ rest), b ++ (svgClose ++ rest),
        svgClose ++ rest, svgClose ++ rest, rest] := by
  simp only [svgRegEx, run, List.nil_append, List.cons_append] at h
  obtain ⟨a, r1, e1, -, h⟩ := lazyStar_sound _ _ _ _ h
  cases h1 : stripPrefix svgOpen r1 with
  | none => simp [h1] at h
  | some r2 =>
    simp only [h1] at h
    obtain ⟨attrs, r3, e3, hne, -, h⟩ := greedyPlus_sound _ _ _ _ h
    cases h3 : stripPrefix tagEnd r3 with
    | none => simp [h3] at h
    | some r4 =>
      simp only [h3] at h
      obtain ⟨b, r5, e5, -, h⟩ := lazyStar_sound _ _ _ _ h
      cases h5 : stripPrefix svgClose r5 with
      | none => simp [h5] at h
      | some r6 =>
        simp only [h5, Option.some.injEq, Prod.mk.injEq] at h
        rw [stripPrefix_eq_some] at h1 h3 h5
        obtain ⟨hm, hr⟩ := h
        subst hr
        refine ⟨a, attrs, b, ?_, hne, ?_⟩
        · rw [e1, h1, e3, h3, e5, h5]
        · rw [← hm, e5, h5]

theorem svgOpen_ne_nil : svgOpen ≠ [] := by decide

theorem search_svgRegEx_group (s : Str) (m : Match) (h : search svgRegEx s = some m) :
    m.group 1 ≠ [] := by
  obtain ⟨t, -, hm⟩ := search_sound _ _ _ h
  unfold matchHere at hm
  cases hr : run svgRegEx t [] with
  | none => simp [hr] at hm
  | some r =>
    obtain ⟨marks, rest⟩ := r
    simp only [hr, Option.some.injEq] at hm
    obtain ⟨a, attrs, b, e, hne, hmarks⟩ := run_svgRegEx_sound t marks rest hr
    have hg : m.groups = groupTexts marks := by
      have := congrArg Match.groups hm
      simpa using this.symm
    have e' : t = (a ++ svgOpen ++ attrs ++ tagEnd) ++ (b ++ (svgClose ++ rest)) := by
      rw [e]; simp only [List.append_assoc]
    have h1 : m.group 1 = a ++ svgOpen ++ attrs ++ tagEnd := by
      simp only [Match.group, hg, hmarks, groupTexts]
      simp only [Nat.sub_self, List.getD_cons_zero]
      rw [e', between_append]
    rw [h1]
    intro hnil
    simp only [List.append_eq_nil] at hnil
    exact hne hnil.1.2

theorem replaceByGroup_one_eq_nil (s : Str) (h : replaceByGroup svgRegEx 1 s = []) : s = [] := by
  unfold replaceByGroup at h
  cases hs : search svgRegEx s with
  | none => simpa [hs] using h
  | some m =>
    simp only [hs, List.append_eq_nil] at h
    exact absurd h.1.2 (search_svgRegEx_group s m hs)

theorem stripPrefix_drop_none (p xs : Str)
    (h : ∀ j, j < xs.length → ¬ p <+: (xs ++ p).drop j) (j : Nat) (hj : j < xs.length)
    (more : Str) : stripPrefix p (xs.drop j ++ (p ++ more)) = none := by
  apply stripPrefix_eq_none
  intro hp
  apply h j hj
  have e : (xs ++ p).drop j = xs.drop j ++ p := by
    rw [List.drop_append_of_le_length (Nat.le_of_lt hj)]
  rw [e]
  have h2 : (xs.drop j ++ p) <+: xs.drop j ++ (p ++ more) := by
    rw [← List.append_assoc]; exact List.prefix_append _ _
  exact List.prefix_of_prefix_length_le hp h2 (by simp)

theorem run_svgRegEx_fragment (f : Fragment) (h : f.OneLine) :
    run svgRegEx f.text [] =
      some ([f.text, f.body ++ svgClose, f.body ++ svgClose, svgClose, svgClose, []], []) := by
  obtain ⟨hlead, hfirst, hne, hattrs, hbody, hclose⟩ := h
  have etext : f.text = f.lead ++ (svgOpen ++ (f.attrs ++ (tagEnd ++ (f.body ++ (svgClose ++ []))))) := by
    simp [Fragment.text, Fragment.opening]
  simp only [svgRegEx, run, List.nil_append, List.cons_append]
  generalize f.text = whole at etext ⊢
  rw [etext]
  rw [lazyStar_skip _ _ _ _ hlead]
  · apply lazyStar_of_some
    simp only [stripPrefix_append]
    apply greedyPlus_run _ _ _ _ _ _ _ hne hattrs
    · intro d rest' e
      have : d = '>' := by
        have := congrArg List.head? e
        simpa [tagEnd] using this.symm
      rw [this]; decide
    · simp only [stripPrefix_append]
      rw [lazyStar_skip _ _ _ _ hbody]
      · apply lazyStar_of_some
        have hself : stripPrefix svgClose svgClose = some [] :=
          (stripPrefix_eq_some _ _ _).mpr (by simp)
        simp only [List.append_nil, hself]
      · intro j hj
        simp only [stripPrefix_drop_none svgClose f.body hclose j hj []]
  · intro j hj
    simp only [stripPrefix_drop_none svgOpen f.lead hfirst j hj _]

theorem replaceByGroup_fragment (f : Fragment) (h : f.OneLine) :
    replaceByGroup svgRegEx 1 f.text = f.opening ∧
    replaceByGroup svgRegEx 2 f.text = f.body ∧
    replaceByGroup svgRegEx 3 f.text = svgClose := by
  have hm : matchHere svgRegEx f.text =
      some ⟨[], f.text, [f.opening, f.body, svgClose], []⟩ := by
    have e1 : f.text = f.opening ++ (f.body ++ svgClose) := by
      simp [Fragment.text]
    have b1 : between f.text (f.body ++ svgClose) = f.opening := by
      rw [e1, between_append]
    have b3 : between svgClose [] = svgClose := by simp [between]
    simp only [matchHere, run_svgRegEx_fragment f h, groupTexts, between_append, b1, b3]
    simp [between]
  have hs := search_of_matchHere _ _ _ hm
  simp [replaceByGroup, hs, Match.group]


theorem replaceByGroup_nil (n : Nat) : replaceByGroup svgRegEx n [] = [] := by
  have : search svgRegEx [] = none := rfl
  simp [replaceByGroup, this]

theorem mergeStep_nil (st : MergeState) (h : st.Clean) : mergeStep st [] = st := by
  obtain ⟨p, s, str⟩ := st
  by_cases hp : p = []
  · obtain ⟨h1, h2⟩ := h hp
    simp only at h1 h2 hp
    subst hp h1 h2
    simp [mergeStep, replaceByGroup_nil]
  · simp [mergeStep, hp, replaceByGroup_nil]

theorem mergeStep_clean (st : MergeState) (svg : Str) (h : st.Clean) :
    (mergeStep st svg).Clean := by
  obtain ⟨p, s, str⟩ := st
  by_cases hp : p = []
  · intro hpre
    simp only [mergeStep, hp, if_true] at hpre
    have hsvg := replaceByGroup_one_eq_nil svg hpre
    subst hsvg
    simp only [mergeStep, hp, if_true, replaceByGroup_nil, List.append_nil, and_self]
  · intro hpre
    simp only [mergeStep, hp, if_false] at hpre

theorem foldl_mergeStep_filter (svgs : List Str) :
    ∀ st : MergeState, st.Clean →
      svgs.foldl mergeStep st = (svgs.filter (fun s => decide (s ≠ []))).foldl mergeStep st := by
  induction svgs with
  | nil => intro st _; rfl
  | cons svg svgs ih =>
    intro st h
    by_cases hs : svg = []
    · subst hs
      simp only [List.foldl_cons, mergeStep_nil st h]
      rw [ih st h]
      simp
    · simp only [List.foldl_cons]
      rw [ih _ (mergeStep_clean st svg h)]
      simp [hs]

theorem clean_init : (⟨[], [], []⟩ : MergeState).Clean := fun _ => ⟨rfl, rfl⟩

theorem foldl_mergeStep_replicate (n : Nat) (st : MergeState) (h : st.Clean) :
    (List.replicate n ([] : Str)).foldl mergeStep st = st := by
  induction n with
  | zero => rfl
  | succ n ih => simp only [List.replicate_succ, List.foldl_cons, mergeStep_nil st h, ih]

theorem foldl_mergeStep_fragments (fs : List Fragment) (h : ∀ f ∈ fs, f.OneLine) :
    ∀ st : MergeState, st.pre ≠ [] →
      (fs.map Fragment.text).foldl mergeStep st =
        { st with svgString := st.svgString ++ (fs.map Fragment.body).flatten } := by
  induction fs with
  | nil => intro st _; simp
  | cons f fs ih =>
    intro st hp
    have hf := replaceByGroup_fragment f (h f (List.mem_cons_self _ _))
    have hstep : mergeStep st f.text = { st with svgString := st.svgString ++ f.body } := by
      simp [mergeStep, hp, hf.2.1]
    simp only [List.map_cons, List.foldl_cons, hstep]
    have := ih (fun g hg => h g (List.mem_cons_of_mem _ hg))
      ⟨st.pre, st.suf, st.svgString ++ f.body⟩ hp
    simp only at this
    rw [this]
    simp

theorem opening_ne_nil (f : Fragment) : f.opening ≠ [] := by
  simp [Fragment.opening, tagEnd]

theorem text_ne_nil (f : Fragment) : f.text ≠ [] := by
  simp [Fragment.text, svgClose]

theorem filter_resultText (frs : List (Option Fragment)) :
    (frs.map resultText).filter (fun s => decide (s ≠ [])) =
      (frs.filterMap id).map Fragment.text := by
  induction frs with
  | nil => rfl
  | cons fr frs ih =>
    cases fr with
    | none => simpa [resultText] using ih
    | some f =>
      simp only [List.map_cons, resultText, List.filterMap_cons, id]
      rw [List.filter_cons_of_pos (by simpa using text_ne_nil f), ih]

theorem mergeSvgs_fragments (f₀ : Fragment) (fs : List Fragment)
    (h : ∀ f ∈ f₀ :: fs, f.OneLine) :
    mergeSvgs ((f₀ :: fs).map Fragment.text) =
      f₀.opening ++ ((f₀ :: fs).map Fragment.body).flatten ++ svgClose := by
  have hf := replaceByGroup_fragment f₀ (h f₀ (List.mem_cons_self _ _))
  have hstep : mergeStep ⟨[], [], []⟩ f₀.text =
      ⟨f₀.opening, svgClose, f₀.opening ++ f₀.body⟩ := by
    simp [mergeStep, hf.1, hf.2.1, hf.2.2]
  simp only [mergeSvgs, List.map_cons, List.foldl_cons, hstep]
  rw [foldl_mergeStep_fragments fs (fun g hg => h g (List.mem_cons_of_mem _ hg)) _
    (opening_ne_nil f₀)]
  simp

theorem mergeSvgs_filter (svgs : List Str) :
    mergeSvgs svgs = mergeSvgs (svgs.filter (fun s => decide (s ≠ []))) := by
  simp only [mergeSvgs, foldl_mergeStep_filter svgs _ clean_init]

/-- Claim C3 as stated, refuted. A single fragment made of the opening tag
`<svg a>`, a body holding a line feed and the closing tag is merged into three
copies of itself, not into prefix, body and closing tag. -/
theorem mergeSvgs_twoLine_counterexample :
    mergeSvgs [resultText (some twoLineFragment)] =
      twoLineFragment.text ++ twoLineFragment.text ++ twoLineFragment.text ∧
    mergeSvgs [resultText (some twoLineFragment)] ≠
      twoLineFragment.opening ++ ([twoLineFragment].map Fragment.body).flatten ++ svgClose := by
  decide

/-- Claim C3 as amended. Merging an ordered list of results, each empty or a
fragment made of a wrapping prefix ending in the opening svg tag, a body and the
closing svg tag, where prefix and body hold no line terminator, the opening tag
is the first `<svg` of the fragment and has a non-empty attribute text without
`>`, and `</svg>` does not begin inside the body: if the list has a first
non-empty fragment `f₀`, the document is the prefix of `f₀`, then the bodies of
all non-empty fragments in their original order, then one closing svg tag. -/
theorem mergeSvgs_oneLine (frs : List (Option Fragment)) (f₀ : Fragment) (fs : List Fragment)
    (hfirst : frs.filterMap id = f₀ :: fs) (hline : ∀ f ∈ f₀ :: fs, f.OneLine) :
    mergeSvgs (frs.map resultText) =
      f₀.opening ++ ((f₀ :: fs).map Fragment.body).flatten ++ svgClose := by
  rw [mergeSvgs_filter, filter_resultText, hfirst]
  exact mergeSvgs_fragments f₀ fs hline

theorem redFragment_oneLine : redFragment.OneLine := by
  unfold Fragment.OneLine; decide

theorem greenFragment_oneLine : greenFragment.OneLine := by
  unfold Fragment.OneLine; decide

theorem mergeSvgs_oneLine_witness :
    mergeSvgs ([none, some redFragment, none, some greenFragment].map resultText) =
      redFragment.opening ++
        ((redFragment :: [greenFragment]).map Fragment.body).flatten ++ svgClose :=
  mergeSvgs_oneLine [none, some redFragment, none, some greenFragment] redFragment
    [greenFragment] rfl (by
      intro f hf
      rcases List.mem_cons.mp hf with rfl | hf
      · exact redFragment_oneLine
      · rcases List.mem_cons.mp hf with rfl | hf
        · exact greenFragment_oneLine
        · exact absurd hf (List.not_mem_nil _))

/-- Claim C4. Empty fragments contribute nothing to the merge: the merged
document of a list of results is the merged document of the list without its
empty strings, wherever they stand, and a list of empty results only (of any
length, also 0) merges to the empty string. -/
theorem mergeSvgs_skips_empty (svgs : List Str) (n : Nat) :
    mergeSvgs svgs = mergeSvgs (svgs.filter (fun s => decide (s ≠ []))) ∧
    mergeSvgs (List.replicate n []) = [] := by
  constructor
  · exact mergeSvgs_filter svgs
  · simp only [mergeSvgs, foldl_mergeStep_replicate n _ clean_init, List.append_nil]


/-! ## The short-path filter -/

theorem stripPrefix_cons_ne (a c : Char) (p s : Str) (h : a ≠ c) :
    stripPrefix (a :: p) (c :: s) = none := by
  simp [stripPrefix, h]

theorem pathOpen_eq : pathOpen = '<' :: 'p' :: "ath".toList := by decide

theorem run_pathRegEx_pathElement (d rest : Str) (hne : d ≠ [])
    (hq : ∀ c ∈ d, notQuote c = true) :
    run pathRegEx (pathElement d ++ rest) [] =
      some ([d ++ (pathClose ++ rest), pathClose ++ rest], rest) := by
  have e : pathElement d ++ rest =
      pathOpen ++ ([' '] ++ (dOpen ++ (d ++ (pathClose ++ rest)))) := by
    simp [pathElement]
  rw [e]
  simp only [pathRegEx, run, List.nil_append, stripPrefix_append]
  apply greedyStar_run
  · intro c rest' h
    have : c = 'd' := by
      have := congrArg List.head? h
      simpa [dOpen] using this.symm
    rw [this]; decide
  · simp only [stripPrefix_append]
    apply greedyPlus_run _ _ _ _ _ _ _ hne hq
    · intro c rest' h
      have : c = Char.ofNat 0x22 := by
        have := congrArg List.head? h
        simpa [pathClose] using this.symm
      rw [this]; decide
    · simp only [stripPrefix_append]; rfl
  · intro c hc
    have : c = ' ' := by simpa using hc
    rw [this]; decide

theorem matchHere_pathElement (d rest : Str) (hne : d ≠ [])
    (hq : ∀ c ∈ d, notQuote c = true) :
    matchHere pathRegEx (pathElement d ++ rest) = some ⟨[], pathElement d, [d], rest⟩ := by
  have b1 : between (d ++ (pathClose ++ rest)) (pathClose ++ rest) = d := between_append _ _
  simp only [matchHere, run_pathRegEx_pathElement d rest hne hq, groupTexts, between_append, b1]

theorem gapOk_tail (c : Char) (g : Str) (h : gapOk (c :: g) = true) : gapOk g = true := by
  cases g with
  | nil => rfl
  | cons d rest =>
    simp only [gapOk, Bool.and_eq_true] at h
    exact h.2

theorem gapOk_head (c : Char) (g rest p : Str) (h : gapOk (c :: g) = true) :
    stripPrefix ('<' :: 'p' :: p) (c :: g ++ rest) = none := by
  by_cases hc : c = '<'
  · subst hc
    cases g with
    | nil => simp [gapOk] at h
    | cons d g' =>
      have hd : d ≠ 'p' := by
        intro e; subst e; simp [gapOk] at h
      have hd' : ¬ 'p' = d := fun e => hd e.symm
      simp [stripPrefix, hd']
  · exact stripPrefix_cons_ne _ _ _ _ (fun e => hc e.symm)


theorem matchHere_gap (c : Char) (g rest : Str) (h : gapOk (c :: g) = true) :
    matchHere pathRegEx (c :: g ++ rest) = none := by
  have := gapOk_head c g rest "ath".toList h
  rw [← pathOpen_eq] at this
  simp only [matchHere, pathRegEx, run, this]

theorem matchAll_gap (rest : Str) :
    ∀ g : Str, gapOk g = true → matchAll pathRegEx (g ++ rest) 0 = matchAll pathRegEx rest 0
  | [], _ => rfl
  | c :: g, h => by
    have hm := matchHere_gap c g rest h
    show matchAll pathRegEx (c :: (g ++ rest)) 0 = _
    rw [matchAll]
    have hm' : matchHere pathRegEx (c :: (g ++ rest)) = none := hm
    rw [hm']
    exact matchAll_gap rest g (gapOk_tail c g h)

theorem matchAll_skip (re : List Atom) (rest : Str) :
    ∀ xs : Str, matchAll re (xs ++ rest) xs.length = matchAll re rest 0
  | [] => rfl
  | c :: xs => by
    show matchAll re (c :: (xs ++ rest)) (xs.length + 1) = _
    rw [matchAll]
    exact matchAll_skip re rest xs

theorem pathElement_eq_cons (d : Str) :
    pathElement d = '<' :: ("path d=\"".toList ++ d ++ pathClose) := by
  simp [pathElement, pathOpen, dOpen]

theorem matchAll_pathElement (d rest : Str) (hne : d ≠ [])
    (hq : ∀ c ∈ d, notQuote c = true) :
    matchAll pathRegEx (pathElement d ++ rest) 0 =
      ⟨[], pathElement d, [d], rest⟩ :: matchAll pathRegEx rest 0 := by
  have hm := matchHere_pathElement d rest hne hq
  rw [pathElement_eq_cons] at hm ⊢
  simp only [List.cons_append] at hm ⊢
  rw [matchAll, hm]
  simp only [List.length_cons, Nat.add_sub_cancel]
  rw [matchAll_skip]

theorem matchAll_render (pieces : List Piece) (h : ∀ p ∈ pieces, p.Plain) :
    (matchAll pathRegEx (render pieces) 0).map Match.seen =
      (pathData pieces).map (fun d => (pathElement d, d)) := by
  induction pieces with
  | nil => rfl
  | cons p ps ih =>
    have ih' := ih (fun q hq => h q (List.mem_cons_of_mem _ hq))
    have hp := h p (List.mem_cons_self _ _)
    cases p with
    | gap g =>
      have : render (Piece.gap g :: ps) = g ++ render ps := by simp [render, Piece.text]
      rw [this, matchAll_gap _ g hp]
      simpa [pathData] using ih'
    | path d =>
      have : render (Piece.path d :: ps) = pathElement d ++ render ps := by
        simp [render, Piece.text]
      rw [this, matchAll_pathElement d _ hp.1 (fun c hc => (hp.2 c hc).1)]
      simp [pathData, ih', Match.seen, Match.group]


theorem substitute_nil (m b a : Str) : substitute m b a [] = [] := rfl

theorem replaceText_cons_of_none (pat : Str) (c : Char) (s : Str)
    (h : stripPrefix pat (c :: s) = none) :
    replaceText pat [] (c :: s) = c :: replaceText pat [] s := by
  unfold replaceText
  rw [findText, h]
  cases findText pat s with
  | none => rfl
  | some r => simp [substitute_nil]

theorem replaceText_at (pat rest : Str) (hne : pat ≠ []) :
    replaceText pat [] (pat ++ rest) = rest := by
  cases pat with
  | nil => exact absurd rfl hne
  | cons a p =>
    have h := stripPrefix_append (a :: p) rest
    show replaceText (a :: p) [] (a :: (p ++ rest)) = rest
    have h' : stripPrefix (a :: p) (a :: (p ++ rest)) = some rest := h
    unfold replaceText
    rw [findText, h']
    rfl

theorem replaceText_nil (pat : Str) (hne : pat ≠ []) : replaceText pat [] [] = [] := by
  simp [replaceText, findText, hne]

theorem replaceText_gap (d rest : Str) :
    ∀ g : Str, gapOk g = true →
      replaceText (pathElement d) [] (g ++ rest) = g ++ replaceText (pathElement d) [] rest
  | [], _ => rfl
  | c :: g, h => by
    have hs : stripPrefix (pathElement d) (c :: (g ++ rest)) = none := by
      have := gapOk_head c g rest ("ath d=\"".toList ++ d ++ pathClose) h
      rw [pathElement_eq_cons]
      exact this
    show replaceText (pathElement d) [] (c :: (g ++ rest)) = _
    rw [replaceText_cons_of_none _ _ _ hs, replaceText_gap d rest g (gapOk_tail c g h)]
    rfl

theorem replaceText_noLt (p rest : Str) :
    ∀ xs : Str, (∀ c ∈ xs, c ≠ '<') →
      replaceText ('<' :: p) [] (xs ++ rest) = xs ++ replaceText ('<' :: p) [] rest
  | [], _ => rfl
  | c :: xs, h => by
    have hc : '<' ≠ c := fun e => h c (List.mem_cons_self _ _) e.symm
    show replaceText ('<' :: p) [] (c :: (xs ++ rest)) = _
    rw [replaceText_cons_of_none _ _ _ (stripPrefix_cons_ne _ _ _ _ hc),
      replaceText_noLt p rest xs (fun d hd => h d (List.mem_cons_of_mem _ hd))]
    rfl

theorem not_mem_of_notQuote (d : Str) (h : ∀ c ∈ d, notQuote c = true) :
    Char.ofNat 0x22 ∉ d := by
  intro hm
  have := h _ hm
  revert this
  decide

theorem pathClose_eq : pathClose = Char.ofNat 0x22 :: "/>".toList := by decide

theorem stripPrefix_pathElement_ne (d d' rest : Str) (hd : ∀ c ∈ d, notQuote c = true)
    (hd' : ∀ c ∈ d', notQuote c = true) (hne : d' ≠ d) :
    stripPrefix (pathElement d) (pathElement d' ++ rest) = none := by
  cases hs : stripPrefix (pathElement d) (pathElement d' ++ rest) with
  | none => rfl
  | some t =>
    exfalso
    rw [stripPrefix_eq_some] at hs
    have hs' : pathOpen ++ (' ' :: dOpen) ++ (d' ++ (pathClose ++ rest)) =
        pathOpen ++ (' ' :: dOpen) ++ (d ++ (pathClose ++ t)) := by
      simpa [pathElement] using hs
    have h2 := List.append_cancel_left hs'
    rw [pathClose_eq] at h2
    simp only [List.cons_append] at h2
    exact hne (append_sep_inj _ _ _ _ (not_mem_of_notQuote d' hd')
      (not_mem_of_notQuote d hd) h2).1

theorem replaceText_pathElement_ne (d d' rest : Str) (hd : ∀ c ∈ d, notQuote c = true)
    (hd' : ∀ c ∈ d', notQuote c = true ∧ c ≠ '<') (hne : d' ≠ d) :
    replaceText (pathElement d) [] (pathElement d' ++ rest) =
      pathElement d' ++ replaceText (pathElement d) [] rest := by
  have h0 := stripPrefix_pathElement_ne d d' rest hd (fun c hc => (hd' c hc).1) hne
  have e' : pathElement d' ++ rest = '<' :: (("path d=\"".toList ++ d' ++ pathClose) ++ rest) := by
    rw [pathElement_eq_cons]; rfl
  rw [e'] at h0 ⊢
  rw [replaceText_cons_of_none _ _ _ h0]
  have hno : ∀ c ∈ "path d=\"".toList ++ d' ++ pathClose, c ≠ '<' := by
    intro c hc
    simp only [List.mem_append] at hc
    rcases hc with (hc | hc) | hc
    · revert c; decide
    · exact (hd' c hc).2
    · revert c; decide
  rw [pathElement_eq_cons d, replaceText_noLt _ rest _ hno, pathElement_eq_cons d']
  rfl

theorem pathElement_ne_nil (d : Str) : pathElement d ≠ [] := by
  rw [pathElement_eq_cons]; exact List.cons_ne_nil _ _

theorem replaceText_render (d : Str) (hd : ∀ c ∈ d, notQuote c = true) (pieces : List Piece)
    (h : ∀ p ∈ pieces, p.Plain) :
    replaceText (pathElement d) [] (render pieces) = render (pieces.erase (.path d)) := by
  induction pieces with
  | nil => exact replaceText_nil _ (pathElement_ne_nil d)
  | cons p ps ih =>
    have ih' := ih (fun q hq => h q (List.mem_cons_of_mem _ hq))
    have hp := h p (List.mem_cons_self _ _)
    cases p with
    | gap g =>
      have e1 : render (Piece.gap g :: ps) = g ++ render ps := by simp [render, Piece.text]
      have e2 : (Piece.gap g :: ps).erase (.path d) = Piece.gap g :: ps.erase (.path d) := by
        rw [List.erase_cons]; simp
      rw [e1, e2, replaceText_gap d _ g hp, ih']
      simp [render, Piece.text]
    | path d' =>
      have e1 : render (Piece.path d' :: ps) = pathElement d' ++ render ps := by
        simp [render, Piece.text]
      by_cases hdd : d' = d
      · subst hdd
        rw [e1, replaceText_at _ _ (pathElement_ne_nil d')]
        simp
      · have e2 : (Piece.path d' :: ps).erase (.path d) =
            Piece.path d' :: ps.erase (.path d) := by
          rw [List.erase_cons]; simp [hdd]
        rw [e1, e2, replaceText_pathElement_ne d d' _ hd hp.2 hdd, ih']
        simp [render, Piece.text]

theorem shortPaths_render (params : Params) (pieces : List Piece) (h : ∀ p ∈ pieces, p.Plain) :
    shortPaths params (render pieces) =
      ((pathData pieces).filter (isShort params)).map pathElement := by
  have hm := matchAll_render pieces h
  have e1 : shortPaths params (render pieces) =
      (((matchAll pathRegEx (render pieces) 0).map Match.seen).filter
        (fun p => isShort params p.2)).map Prod.fst := by
    simp only [shortPaths, List.filter_map, List.map_map]
    rfl
  rw [e1, hm, List.filter_map, List.map_map]
  rfl

theorem mem_pathData (d : Str) : ∀ pieces : List Piece, d ∈ pathData pieces ↔ Piece.path d ∈ pieces
  | [] => by simp [pathData]
  | .gap g :: ps => by simp [pathData, mem_pathData d ps]
  | .path d' :: ps => by simp [pathData, mem_pathData d ps, eq_comm]

theorem foldl_replaceText_render (ds : List Str) :
    ∀ pieces : List Piece, (∀ p ∈ pieces, p.Plain) →
      (∀ d ∈ ds, ∀ c ∈ d, notQuote c = true) →
      (ds.map pathElement).foldl (fun s path => replaceText path [] s) (render pieces) =
        render (ds.foldl (fun cur d => cur.erase (.path d)) pieces) := by
  induction ds with
  | nil => intro _ _ _; rfl
  | cons d ds ih =>
    intro pieces hp hd
    simp only [List.map_cons, List.foldl_cons]
    rw [replaceText_render d (hd d (List.mem_cons_self _ _)) pieces hp]
    exact ih _ (fun p hp' => hp p (List.mem_of_mem_erase hp'))
      (fun d' hd' => hd d' (List.mem_cons_of_mem _ hd'))

theorem foldl_erase_cons (x : Piece) (ds : List Str) (h : ∀ d ∈ ds, Piece.path d ≠ x) :
    ∀ pieces : List Piece,
      ds.foldl (fun cur d => cur.erase (.path d)) (x :: pieces) =
        x :: ds.foldl (fun cur d => cur.erase (.path d)) pieces := by
  induction ds with
  | nil => intro _; rfl
  | cons d ds ih =>
    intro pieces
    have hx : x ≠ Piece.path d := fun e => h d (List.mem_cons_self _ _) e.symm
    simp only [List.foldl_cons]
    rw [List.erase_cons]
    simp only [beq_iff_eq, hx, if_false]
    exact ih (fun d' hd' => h d' (List.mem_cons_of_mem _ hd')) _

theorem foldl_erase_short (params : Params) (pieces : List Piece) :
    ((pathData pieces).filter (isShort params)).foldl (fun cur d => cur.erase (.path d)) pieces =
      pieces.filter (keeps params) := by
  induction pieces with
  | nil => rfl
  | cons p ps ih =>
    cases p with
    | gap g =>
      simp only [pathData]
      rw [foldl_erase_cons _ _ (fun d _ => by simp), ih]
      simp [keeps]
    | path d =>
      by_cases hs : isShort params d = true
      · simp only [pathData, List.filter_cons, hs, if_true, List.foldl_cons]
        rw [List.erase_cons]
        simp only [beq_self_eq_true, if_true, ih]
        simp [keeps, hs]
      · have hs' : isShort params d = false := by simpa using hs
        simp only [pathData, List.filter_cons, hs', Bool.false_eq_true, if_false]
        rw [foldl_erase_cons _ _ (fun d' hd' => by
          intro e
          have e' : d' = d := by simpa using e
          rw [e'] at hd'
          have := (List.mem_filter.mp hd').2
          rw [hs'] at this
          exact absurd this (by simp)), ih]
        simp [keeps, hs']

theorem removeShortPaths_render (params : Params) (pieces : List Piece)
    (h : ∀ p ∈ pieces, p.Plain) :
    removeShortPaths params (render pieces) = render (pieces.filter (keeps params)) := by
  unfold removeShortPaths
  rw [shortPaths_render params pieces h, foldl_replaceText_render _ pieces h, foldl_erase_short]
  intro d hd c hc
  have hmem := (mem_pathData d pieces).mp (List.mem_filter.mp hd).1
  exact ((h _ hmem).2 c hc).1

theorem pathData_filter_keeps (params : Params) :
    ∀ pieces : List Piece, ∀ d ∈ pathData (pieces.filter (keeps params)), isShort params d = false
  | [], d, hd => by simp [pathData] at hd
  | .gap g :: ps, d, hd => by
    have : pathData ((Piece.gap g :: ps).filter (keeps params)) =
        pathData (ps.filter (keeps params)) := by simp [keeps, pathData]
    rw [this] at hd
    exact pathData_filter_keeps params ps d hd
  | .path d' :: ps, d, hd => by
    by_cases hs : isShort params d' = true
    · have : pathData ((Piece.path d' :: ps).filter (keeps params)) =
          pathData (ps.filter (keeps params)) := by simp [keeps, hs]
      rw [this] at hd
      exact pathData_filter_keeps params ps d hd
    · have hs' : isShort params d' = false := by simpa using hs
      have : pathData ((Piece.path d' :: ps).filter (keeps params)) =
          d' :: pathData (ps.filter (keeps params)) := by simp [keeps, hs', pathData]
      rw [this] at hd
      rcases List.mem_cons.mp hd with rfl | hd
      · exact hs'
      · exact pathData_filter_keeps params ps d hd

theorem matchAll_nil (re : List Atom) (k : Nat) : matchAll re [] k = [] := by
  cases k <;> rfl

theorem seen_removeShortPaths (params : Params) (pieces : List Piece)
    (h : ∀ p ∈ pieces, p.Plain) (m : Match)
    (hm : m ∈ matchAll pathRegEx (removeShortPaths params (render pieces)) 0) :
    params.minPathSegments ≤ (splitOn ' ' (m.group 1)).length := by
  rw [removeShortPaths_render params pieces h] at hm
  have hplain : ∀ p ∈ pieces.filter (keeps params), p.Plain :=
    fun p hp => h p (List.mem_filter.mp hp).1
  have hseen := matchAll_render _ hplain
  have : m.seen ∈ (matchAll pathRegEx (render (pieces.filter (keeps params))) 0).map Match.seen :=
    List.mem_map_of_mem _ hm
  rw [hseen] at this
  obtain ⟨d, hd, e⟩ := List.mem_map.mp this
  have hg : m.group 1 = d := by
    have := congrArg Prod.snd e
    simpa [Match.seen] using this.symm
  have hshort := pathData_filter_keeps params pieces d hd
  rw [hg]
  simpa [isShort] using hshort


/-- Claim C5 as stated, refuted. With `minPathSegments = 2` the tracer fragment
`<path d="<path d="a"/>b"/>` leaves the task as `<path d="b"/>`: removing the
inner path, the only one the scan finds, puts together a path element whose `d`
attribute has a single part. -/
theorem taskResult_nested_counterexample :
    taskResult opaqueGreen ⟨"2".toList, 2⟩ nestedPaths = "<path d=\"b\"/>".toList ∧
    (matchAll pathRegEx (taskResult opaqueGreen ⟨"2".toList, 2⟩ nestedPaths) 0).map Match.seen =
      [("<path d=\"b\"/>".toList, "b".toList)] ∧
    (splitOn ' ' "b".toList).length < 2 := by
  decide

/-- Claim C5 as amended. When the recoloured fragment is a sequence of path
elements `<path d="…"/>`, whose `d` attributes are not empty and hold no double
quote and no `<`, and of other text in which no `<` is followed by `p` and which
does not end in `<`, the task removes exactly the path elements whose `d`
attribute, split on the space character, has fewer than `minPathSegments` parts,
and the scan of the task's output finds no path element with fewer parts. -/
theorem taskResult_plain (color : Str) (params : Params) (traced : Str) (pieces : List Piece)
    (hrec : recolour color params traced = render pieces) (hplain : ∀ p ∈ pieces, p.Plain) :
    postProcess color params traced = render (pieces.filter (keeps params)) ∧
    ∀ m ∈ matchAll pathRegEx (taskResult color params traced) 0,
      params.minPathSegments ≤ (splitOn ' ' (m.group 1)).length := by
  have hpost : postProcess color params traced = removeShortPaths params (render pieces) := by
    rw [postProcess, hrec]
  refine ⟨by rw [hpost, removeShortPaths_render params pieces hplain], ?_⟩
  intro m hm
  unfold taskResult at hm
  split at hm
  · rw [hpost] at hm
    exact seen_removeShortPaths params pieces hplain m hm
  · rw [matchAll_nil] at hm
    exact absurd hm (List.not_mem_nil _)

theorem twoPaths_plain : ∀ p ∈ twoPaths, p.Plain := by
  intro p hp
  simp only [twoPaths, List.mem_cons, List.mem_singleton, List.not_mem_nil, or_false] at hp
  rcases hp with rfl | rfl | rfl | rfl
  · show gapOk _ = true; decide
  · exact ⟨by decide, by decide⟩
  · exact ⟨by decide, by decide⟩
  · show gapOk _ = true; decide

theorem taskResult_plain_witness :
    postProcess opaqueGreen sampleParams tracedTwoPaths =
      render (twoPaths.filter (keeps sampleParams)) ∧
    ∀ m ∈ matchAll pathRegEx (taskResult opaqueGreen sampleParams tracedTwoPaths) 0,
      sampleParams.minPathSegments ≤ (splitOn ' ' (m.group 1)).length :=
  taskResult_plain opaqueGreen sampleParams tracedTwoPaths twoPaths (by decide) twoPaths_plain

/-! ## Recolouring -/

set_option maxRecDepth 1000000 in
theorem alphaText_decimal : ∀ a : Byte,
    alphaText (decimal a.val) = twoDecimals (roundedHundredths a.val) := by
  decide

theorem roundedHundredths_nearest (a : Nat) :
    255 * roundedHundredths a ≤ 100 * a + 127 ∧ 100 * a ≤ 255 * roundedHundredths a + 127 := by
  unfold roundedHundredths
  omega

theorem splitOn_of_not_mem (sep : Char) : ∀ xs : Str, sep ∉ xs → splitOn sep xs = [xs]
  | [], _ => rfl
  | c :: xs, h => by
    have hc : c ≠ sep := fun e => h (e ▸ List.mem_cons_self _ _)
    have ih := splitOn_of_not_mem sep xs (fun m => h (List.mem_cons_of_mem _ m))
    simp [splitOn, hc, ih]

theorem splitOn_append (sep : Char) (ys : Str) :
    ∀ xs : Str, sep ∉ xs → splitOn sep (xs ++ sep :: ys) = xs :: splitOn sep ys
  | [], _ => by simp [splitOn]
  | c :: xs, h => by
    have hc : c ≠ sep := fun e => h (e ▸ List.mem_cons_self _ _)
    have ih := splitOn_append sep ys xs (fun m => h (List.mem_cons_of_mem _ m))
    simp [splitOn, hc, ih]

theorem splitOn_rgbaKey (r g b a : Byte) :
    splitOn ',' (rgbaKey (some r) (some g) (some b) (some a)) =
      [decimal r.val, decimal g.val, decimal b.val, decimal a.val] := by
  have e : rgbaKey (some r) (some g) (some b) (some a) =
      decimal r.val ++ ',' :: (decimal g.val ++ ',' :: (decimal b.val ++ ',' :: decimal a.val)) := by
    simp [rgbaKey, showElem]
  rw [e, splitOn_append _ _ _ (decimal_no_comma r), splitOn_append _ _ _ (decimal_no_comma g),
    splitOn_append _ _ _ (decimal_no_comma b), splitOn_of_not_mem _ _ (decimal_no_comma a)]

theorem substitute_of_no_dollar (m b a : Str) :
    ∀ rep : Str, (∀ c ∈ rep, c ≠ '$') → substitute m b a rep = rep
  | [], _ => rfl
  | c :: rep, h => by
    have hc : c ≠ '$' := h c (List.mem_cons_self _ _)
    have ih := substitute_of_no_dollar m b a rep (fun d hd => h d (List.mem_cons_of_mem _ hd))
    rw [substitute.eq_def]
    simp only [hc, if_false, ih]

theorem findText_first (pat post : Str) (hne : pat ≠ []) :
    ∀ pre : Str, (∀ j, j < pre.length → stripPrefix pat (pre.drop j ++ (pat ++ post)) = none) →
      findText pat (pre ++ (pat ++ post)) = some (pre, post)
  | [], _ => by
    cases pat with
    | nil => exact absurd rfl hne
    | cons a p =>
      have h := stripPrefix_append (a :: p) post
      show findText (a :: p) (a :: (p ++ post)) = some ([], post)
      have h' : stripPrefix (a :: p) (a :: (p ++ post)) = some post := h
      rw [findText, h']
  | c :: pre, h => by
    have h0 : stripPrefix pat (c :: (pre ++ (pat ++ post))) = none := by
      simpa using h 0 (by simp)
    have ih := findText_first pat post hne pre
      (fun j hj => by simpa using h (j + 1) (by simpa using hj))
    show findText pat (c :: (pre ++ (pat ++ post))) = some (c :: pre, post)
    rw [findText, h0, ih]
    rfl

theorem defaultPaint_ne_nil : defaultPaint ≠ [] := by decide

set_option maxRecDepth 1000000 in
theorem decimal_no_dollar : ∀ n : Byte, ∀ c ∈ decimal n.val, c ≠ '$' := by
  unfold decimal; decide

set_option maxRecDepth 1000000 in
theorem opacityPaint_no_dollar : ∀ a : Byte, ∀ c ∈ opacityPaint (decimal a.val), c ≠ '$' := by
  decide

theorem paint_no_dollar (r g b a : Byte) (params : Params)
    (hsw : ∀ c ∈ params.strokeWidth, c ≠ '$') :
    ∀ c ∈ rgbPaint (decimal r.val) (decimal g.val) (decimal b.val) ++
      opacityPaint (decimal a.val) ++ widthPaint params, c ≠ '$' := by
  simp only [rgbPaint, widthPaint, List.forall_mem_append]
  repeat' apply And.intro
  all_goals first
    | exact decimal_no_dollar _
    | exact opacityPaint_no_dollar a
    | exact hsw
    | decide

theorem paint_rgbaKey (r g b a : Byte) (params : Params) :
    paint (rgbaKey (some r) (some g) (some b) (some a)) params =
      rgbPaint (decimal r.val) (decimal g.val) (decimal b.val) ++
        opacityPaint (decimal a.val) ++ widthPaint params := by
  simp [paint, component, splitOn_rgbaKey]

theorem recolour_first (r g b a : Byte) (params : Params) (pre post : Str)
    (hsw : ∀ c ∈ params.strokeWidth, c ≠ '$')
    (hfirst : ∀ j, j < pre.length → ¬ defaultPaint <+: (pre ++ defaultPaint).drop j) :
    recolour (rgbaKey (some r) (some g) (some b) (some a)) params (pre ++ defaultPaint ++ post) =
      pre ++ (rgbPaint (decimal r.val) (decimal g.val) (decimal b.val) ++
        opacityPaint (decimal a.val) ++ widthPaint params) ++ post := by
  have hf := findText_first defaultPaint post defaultPaint_ne_nil pre
    (fun j hj => stripPrefix_drop_none defaultPaint pre hfirst j hj post)
  rw [List.append_assoc]
  simp only [recolour, replaceText, hf, paint_rgbaKey]
  rw [substitute_of_no_dollar _ _ _ _ (paint_no_dollar r g b a params hsw)]

theorem numberChars_no_dollar (sw : Str) (h : ∀ c ∈ sw, c ∈ numberChars) :
    ∀ c ∈ sw, c ≠ '$' := by
  intro c hc e
  have := h c hc
  rw [e] at this
  revert this
  decide

set_option maxRecDepth 1000000 in
theorem opacityPaint_decimal : ∀ a : Byte, opacityPaint (decimal a.val) = specOpacity a.val := by
  decide

/-- Claim C6 as stated, refuted. For the colour key of green with alpha 128
and a tracer fragment that does not carry the default attributes, the
recoloured fragment is the tracer fragment itself and holds no opacity
attribute. -/
theorem recolour_unpainted_counterexample :
    recolour halfGreen sampleParams unpaintedFragment = unpaintedFragment ∧
    ¬ "opacity".toList <:+: recolour halfGreen sampleParams unpaintedFragment := by
  decide

/-- Claim C6 as amended. For a colour key of bytes `(r,g,b,a)`, a numeric stroke
width and a tracer fragment that carries the default attributes
`fill="#000000" stroke="none"`, the task replaces their first occurrence by the
fill and stroke colour, the opacity attributes and the stroke width, where the
opacity attributes are absent for `a = 255` and are otherwise `fill-opacity`
and `stroke-opacity`, both written as the hundredths nearest to `a / 255` with
exactly two decimals; alpha 128 gives `0.50`. -/
theorem recolour_opacity (r g b a : Byte) (params : Params) (pre post : Str)
    (hsw : ∀ c ∈ params.strokeWidth, c ∈ numberChars)
    (hfirst : ∀ j, j < pre.length → ¬ defaultPaint <+: (pre ++ defaultPaint).drop j) :
    recolour (rgbaKey (some r) (some g) (some b) (some a)) params (pre ++ defaultPaint ++ post) =
      pre ++ (rgbPaint (decimal r.val) (decimal g.val) (decimal b.val) ++
        specOpacity a.val ++ widthPaint params) ++ post ∧
    specOpacity 255 = [] ∧
    specOpacity 128 = " fill-opacity=\"0.50\" stroke-opacity=\"0.50\"".toList ∧
    255 * roundedHundredths a.val ≤ 100 * a.val + 127 ∧
    100 * a.val ≤ 255 * roundedHundredths a.val + 127 := by
  refine ⟨?_, by decide, by decide, (roundedHundredths_nearest a.val).1,
    (roundedHundredths_nearest a.val).2⟩
  rw [recolour_first r g b a params pre post (numberChars_no_dollar _ hsw) hfirst,
    opacityPaint_decimal]

theorem recolour_opacity_witness :
    recolour (rgbaKey (some 0) (some 255) (some 0) (some 128)) sampleParams
        (samplePre ++ defaultPaint ++ samplePost) =
      samplePre ++ (rgbPaint (decimal 0) (decimal 255) (decimal 0) ++
        specOpacity 128 ++ widthPaint sampleParams) ++ samplePost ∧
    specOpacity 255 = [] ∧
    specOpacity 128 = " fill-opacity=\"0.50\" stroke-opacity=\"0.50\"".toList ∧
    255 * roundedHundredths 128 ≤ 100 * 128 + 127 ∧
    100 * 128 ≤ 255 * roundedHundredths 128 + 127 :=
  recolour_opacity 0 255 0 128 sampleParams samplePre samplePost (by decide) (by decide)

set_option maxRecDepth 100000 in
/-- Claim C7 as stated, refuted. A tracer fragment with the default attributes
on two elements still carries them after recolouring: only the first
occurrence is replaced. -/
theorem recolour_twice_counterexample :
    defaultPaint <:+: recolour opaqueGreen sampleParams twicePaintedFragment := by
  decide

/-- Claim C7 as amended. For a colour key of bytes `(r,g,b,a)`, a numeric stroke
width and a tracer fragment that carries the default attributes
`fill="#000000" stroke="none"`, their first occurrence is replaced by
`fill="rgb(r,g,b)" stroke="rgb(r,g,b)"`, the opacity attributes and
`stroke-width="…px"` with the configured stroke width; so the recoloured
fragment carries the colour and an explicit stroke width. -/
theorem recolour_paint (r g b a : Byte) (params : Params) (pre post : Str)
    (hsw : ∀ c ∈ params.strokeWidth, c ∈ numberChars)
    (hfirst : ∀ j, j < pre.length → ¬ defaultPaint <+: (pre ++ defaultPaint).drop j) :
    recolour (rgbaKey (some r) (some g) (some b) (some a)) params (pre ++ defaultPaint ++ post) =
      pre ++ ("fill=\"rgb(".toList ++ decimal r.val ++ ",".toList ++ decimal g.val ++
        ",".toList ++ decimal b.val ++ ")\" stroke=\"rgb(".toList ++ decimal r.val ++
        ",".toList ++ decimal g.val ++ ",".toList ++ decimal b.val ++ ")\"".toList ++
        opacityPaint (decimal a.val) ++
        (" stroke-width=\"".toList ++ params.strokeWidth ++ "px\"".toList)) ++ post ∧
    (" stroke-width=\"".toList ++ params.strokeWidth ++ "px\"".toList) <:+:
      recolour (rgbaKey (some r) (some g) (some b) (some a)) params
        (pre ++ defaultPaint ++ post) := by
  have h := recolour_first r g b a params pre post (numberChars_no_dollar _ hsw) hfirst
  refine ⟨h, ?_⟩
  rw [h]
  exact ⟨pre ++ (rgbPaint (decimal r.val) (decimal g.val) (decimal b.val) ++
    opacityPaint (decimal a.val)), post, by simp [widthPaint]⟩

theorem recolour_paint_witness :
    recolour (rgbaKey (some 255) (some 0) (some 0) (some 255)) sampleParams
        (samplePre ++ defaultPaint ++ samplePost) =
      samplePre ++ ("fill=\"rgb(".toList ++ decimal 255 ++ ",".toList ++ decimal 0 ++
        ",".toList ++ decimal 0 ++ ")\" stroke=\"rgb(".toList ++ decimal 255 ++
        ",".toList ++ decimal 0 ++ ",".toList ++ decimal 0 ++ ")\"".toList ++
        opacityPaint (decimal 255) ++
        (" stroke-width=\"".toList ++ sampleParams.strokeWidth ++ "px\"".toList)) ++
        samplePost ∧
    (" stroke-width=\"".toList ++ sampleParams.strokeWidth ++ "px\"".toList) <:+:
      recolour (rgbaKey (some 255) (some 0) (some 0) (some 255)) sampleParams
        (samplePre ++ defaultPaint ++ samplePost) :=
  recolour_paint 255 0 0 255 sampleParams samplePre samplePost (by decide) (by decide)

/-! ## The conversion -/

theorem chunkSize_pos (hc : Option Nat) : 0 < chunkSize hc := by
  unfold chunkSize
  cases hc with
  | none => decide
  | some n =>
    show 0 < (if 2 * n = 0 then 16 else 2 * n)
    split <;> omega

theorem chunkLoop_flatten {α : Type} (size : Nat) (hsize : 0 < size) :
    ∀ (fuel : Nat) (ps : List α), ps.length ≤ fuel → (chunkLoop size fuel ps).flatten = ps
  | 0, ps, h => by
    have : ps = [] := List.length_eq_zero.mp (Nat.le_zero.mp h)
    subst this; rfl
  | fuel + 1, [], _ => rfl
  | fuel + 1, p :: ps, h => by
    have hlen : ((p :: ps).drop size).length ≤ fuel := by
      simp only [List.length_drop, List.length_cons] at h ⊢; omega
    simp only [chunkLoop, List.flatten_cons, chunkLoop_flatten size hsize fuel _ hlen,
      List.take_append_drop]

theorem promiseChunks_flatten {α : Type} (size : Nat) (hsize : 0 < size) (ps : List α) :
    (promiseChunks size ps).flatten = ps :=
  chunkLoop_flatten size hsize ps.length ps (Nat.le_refl _)

theorem allValues_eq_some {α : Type} :
    ∀ (l : List (Option α)) (r : List α), allValues l = some r → l = r.map some
  | [], r, h => by
    simp only [allValues, Option.some.injEq] at h
    subst h; rfl
  | none :: l, r, h => by simp [allValues] at h
  | some a :: l, r, h => by
    simp only [allValues, Option.map_eq_some'] at h
    obtain ⟨r', hr', e⟩ := h
    subst e
    simp [allValues_eq_some l r' hr']

theorem allValues_map_some {α : Type} (r : List α) : allValues (r.map some) = some r := by
  induction r with
  | nil => rfl
  | cons a r ih => simp [allValues, ih]

theorem startChunk_length (img : ImageData) (chunk : List Task) (masks : List ImageData)
    (h : startChunk img chunk = some masks) : masks.length = chunk.length := by
  have := congrArg List.length (allValues_eq_some _ _ h)
  simpa using this.symm

theorem startChunk_of_pos (img : ImageData) (hw : 0 < img.width) (hh : 0 < img.height)
    (chunk : List Task) :
    startChunk img chunk = some (chunk.map fun task =>
      ⟨paintMask (List.replicate (img.width * img.height * 4) 255) task.2,
        img.width, img.height⟩) := by
  have hb : ∀ task : Task, buildMask img task =
      some ⟨paintMask (List.replicate (img.width * img.height * 4) 255) task.2,
        img.width, img.height⟩ := by
    intro task
    have : ¬ (img.width = 0 ∨ img.height = 0) := by omega
    simp [buildMask, blankMask, this]
  unfold startChunk
  rw [← allValues_map_some (chunk.map _), List.map_map]
  congr 1
  exact List.map_congr_left (fun task _ => hb task)

theorem traces_append (l₁ l₂ : List Action) : traces (l₁ ++ l₂) = traces l₁ ++ traces l₂ := by
  induction l₁ with
  | nil => rfl
  | cons a l ih => cases a <;> simp [traces, ih]

theorem posts_append (l₁ l₂ : List Action) : posts (l₁ ++ l₂) = posts l₁ ++ posts l₂ := by
  induction l₁ with
  | nil => rfl
  | cons a l ih => cases a <;> simp [posts, ih]

theorem completeTask_extends (tracer : ImageData → Traced) (params : Params) (total : Nat)
    (chunk : List (Task × ImageData)) (st : RunState) (i : Nat) :
    (completeTask tracer params total chunk st i).Extends st := by
  unfold completeTask
  cases chunk[i]? with
  | none => exact ⟨[], by simp, rfl⟩
  | some tm =>
    obtain ⟨task, mask⟩ := tm
    simp only
    cases tracer mask with
    | failure => exact ⟨[], by simp, rfl⟩
    | fragment traced => exact ⟨[_], rfl, rfl⟩

theorem extends_trans {a b c : RunState} (h₁ : a.Extends b) (h₂ : b.Extends c) :
    a.Extends c := by
  obtain ⟨e₁, h₁, t₁⟩ := h₁
  obtain ⟨e₂, h₂, t₂⟩ := h₂
  exact ⟨e₂ ++ e₁, by rw [h₁, h₂, List.append_assoc], by rw [traces_append, t₁, t₂]; rfl⟩

theorem completeChunk_extends (tracer : ImageData → Traced) (params : Params) (total : Nat)
    (chunk : List (Task × ImageData)) :
    ∀ (order : List Nat) (st : RunState),
      (completeChunk tracer params total chunk order st).Extends st
  | [], st => ⟨[], by simp [completeChunk], rfl⟩
  | i :: order, st =>
    extends_trans (completeChunk_extends tracer params total chunk order _)
      (completeTask_extends tracer params total chunk st i)

theorem runChunks_log (tracer : ImageData → Traced) (params : Params) (img : ImageData)
    (total : Nat) (order : Nat → List Nat) :
    ∀ (chunks : List (List Task)) (k : Nat) (svgs : List (List Str)) (st : RunState),
      ∃ extra, (runChunks tracer params img total order chunks k svgs st).2 = st.log ++ extra
  | [], _, _, st => ⟨[], by simp [runChunks]⟩
  | chunk :: chunks, k, svgs, st => by
    unfold runChunks
    cases hs : startChunk img chunk with
    | none => exact ⟨[], by simp⟩
    | some masks =>
      simp only
      obtain ⟨extra, he, -⟩ := completeChunk_extends tracer params total (chunk.zip masks)
        (order k) ⟨st.processed, st.log ++ masks.map .trace⟩
      cases hv : allValues ((chunk.zip masks).map (taskValue tracer params)) with
      | none => exact ⟨masks.map .trace ++ extra, by simp [he]⟩
      | some values =>
        obtain ⟨extra', he'⟩ := runChunks_log tracer params img total order chunks (k + 1)
          (svgs ++ [values]) (completeChunk tracer params total (chunk.zip masks) (order k)
            ⟨st.processed, st.log ++ masks.map .trace⟩)
        exact ⟨masks.map .trace ++ extra ++ extra', by simp [he', he]⟩

theorem runChunks_not_rejected (tracer : ImageData → Traced) (params : Params) (img : ImageData)
    (hw : 0 < img.width) (hh : 0 < img.height) (total : Nat) (order : Nat → List Nat) :
    ∀ (chunks : List (List Task)) (k : Nat) (svgs : List (List Str)) (st : RunState),
      (runChunks tracer params img total order chunks k svgs st).1 ≠ .rejected
  | [], _, _, st => by simp [runChunks]
  | chunk :: chunks, k, svgs, st => by
    unfold runChunks
    rw [startChunk_of_pos img hw hh chunk]
    simp only
    split
    · simp
    · exact runChunks_not_rejected tracer params img hw hh total order chunks (k + 1) _ _

theorem posts_map_trace (masks : List ImageData) : posts (masks.map Action.trace) = [] := by
  induction masks with
  | nil => rfl
  | cons m ms ih => simpa [posts] using ih

theorem progressEvent_processed (p t : Nat) (svg : Str) :
    (progressEvent p t svg).processed = p := by
  unfold progressEvent; split <;> rfl

theorem progressEvent_total (p t : Nat) (svg : Str) :
    (progressEvent p t svg).total = t := by
  unfold progressEvent; split <;> rfl

theorem completeTask_counted (tracer : ImageData → Traced) (params : Params) (total : Nat)
    (chunk : List (Task × ImageData)) (st : RunState) (i : Nat) (h : st.Counted total) :
    (completeTask tracer params total chunk st i).Counted total := by
  unfold completeTask
  cases chunk[i]? with
  | none => exact h
  | some tm =>
    obtain ⟨task, mask⟩ := tm
    simp only
    cases tracer mask with
    | failure => exact h
    | fragment traced =>
      constructor
      · simp only [posts_append, posts, List.map_append, List.map_cons, List.map_nil, h.1,
          progressEvent_processed]
        rw [List.range'_1_concat, Nat.add_comm 1]
      · intro e he
        simp only [posts_append, posts, List.mem_append, List.mem_singleton] at he
        rcases he with he | he
        · exact h.2 e he
        · rw [he, progressEvent_total]

theorem completeTask_processed (tracer : ImageData → Traced) (params : Params) (total : Nat)
    (chunk : List (Task × ImageData)) (st : RunState) (i : Nat) (hi : i < chunk.length)
    (hok : ∀ tm ∈ chunk, ∃ traced, tracer tm.2 = .fragment traced) :
    (completeTask tracer params total chunk st i).processed = st.processed + 1 := by
  obtain ⟨traced, ht⟩ := hok chunk[i] (List.getElem_mem _)
  have hget : chunk[i]? = some (chunk[i].1, chunk[i].2) := List.getElem?_eq_getElem hi
  simp only [completeTask, hget, ht]

theorem completeChunk_counted (tracer : ImageData → Traced) (params : Params) (total : Nat)
    (chunk : List (Task × ImageData))
    (hok : ∀ tm ∈ chunk, ∃ traced, tracer tm.2 = .fragment traced) :
    ∀ (order : List Nat) (st : RunState), (∀ i ∈ order, i < chunk.length) → st.Counted total →
      (completeChunk tracer params total chunk order st).Counted total ∧
      (completeChunk tracer params total chunk order st).processed =
        st.processed + order.length
  | [], st, _, h => ⟨h, rfl⟩
  | i :: order, st, hi, h => by
    have ih := completeChunk_counted tracer params total chunk hok order
      (completeTask tracer params total chunk st i)
      (fun j hj => hi j (List.mem_cons_of_mem _ hj))
      (completeTask_counted tracer params total chunk st i h)
    refine ⟨ih.1, ?_⟩
    have hp := completeTask_processed tracer params total chunk st i
      (hi i (List.mem_cons_self _ _)) hok
    have := ih.2
    rw [hp] at this
    simp only [completeChunk, List.foldl_cons, List.length_cons] at this ⊢
    omega

theorem taskValue_ok (tracer : ImageData → Traced) (params : Params)
    (chunk : List (Task × ImageData)) (values : List Str)
    (h : allValues (chunk.map (taskValue tracer params)) = some values) :
    ∀ tm ∈ chunk, ∃ traced, tracer tm.2 = .fragment traced := by
  intro tm htm
  have hmap := allValues_eq_some _ _ h
  have : taskValue tracer params tm ∈ values.map some := by
    rw [← hmap]; exact List.mem_map_of_mem _ htm
  obtain ⟨v, -, hv⟩ := List.mem_map.mp this
  unfold taskValue at hv
  cases ht : tracer tm.2 with
  | failure => rw [ht] at hv; exact absurd hv (by simp)
  | fragment traced => exact ⟨traced, rfl⟩

theorem runChunks_counted (tracer : ImageData → Traced) (params : Params) (img : ImageData)
    (total : Nat) (order : Nat → List Nat) :
    ∀ (chunks : List (List Task)) (k : Nat) (svgs : List (List Str)) (st : RunState)
      (doc : Str) (log : List Action),
      (∀ j, j < chunks.length → (order (k + j)).Perm (List.range (chunks.getD j []).length)) →
      runChunks tracer params img total order chunks k svgs st = (.resolved doc, log) →
      st.Counted total →
      (posts log).map ProgressEvent.processed =
        List.range' 1 (st.processed + (chunks.map List.length).sum) ∧
      ∀ e ∈ posts log, e.total = total
  | [], _, _, st, doc, log, _, hrun, h => by
    simp only [runChunks, Prod.mk.injEq] at hrun
    rw [← hrun.2]
    simpa using h
  | chunk :: chunks, k, svgs, st, doc, log, horder, hrun, h => by
    unfold runChunks at hrun
    cases hs : startChunk img chunk with
    | none => rw [hs] at hrun; simp at hrun
    | some masks =>
      rw [hs] at hrun
      simp only at hrun
      cases hv : allValues ((chunk.zip masks).map (taskValue tracer params)) with
      | none => rw [hv] at hrun; simp at hrun
      | some values =>
        rw [hv] at hrun
        simp only at hrun
        have hlen : (chunk.zip masks).length = chunk.length := by
          simp [startChunk_length img chunk masks hs]
        have hperm := horder 0 (by simp)
        simp only [Nat.add_zero, List.getD_cons_zero] at hperm
        have hidx : ∀ i ∈ order k, i < (chunk.zip masks).length := by
          intro i hi
          rw [hlen]
          exact List.mem_range.mp (hperm.mem_iff.mp hi)
        have hstart : RunState.Counted total ⟨st.processed, st.log ++ masks.map .trace⟩ := by
          have hp : posts (masks.map Action.trace) = [] := posts_map_trace masks
          constructor
          · simp only [posts_append, hp, List.append_nil]; exact h.1
          · intro e he
            simp only [posts_append, hp, List.append_nil] at he
            exact h.2 e he
        have hc := completeChunk_counted tracer params total (chunk.zip masks)
          (taskValue_ok tracer params _ values hv) (order k) _ hidx hstart
        have := runChunks_counted tracer params img total order chunks (k + 1) _ _ doc log
          (fun j hj => by
            have := horder (j + 1) (by simpa using hj)
            simpa [Nat.add_assoc, Nat.add_comm 1 j] using this)
          hrun hc.1
        rw [hc.2] at this
        have hl : (order k).length = chunk.length := by
          simpa using hperm.length_eq
        simp only [List.map_cons, List.sum_cons]
        rw [← hl]
        simpa [Nat.add_assoc] using this


/-! ### The number of colour keys -/

theorem lookup_eq_none_iff (k : Str) (c : Colors) : lookup k c = none ↔ k ∉ c.map Prod.fst := by
  induction c with
  | nil => simp [lookup]
  | cons e c ih =>
    obtain ⟨k', v⟩ := e
    by_cases h : k' = k
    · simp [lookup, h]
    · have h' : ¬ k = k' := fun e => h e.symm
      simp [lookup, h, h', ih]

theorem keys_push (k : Str) (i : Nat) (c : Colors) :
    (push k i c).map Prod.fst = c.map Prod.fst := by
  induction c with
  | nil => rfl
  | cons e c ih =>
    obtain ⟨k', v⟩ := e
    by_cases h : k' = k <;> simp [push, h, ih]

theorem keys_record (c : Colors) (k : Str) (i : Nat) :
    (record c k i).map Prod.fst =
      if k ∈ c.map Prod.fst then c.map Prod.fst else c.map Prod.fst ++ [k] := by
  unfold record
  cases hl : lookup k c with
  | none =>
    have := (lookup_eq_none_iff k c).mp hl
    simp only [this, if_false, List.map_append, List.map_cons, List.map_nil]
  | some v =>
    have : k ∈ c.map Prod.fst := by
      by_contra hn
      rw [(lookup_eq_none_iff k c).mpr hn] at hl
      exact absurd hl (by simp)
    simp only [this, if_true, keys_push]

theorem keys_record_nodup (c : Colors) (k : Str) (i : Nat) (h : (c.map Prod.fst).Nodup) :
    ((record c k i).map Prod.fst).Nodup := by
  rw [keys_record]
  split
  · exact h
  · rename_i hk
    exact List.Nodup.append h (List.nodup_singleton k) (by simpa using hk)

theorem mem_keys_record (c : Colors) (k k' : Str) (i : Nat) :
    k' ∈ (record c k i).map Prod.fst ↔ k' ∈ c.map Prod.fst ∨ k' = k := by
  rw [keys_record]
  split
  · rename_i hk
    constructor
    · exact Or.inl
    · rintro (h | h)
      · exact h
      · rw [h]; exact hk
  · simp

theorem extractLoop_keys (data : List Byte) :
    ∀ (i : Nat) (c : Colors), data.length % 4 = 0 → (c.map Prod.fst).Nodup →
      ((extractLoop data i c).map Prod.fst).Nodup ∧
      ∀ k, k ∈ (extractLoop data i c).map Prod.fst ↔
        k ∈ c.map Prod.fst ∨ k ∈ (opaquePixels data).map pixelKey := by
  induction data using list_induction4 with
  | h0 => intro i c _ hn; exact ⟨hn, by simp [extractLoop, opaquePixels, pixels]⟩
  | h1 a => intro i c h; simp at h
  | h2 a b => intro i c h; simp at h
  | h3 a b c => intro i c h; simp at h
  | h4 r g b a rest ih =>
    intro i c h hn
    have hrest : rest.length % 4 = 0 := by
      simp only [List.length_cons] at h; omega
    by_cases ha : a.val = 0
    · have hop : opaquePixels (r :: g :: b :: a :: rest) = opaquePixels rest := by
        simp [opaquePixels, pixels, ha]
      simp only [extractLoop, ha, if_true, hop]
      exact ih (i + 4) c hrest hn
    · have hop : opaquePixels (r :: g :: b :: a :: rest) = (r, g, b, a) :: opaquePixels rest := by
        simp [opaquePixels, pixels, ha]
      simp only [extractLoop, ha, if_false, hop]
      obtain ⟨h1, h2⟩ := ih (i + 4) _ hrest (keys_record_nodup c _ i hn)
      refine ⟨h1, ?_⟩
      intro k
      rw [h2 k, mem_keys_record]
      simp only [List.map_cons, List.mem_cons, pixelKey]
      tauto

theorem pixelKey_injective : Function.Injective pixelKey := by
  rintro ⟨r, g, b, a⟩ ⟨r', g', b', a'⟩ h
  obtain ⟨h1, h2, h3, h4⟩ := rgbaKey_injective _ _ _ _ _ _ _ _ h
  simp only at h1 h2 h3 h4
  rw [h1, h2, h3, h4]

theorem extractColors_length (data : List Byte) (h : data.length % 4 = 0) :
    (extractColors data).length = distinctColours data := by
  obtain ⟨hn, hk⟩ := extractLoop_keys data 0 [] h (by simp)
  have hperm : ((extractLoop data 0 []).map Prod.fst).Perm
      ((opaquePixels data).map pixelKey).dedup := by
    rw [List.perm_ext_iff_of_nodup hn (List.nodup_dedup _)]
    intro k
    rw [hk k, List.mem_dedup]
    simp
  have hlen := hperm.length_eq
  rw [List.dedup_map_of_injective pixelKey_injective] at hlen
  simpa [extractColors, distinctColours, opaquePixels] using hlen


/-! ### Failure and validation -/

theorem promiseChunks_cons {α : Type} (size : Nat) (hsize : 0 < size) (p : α) (ps : List α) :
    ∃ chunk chunks, promiseChunks size (p :: ps) = (p :: chunk) :: chunks := by
  obtain ⟨n, rfl⟩ : ∃ n, size = n + 1 := ⟨size - 1, by omega⟩
  exact ⟨ps.take n, chunkLoop (n + 1) ps.length (ps.drop n), by simp [promiseChunks, chunkLoop]⟩

theorem startChunk_maskOf (img : ImageData) (hw : 0 < img.width) (hh : 0 < img.height)
    (chunk : List Task) :
    startChunk img chunk = some (chunk.map fun task => maskOf img task.2) :=
  startChunk_of_pos img hw hh chunk

theorem runChunks_cons_log (tracer : ImageData → Traced) (params : Params) (img : ImageData)
    (total : Nat) (order : Nat → List Nat) (chunk : List Task) (chunks : List (List Task))
    (k : Nat) (svgs : List (List Str)) (st : RunState) (masks : List ImageData)
    (hs : startChunk img chunk = some masks) :
    ∃ extra, (runChunks tracer params img total order (chunk :: chunks) k svgs st).2 =
      st.log ++ masks.map .trace ++ extra := by
  obtain ⟨extra, he, -⟩ := completeChunk_extends tracer params total (chunk.zip masks)
    (order k) ⟨st.processed, st.log ++ masks.map .trace⟩
  simp only at he
  unfold runChunks
  rw [hs]
  simp only
  cases hv : allValues ((chunk.zip masks).map (taskValue tracer params)) with
  | none => exact ⟨extra, he⟩
  | some values =>
    obtain ⟨extra', he'⟩ := runChunks_log tracer params img total order chunks (k + 1)
      (svgs ++ [values]) (completeChunk tracer params total (chunk.zip masks) (order k)
        ⟨st.processed, st.log ++ masks.map .trace⟩)
    exact ⟨extra ++ extra', by simp only [he', he, List.append_assoc]⟩

theorem convert_not_rejected (tracer : ImageData → Traced) (hc : Option Nat)
    (order : Nat → List Nat) (img : ImageData) (params : Params)
    (hw : 0 < img.width) (hh : 0 < img.height) :
    (convertToColorSVG tracer hc order img params).1 ≠ .rejected :=
  runChunks_not_rejected tracer params img hw hh _ order _ _ _ _

theorem zip_map_self {α β : Type} (f : α → β) :
    ∀ l : List α, l.zip (l.map f) = l.map (fun a => (a, f a))
  | [] => rfl
  | a :: l => by simp [zip_map_self f l]

theorem runChunks_pending_of_failure (tracer : ImageData → Traced) (params : Params)
    (img : ImageData) (hw : 0 < img.width) (hh : 0 < img.height) (total : Nat)
    (order : Nat → List Nat) :
    ∀ (chunks : List (List Task)) (k : Nat) (svgs : List (List Str)) (st : RunState),
      (∃ chunk ∈ chunks, ∃ task ∈ chunk, tracer (maskOf img task.2) = .failure) →
      (runChunks tracer params img total order chunks k svgs st).1 = .pending
  | [], _, _, _, h => by
    obtain ⟨chunk, hc, -⟩ := h
    exact absurd hc (List.not_mem_nil _)
  | chunk :: chunks, k, svgs, st, h => by
    unfold runChunks
    rw [startChunk_maskOf img hw hh chunk]
    simp only
    cases hv : allValues ((chunk.zip (chunk.map fun t => maskOf img t.2)).map
        (taskValue tracer params)) with
    | none => rfl
    | some values =>
      simp only
      apply runChunks_pending_of_failure tracer params img hw hh total order chunks
      obtain ⟨chunk', hc', task, ht, hfail⟩ := h
      rcases List.mem_cons.mp hc' with rfl | hc'
      · exfalso
        have hok := taskValue_ok tracer params _ values hv (task, maskOf img task.2) (by
          rw [zip_map_self]
          exact List.mem_map_of_mem (fun a : Task => (a, maskOf img a.2)) ht)
        obtain ⟨traced, htr⟩ := hok
        simp only at htr
        rw [hfail] at htr
        exact absurd htr (by simp)
      · exact ⟨chunk', hc', task, ht, hfail⟩

theorem traces_map_trace (masks : List ImageData) : traces (masks.map Action.trace) = masks := by
  induction masks with
  | nil => rfl
  | cons m ms ih => simp [traces, ih]

theorem runChunks_traces (tracer : ImageData → Traced) (params : Params)
    (img : ImageData) (hw : 0 < img.width) (hh : 0 < img.height) (total : Nat)
    (order : Nat → List Nat) :
    ∀ (chunks : List (List Task)) (k : Nat) (svgs : List (List Str)) (st : RunState),
      ∃ n, traces (runChunks tracer params img total order chunks k svgs st).2 =
        traces st.log ++ (chunks.flatten.take n).map fun t => maskOf img t.2
  | [], _, _, st => ⟨0, by simp [runChunks]⟩
  | chunk :: chunks, k, svgs, st => by
    obtain ⟨extra, he, hte⟩ := completeChunk_extends tracer params total
      (chunk.zip (chunk.map fun t => maskOf img t.2)) (order k)
      ⟨st.processed, st.log ++ (chunk.map fun t => maskOf img t.2).map .trace⟩
    simp only at he
    have hdone : traces (completeChunk tracer params total
        (chunk.zip (chunk.map fun t => maskOf img t.2)) (order k)
        ⟨st.processed, st.log ++ (chunk.map fun t => maskOf img t.2).map .trace⟩).log =
        traces st.log ++ chunk.map fun t => maskOf img t.2 := by
      rw [he, traces_append, traces_append, hte, traces_map_trace, List.append_nil]
    unfold runChunks
    rw [startChunk_maskOf img hw hh chunk]
    simp only
    cases hv : allValues ((chunk.zip (chunk.map fun t => maskOf img t.2)).map
        (taskValue tracer params)) with
    | none =>
      refine ⟨chunk.length, ?_⟩
      simp only [hdone, List.flatten_cons, List.take_left']
    | some values =>
      simp only
      obtain ⟨n, hn⟩ := runChunks_traces tracer params img hw hh total order chunks (k + 1)
        (svgs ++ [values]) (completeChunk tracer params total
          (chunk.zip (chunk.map fun t => maskOf img t.2)) (order k)
          ⟨st.processed, st.log ++ (chunk.map fun t => maskOf img t.2).map .trace⟩)
      refine ⟨chunk.length + n, ?_⟩
      rw [hn, hdone, List.flatten_cons, List.take_append, List.map_append, List.append_assoc]

/-- Claim C8, what the code does. When the tracer fails for the mask of a colour
key of an image with a positive width and height, the promise of the conversion
is never settled: it is neither rejected nor fulfilled with a partial document.
The tracer is called at most once per colour key, in the order of the keys. -/
theorem convert_pending_of_failure (tracer : ImageData → Traced) (hc : Option Nat)
    (order : Nat → List Nat) (img : ImageData) (params : Params)
    (hw : 0 < img.width) (hh : 0 < img.height) (task : Task)
    (hmem : task ∈ extractColors img.data) (hfail : tracer (maskOf img task.2) = .failure) :
    (convertToColorSVG tracer hc order img params).1 = .pending ∧
    ∃ n, traces (convertToColorSVG tracer hc order img params).2 =
      ((extractColors img.data).take n).map fun t => maskOf img t.2 := by
  constructor
  · apply runChunks_pending_of_failure tracer params img hw hh
    have : task ∈ (promiseChunks (chunkSize hc) (extractColors img.data)).flatten := by
      rw [promiseChunks_flatten _ (chunkSize_pos hc)]; exact hmem
    obtain ⟨chunk, hchunk, ht⟩ := List.mem_flatten.mp this
    exact ⟨chunk, hchunk, task, ht, hfail⟩
  · obtain ⟨n, hn⟩ := runChunks_traces tracer params img hw hh (extractColors img.data).length
      order (promiseChunks (chunkSize hc) (extractColors img.data)) 0 [] ⟨0, []⟩
    rw [promiseChunks_flatten _ (chunkSize_pos hc)] at hn
    exact ⟨n, by simpa [convertToColorSVG, traces] using hn⟩

theorem convert_pending_of_failure_witness :
    convertToColorSVG failingTracer none (fun _ => [0]) onePixel sampleParams =
      (.pending, [.trace ⟨[0, 0, 0, 255], 1, 1⟩]) ∧
    (convertToColorSVG failingTracer none (fun _ => [0]) onePixel sampleParams).1 = .pending ∧
    ∃ n, traces (convertToColorSVG failingTracer none (fun _ => [0]) onePixel sampleParams).2 =
      ((extractColors onePixel.data).take n).map fun t => maskOf onePixel t.2 :=
  ⟨by decide,
    convert_pending_of_failure failingTracer none (fun _ => [0]) onePixel sampleParams
      (by decide) (by decide) ("255,0,0,255".toList, [0]) (by decide) rfl⟩

set_option maxRecDepth 100000 in
/-- Claim C9 as stated, refuted. For a buffer of one pixel with the dimensions
of two pixels, and for a buffer of five bytes, the conversion calls the tracer
for every colour key and its promise is fulfilled. -/
theorem convert_malformed_counterexample :
    (convertToColorSVG sampleTracer none (fun _ => [0]) wrongSize sampleParams).1.succeeded = true ∧
    traces (convertToColorSVG sampleTracer none (fun _ => [0]) wrongSize sampleParams).2 =
      [⟨[0, 0, 0, 255, 255, 255, 255, 255], 2, 1⟩] ∧
    wrongSize.width * wrongSize.height * 4 ≠ wrongSize.data.length ∧
    (convertToColorSVG sampleTracer none (fun _ => [0, 1]) raggedBuffer sampleParams).1.succeeded
      = true ∧
    traces (convertToColorSVG sampleTracer none (fun _ => [0, 1]) raggedBuffer sampleParams).2 =
      [⟨[0, 0, 0, 255], 1, 1⟩, ⟨[255, 255, 255, 255], 1, 1⟩] ∧
    raggedBuffer.data.length % 4 ≠ 0 := by
  decide

/-- Claim C9 as amended. The conversion does not check the length of the buffer
against 4 or against width × height × 4: for every input with a positive width
and height whose buffer gives at least one colour key, whatever its length, the
first thing the conversion does is to call the tracer with the mask of the
first colour key, and its promise is not rejected. -/
theorem convert_no_validation (tracer : ImageData → Traced) (hc : Option Nat)
    (order : Nat → List Nat) (img : ImageData) (params : Params)
    (hw : 0 < img.width) (hh : 0 < img.height) (task : Task) (tasks : List Task)
    (hcol : extractColors img.data = task :: tasks) :
    (∃ rest, (convertToColorSVG tracer hc order img params).2 =
      .trace (maskOf img task.2) :: rest) ∧
    (convertToColorSVG tracer hc order img params).1 ≠ .rejected := by
  refine ⟨?_, runChunks_not_rejected tracer params img hw hh _ order _ _ _ _⟩
  obtain ⟨chunk, chunks, hsplit⟩ := promiseChunks_cons (chunkSize hc) (chunkSize_pos hc) task tasks
  obtain ⟨extra, he⟩ := runChunks_cons_log tracer params img (task :: tasks).length order
    (task :: chunk) chunks 0 [] ⟨0, []⟩ _ (startChunk_maskOf img hw hh (task :: chunk))
  refine ⟨(chunk.map fun t => maskOf img t.2).map .trace ++ extra, ?_⟩
  unfold convertToColorSVG
  simp only [hcol, hsplit]
  rw [he]
  rfl

theorem convert_no_validation_witness :
    (∃ rest, (convertToColorSVG sampleTracer none (fun _ => [0]) wrongSize sampleParams).2 =
      .trace (maskOf wrongSize [0]) :: rest) ∧
    (convertToColorSVG sampleTracer none (fun _ => [0]) wrongSize sampleParams).1 ≠ .rejected :=
  convert_no_validation sampleTracer none (fun _ => [0]) wrongSize sampleParams
    (by decide) (by decide) ("255,0,0,255".toList, [0]) [] (by decide)


/-! ### Progress messages -/

theorem getLast?_range'_one (n : Nat) (x : Nat) (h : (List.range' 1 n).getLast? = some x) :
    x = n := by
  cases n with
  | zero => simp at h
  | succ n =>
    rw [List.range'_1_concat, List.getLast?_append] at h
    simp at h
    omega

/-- Claim C10. For an image whose buffer length is a multiple of 4 and which has
`n` distinct non-transparent colours, and for every order in which the tracer
calls of each batch complete, a conversion whose promise is fulfilled posts
exactly `n` progress messages; every message carries `total = n`, the values of
`processed` in the order of posting are 1, 2, …, `n`, and so the last message
has `processed = total`. -/
theorem progress_events (tracer : ImageData → Traced) (hc : Option Nat)
    (order : Nat → List Nat) (img : ImageData) (params : Params)
    (hlen : img.data.length % 4 = 0)
    (horder : ∀ k, (order k).Perm (List.range
      ((promiseChunks (chunkSize hc) (extractColors img.data)).getD k []).length))
    (hrun : (convertToColorSVG tracer hc order img params).1.succeeded = true) :
    (posts (convertToColorSVG tracer hc order img params).2).length =
      distinctColours img.data ∧
    (∀ e ∈ posts (convertToColorSVG tracer hc order img params).2,
      e.total = distinctColours img.data) ∧
    (posts (convertToColorSVG tracer hc order img params).2).map ProgressEvent.processed =
      List.range' 1 (distinctColours img.data) ∧
    (∀ e, (posts (convertToColorSVG tracer hc order img params).2).getLast? = some e →
      e.processed = e.total) := by
  have hn := extractColors_length img.data hlen
  obtain ⟨doc, hdoc⟩ : ∃ doc, (convertToColorSVG tracer hc order img params).1 = .resolved doc := by
    cases h : (convertToColorSVG tracer hc order img params).1 with
    | resolved doc => exact ⟨doc, rfl⟩
    | rejected => rw [h] at hrun; exact absurd hrun (by decide)
    | pending => rw [h] at hrun; exact absurd hrun (by decide)
  have hpair : convertToColorSVG tracer hc order img params =
      (.resolved doc, (convertToColorSVG tracer hc order img params).2) := by
    rw [← hdoc]
  have hsum : ((promiseChunks (chunkSize hc) (extractColors img.data)).map List.length).sum =
      (extractColors img.data).length := by
    rw [← List.length_flatten, promiseChunks_flatten _ (chunkSize_pos hc)]
  have hc0 : RunState.Counted (extractColors img.data).length ⟨0, []⟩ :=
    ⟨rfl, fun e he => absurd he (List.not_mem_nil _)⟩
  have key := runChunks_counted tracer params img (extractColors img.data).length order
    (promiseChunks (chunkSize hc) (extractColors img.data)) 0 [] ⟨0, []⟩ doc _
    (fun j _ => by simpa using horder j) hpair hc0
  rw [hsum, hn] at key
  simp only [Nat.zero_add] at key
  obtain ⟨k1, k2⟩ := key
  refine ⟨?_, ?_, k1, ?_⟩
  · have := congrArg List.length k1
    simpa using this
  · exact k2
  · intro e he
    have h1 : ((posts (convertToColorSVG tracer hc order img params).2).map
        ProgressEvent.processed).getLast? = some e.processed := by
      rw [List.getLast?_map, he]; rfl
    rw [k1] at h1
    rw [getLast?_range'_one _ _ h1, k2 e (List.mem_of_getLast?_eq_some he)]

set_option maxRecDepth 100000 in
theorem progress_events_witness :
    (posts (convertToColorSVG sampleTracer none secondFirst redGreen sampleParams).2).length =
      distinctColours redGreen.data ∧
    (∀ e ∈ posts (convertToColorSVG sampleTracer none secondFirst redGreen sampleParams).2,
      e.total = distinctColours redGreen.data) ∧
    (posts (convertToColorSVG sampleTracer none secondFirst redGreen sampleParams).2).map
        ProgressEvent.processed =
      List.range' 1 (distinctColours redGreen.data) ∧
    (∀ e, (posts (convertToColorSVG sampleTracer none secondFirst redGreen sampleParams).2).getLast?
        = some e → e.processed = e.total) :=
  progress_events sampleTracer none secondFirst redGreen sampleParams (by decide)
    (by
      intro k
      have hs : promiseChunks (chunkSize none) (extractColors redGreen.data) =
          [[("255,0,0,255".toList, [0]), ("0,255,0,128".toList, [4])]] := by decide
      rw [hs]
      cases k with
      | zero => decide
      | succ k => simp [secondFirst])
    (by decide)


/-! ## Transparent images -/

theorem extractLoop_transparent (data : List Byte) :
    ∀ (i : Nat) (c : Colors),
      (∀ o, o % 4 = 0 → o < data.length → data[o + 3]? = some 0) →
      extractLoop data i c = c := by
  induction data using list_induction4 with
  | h0 => intro i c _; rfl
  | h1 a => intro i c h; have := h 0 (by decide) (by simp); simp at this
  | h2 a b => intro i c h; have := h 0 (by decide) (by simp); simp at this
  | h3 a b c => intro i c h; have := h 0 (by decide) (by simp); simp at this
  | h4 r g b a rest ih =>
    intro i c h
    have ha : a = 0 := by
      have := h 0 (by decide) (by simp)
      simpa using this
    have hrest : ∀ o, o % 4 = 0 → o < rest.length → rest[o + 3]? = some 0 := by
      intro o ho hlt
      have := h (o + 4) (by omega) (by simp only [List.length_cons]; omega)
      have e : o + 4 + 3 = (o + 3) + 1 + 1 + 1 + 1 := by omega
      rw [e] at this
      simpa using this
    subst ha
    simp only [extractLoop, Fin.val_zero, if_true]
    exact ih (i + 4) c hrest

/-- Claim C11. For every image in which every pixel has an alpha byte of 0,
also the image without pixels, the conversion creates no tracing task, never
calls the tracer, posts no progress message and is fulfilled with the empty
string. -/
theorem convert_transparent (tracer : ImageData → Traced) (hc : Option Nat)
    (order : Nat → List Nat) (img : ImageData) (params : Params)
    (halpha : ∀ o, o % 4 = 0 → o < img.data.length → img.data[o + 3]? = some 0) :
    extractColors img.data = [] ∧
    convertToColorSVG tracer hc order img params = (.resolved [], []) := by
  have h : extractColors img.data = [] := extractLoop_transparent img.data 0 [] halpha
  refine ⟨h, ?_⟩
  simp only [convertToColorSVG, h]
  rfl

theorem convert_transparent_witness :
    extractColors transparentImage.data = [] ∧
    convertToColorSVG failingTracer (some 4) secondFirst transparentImage sampleParams =
      (.resolved [], []) :=
  convert_transparent failingTracer (some 4) secondFirst transparentImage sampleParams
    (by
      intro o h4 hlt
      have : o = 0 ∨ o = 4 := by
        simp only [transparentImage, List.length_cons, List.length_nil] at hlt
        omega
      rcases this with rfl | rfl <;> decide)


/-! ## Order and content of the colour map -/

theorem mem_push (k : Str) (i : Nat) (e : Str × List Nat) :
    ∀ c : Colors, e ∈ push k i c → e ∈ c ∨ ∃ v, (k, v) ∈ c ∧ e = (k, v ++ [i])
  | [], h => by simp [push] at h
  | (k₀, v₀) :: c, h => by
    by_cases hk : k₀ = k
    · simp only [push, hk, if_true, List.mem_cons] at h
      rcases h with h | h
      · exact Or.inr ⟨v₀, by simp [hk], h⟩
      · exact Or.inl (List.mem_cons_of_mem _ h)
    · simp only [push, hk, if_false, List.mem_cons] at h
      rcases h with h | h
      · exact Or.inl (by simp [h])
      · rcases mem_push k i e c h with h' | ⟨v, hv, he⟩
        · exact Or.inl (List.mem_cons_of_mem _ h')
        · exact Or.inr ⟨v, List.mem_cons_of_mem _ hv, he⟩

theorem mem_record (c : Colors) (k : Str) (i : Nat) (e : Str × List Nat)
    (h : e ∈ record c k i) :
    e ∈ c ∨ e = (k, [i]) ∨ ∃ v, (k, v) ∈ c ∧ e = (k, v ++ [i]) := by
  unfold record at h
  split at h
  · simp only [List.mem_append, List.mem_singleton] at h
    rcases h with h | h
    · exact Or.inl h
    · exact Or.inr (Or.inl h)
  · rcases mem_push k i e c h with h | h
    · exact Or.inl h
    · exact Or.inr (Or.inr h)

theorem heads_push (k : Str) (i : Nat) :
    ∀ c : Colors, (∀ e ∈ c, e.2 ≠ []) →
      (push k i c).map (fun e => e.2.head?) = c.map (fun e => e.2.head?)
  | [], _ => rfl
  | (k₀, v₀) :: c, h => by
    have hv : v₀ ≠ [] := h (k₀, v₀) (List.mem_cons_self _ _)
    by_cases hk : k₀ = k
    · simp only [push, hk, if_true, List.map_cons]
      cases v₀ with
      | nil => exact absurd rfl hv
      | cons x v => rfl
    · simp only [push, hk, if_false, List.map_cons]
      rw [heads_push k i c (fun e he => h e (List.mem_cons_of_mem _ he))]

theorem heads_record (c : Colors) (k : Str) (i : Nat) (h : ∀ e ∈ c, e.2 ≠ []) :
    (record c k i).map (fun e => e.2.head?) = c.map (fun e => e.2.head?) ∨
    (record c k i).map (fun e => e.2.head?) = c.map (fun e => e.2.head?) ++ [some i] := by
  unfold record
  split
  · exact Or.inr (by simp)
  · exact Or.inl (heads_push k i c h)

theorem ordered_record (c : Colors) (k : Str) (i : Nat) (h : Ordered i c) :
    Ordered (i + 4) (record c k i) := by
  obtain ⟨h1, h2⟩ := h
  constructor
  · intro e he
    rcases mem_record c k i e he with he | rfl | ⟨v, hv, rfl⟩
    · obtain ⟨a, b, d⟩ := h1 e he
      exact ⟨a, b, fun x hx => by have := d x hx; omega⟩
    · exact ⟨by simp, by simp, by simp⟩
    · obtain ⟨a, b, d⟩ := h1 (k, v) hv
      refine ⟨by simp, ?_, ?_⟩
      · rw [List.pairwise_append]
        exact ⟨b, by simp, fun x hx y hy => by
          have := d x hx
          simp only [List.mem_singleton] at hy
          omega⟩
      · intro x hx
        simp only [List.mem_append, List.mem_singleton] at hx
        rcases hx with hx | hx
        · have := d x hx; omega
        · omega
  · rcases heads_record c k i (fun e he => (h1 e he).1) with e | e
    · rw [e]; exact h2
    · rw [e, List.pairwise_append]
      refine ⟨h2, by simp, ?_⟩
      intro a ha b hb x hx y hy
      simp only [List.mem_singleton] at hb
      subst hb
      simp only [Option.mem_def, Option.some.injEq] at hy
      subst hy
      obtain ⟨e', he', rfl⟩ := List.mem_map.mp ha
      exact (h1 e' he').2.2 x (List.mem_of_mem_head? hx)

theorem ordered_mono (c : Colors) (i j : Nat) (hij : i ≤ j) (h : Ordered i c) : Ordered j c :=
  ⟨fun e he => ⟨(h.1 e he).1, (h.1 e he).2.1, fun x hx => by
    have := (h.1 e he).2.2 x hx; omega⟩, h.2⟩

theorem extractLoop_ordered (data : List Byte) :
    ∀ (i : Nat) (c : Colors), Ordered i c → ∃ j, Ordered j (extractLoop data i c) := by
  induction data using list_induction4 with
  | h0 => intro i c h; exact ⟨i, h⟩
  | h1 a => intro i c h; exact ⟨i + 4, ordered_record c _ i h⟩
  | h2 a b => intro i c h; exact ⟨i + 4, ordered_record c _ i h⟩
  | h3 a b d => intro i c h; exact ⟨i + 4, ordered_record c _ i h⟩
  | h4 r g b a rest ih =>
    intro i c h
    by_cases ha : a.val = 0
    · simp only [extractLoop, ha, if_true]
      exact ih (i + 4) c (ordered_mono c i (i + 4) (by omega) h)
    · simp only [extractLoop, ha, if_false]
      exact ih (i + 4) _ (ordered_record c _ i h)

theorem lookup_of_mem (c : Colors) (h : (c.map Prod.fst).Nodup) (e : Str × List Nat)
    (he : e ∈ c) : lookup e.1 c = some e.2 := by
  induction c with
  | nil => exact absurd he (List.not_mem_nil _)
  | cons e₀ c ih =>
    obtain ⟨k₀, v₀⟩ := e₀
    simp only [List.map_cons, List.nodup_cons] at h
    rcases List.mem_cons.mp he with rfl | he'
    · simp [lookup]
    · have hne : k₀ ≠ e.1 := by
        intro hk
        exact h.1 (hk ▸ List.mem_map_of_mem Prod.fst he')
      simp only [lookup, hne, if_false]
      exact ih h.2 he'

theorem extractColors_nodup_keys (data : List Byte) (h : data.length % 4 = 0) :
    ((extractColors data).map Prod.fst).Nodup :=
  (extractLoop_keys data 0 [] h (by simp)).1

theorem entry_eq_keyOffsets (data : List Byte) (h : data.length % 4 = 0)
    (e : Str × List Nat) (he : e ∈ extractColors data) : e.2 = keyOffsets e.1 data := by
  have := lookup_extractColors_eq e.1 data h
  rw [lookup_of_mem _ (extractColors_nodup_keys data h) e he] at this
  simpa using this

/-- Claim C19. For a pixel buffer whose length is a multiple of 4, every
occurrence list returned by `extractColors` is strictly increasing and holds
exactly the offsets of the non-transparent pixels of its colour, so that its
head is the first occurrence of the colour; and the keys are enumerated, hence
the tasks created and the fragments merged, in the order of these first
occurrences. -/
theorem extractColors_order (data : List Byte) (h : data.length % 4 = 0) :
    (∀ e ∈ extractColors data, e.2.Pairwise (· < ·) ∧ e.2 = keyOffsets e.1 data) ∧
    (extractColors data).Pairwise
      (fun e e' => ∀ x ∈ e.2.head?, ∀ y ∈ e'.2.head?, x < y) := by
  obtain ⟨j, h1, h2⟩ := extractLoop_ordered data 0 []
    ⟨fun e he => absurd he (List.not_mem_nil _), List.Pairwise.nil⟩
  refine ⟨fun e he => ⟨(h1 e he).2.1, entry_eq_keyOffsets data h e he⟩, ?_⟩
  exact (List.pairwise_map.mp h2)

theorem extractColors_order_witness :
    (∀ e ∈ extractColors redGreen.data,
      e.2.Pairwise (· < ·) ∧ e.2 = keyOffsets e.1 redGreen.data) ∧
    (extractColors redGreen.data).Pairwise
      (fun e e' => ∀ x ∈ e.2.head?, ∀ y ∈ e'.2.head?, x < y) :=
  extractColors_order redGreen.data (by decide)

theorem extractLoop_nonempty (data : List Byte) (i : Nat) (c : Colors)
    (h : ∀ e ∈ c, e.2 ≠ []) : ∀ e ∈ extractLoop data i c, e.2 ≠ [] := by
  induction data using list_induction4 generalizing i c with
  | h0 => exact h
  | h1 a =>
    intro e he
    rcases mem_record c _ i e he with he | rfl | ⟨v, -, rfl⟩
    · exact h e he
    · simp
    · simp
  | h2 a b =>
    intro e he
    rcases mem_record c _ i e he with he | rfl | ⟨v, -, rfl⟩
    · exact h e he
    · simp
    · simp
  | h3 a b d =>
    intro e he
    rcases mem_record c _ i e he with he | rfl | ⟨v, -, rfl⟩
    · exact h e he
    · simp
    · simp
  | h4 r g b a rest ih =>
    by_cases ha : a.val = 0
    · simp only [extractLoop, ha, if_true]
      exact ih (i + 4) c h
    · simp only [extractLoop, ha, if_false]
      apply ih (i + 4)
      intro e he
      rcases mem_record c _ i e he with he | rfl | ⟨v, -, rfl⟩
      · exact h e he
      · simp
      · simp

/-- Claim C16. For a pixel buffer whose length is a multiple of 4, every colour
key in the mapping returned by `extractColors` has an occurrence list that is
not empty, and is the key of four bytes whose alpha byte, the fourth component
of the key, is greater than 0. -/
theorem extractColors_entries (data : List Byte) (h : data.length % 4 = 0) :
    ∀ e ∈ extractColors data, e.2 ≠ [] ∧
      ∃ r g b a : Byte, e.1 = rgbaKey (some r) (some g) (some b) (some a) ∧
        component e.1 3 = decimal a.val ∧ 0 < a.val := by
  intro e he
  refine ⟨extractLoop_nonempty data 0 [] (fun e he => absurd he (List.not_mem_nil _)) e he, ?_⟩
  have hk := (extractLoop_keys data 0 [] h (by simp)).2 e.1
  have hmem : e.1 ∈ (extractLoop data 0 []).map Prod.fst := List.mem_map_of_mem Prod.fst he
  rcases hk.mp hmem with hk' | hk'
  · simp at hk'
  · obtain ⟨⟨r, g, b, a⟩, hp, hkey⟩ := List.mem_map.mp hk'
    refine ⟨r, g, b, a, hkey.symm, ?_, ?_⟩
    · rw [← hkey]
      simp [pixelKey, component, splitOn_rgbaKey]
    · have := (List.mem_filter.mp hp).2
      simp only [bne_iff_ne, ne_eq] at this
      omega

theorem extractColors_entries_witness :
    redGreen.data.length % 4 = 0 ∧
    ∀ e ∈ extractColors redGreen.data, e.2 ≠ [] ∧
      ∃ r g b a : Byte, e.1 = rgbaKey (some r) (some g) (some b) (some a) ∧
        component e.1 3 = decimal a.val ∧ 0 < a.val :=
  ⟨by decide, extractColors_entries redGreen.data (by decide)⟩

/-! ## The key encoding, exactly -/

/-- Claim C17. The comma-joined decimal encoding of a colour key is exact: the
keys of two colours of four bytes are equal iff the colours are equal; splitting
a key on `,` gives back the decimal texts of `r`, `g`, `b` and `a` in this
order; the alpha text reads back as the number `a`; and the colour attributes
that a task writes for a key are those of the colour the key was made from. -/
theorem rgbaKey_exact (r g b a r' g' b' a' : Byte) (params : Params) :
    (rgbaKey (some r) (some g) (some b) (some a) =
        rgbaKey (some r') (some g') (some b') (some a') ↔
      (r, g, b, a) = (r', g', b', a')) ∧
    splitOn ',' (rgbaKey (some r) (some g) (some b) (some a)) =
      [decimal r.val, decimal g.val, decimal b.val, decimal a.val] ∧
    parseDecimal (component (rgbaKey (some r) (some g) (some b) (some a)) 3) = some a.val ∧
    paint (rgbaKey (some r) (some g) (some b) (some a)) params =
      rgbPaint (decimal r.val) (decimal g.val) (decimal b.val) ++
        opacityPaint (decimal a.val) ++ widthPaint params := by
  refine ⟨⟨fun h => ?_, fun h => ?_⟩, splitOn_rgbaKey r g b a, ?_, paint_rgbaKey r g b a params⟩
  · obtain ⟨h1, h2, h3, h4⟩ := rgbaKey_injective _ _ _ _ _ _ _ _ h
    rw [h1, h2, h3, h4]
  · simp only [Prod.mk.injEq] at h
    obtain ⟨h1, h2, h3, h4⟩ := h
    rw [h1, h2, h3, h4]
  · simp only [component, splitOn_rgbaKey]
    exact parseDecimal_decimal a


/-! ## Masks -/

theorem paintMask_eq_foldl (mask : List Byte) (occurrences : List Nat) :
    paintMask mask occurrences = occurrences.foldl blacken mask := rfl

theorem length_blacken (m : List Byte) (o : Nat) : (blacken m o).length = m.length := by
  simp [blacken]

theorem length_foldl_blacken (occ : List Nat) :
    ∀ m : List Byte, (occ.foldl blacken m).length = m.length := by
  induction occ with
  | nil => intro m; rfl
  | cons x occ ih => intro m; rw [List.foldl_cons, ih, length_blacken]

theorem blacken_at (m : List Byte) (o : Nat) (h : o + 3 < m.length) : isBlack (blacken m o) o := by
  unfold isBlack blacken
  refine ⟨?_, ?_, ?_, ?_⟩ <;>
    simp [List.getElem?_set] <;> omega

theorem blacken_other (m : List Byte) (o o' j : Nat) (ho : o % 4 = 0) (ho' : o' % 4 = 0)
    (hne : o ≠ o') (hj : j < 4) : (blacken m o)[o' + j]? = m[o' + j]? := by
  unfold blacken
  rw [List.getElem?_set_ne (by omega), List.getElem?_set_ne (by omega),
    List.getElem?_set_ne (by omega), List.getElem?_set_ne (by omega)]

theorem isBlack_blacken_other (m : List Byte) (o o' : Nat) (ho : o % 4 = 0) (ho' : o' % 4 = 0)
    (hne : o ≠ o') : isBlack (blacken m o) o' ↔ isBlack m o' := by
  have h0 := blacken_other m o o' 0 ho ho' hne (by omega)
  have h1 := blacken_other m o o' 1 ho ho' hne (by omega)
  have h2 := blacken_other m o o' 2 ho ho' hne (by omega)
  have h3 := blacken_other m o o' 3 ho ho' hne (by omega)
  simp only [Nat.add_zero] at h0
  simp only [isBlack, h0, h1, h2, h3]

theorem foldl_blacken_black (o' : Nat) (ho' : o' % 4 = 0) (occ : List Nat) :
    ∀ m : List Byte, (∀ o ∈ occ, o % 4 = 0 ∧ o + 3 < m.length) →
      (isBlack m o' ∨ o' ∈ occ) → isBlack (occ.foldl blacken m) o' := by
  induction occ with
  | nil =>
    intro m _ h
    rcases h with h | h
    · exact h
    · exact absurd h (List.not_mem_nil _)
  | cons x occ ih =>
    intro m hin h
    have hx := hin x (List.mem_cons_self _ _)
    rw [List.foldl_cons]
    apply ih
    · intro o ho
      rw [length_blacken]
      exact hin o (List.mem_cons_of_mem _ ho)
    · by_cases hxo : x = o'
      · subst hxo
        exact Or.inl (blacken_at m x hx.2)
      · rcases h with h | h
        · exact Or.inl ((isBlack_blacken_other m x o' hx.1 ho' hxo).mpr h)
        · rcases List.mem_cons.mp h with h | h
          · exact absurd h.symm hxo
          · exact Or.inr h

theorem foldl_blacken_other (o' j : Nat) (ho' : o' % 4 = 0) (hj : j < 4) (occ : List Nat) :
    ∀ m : List Byte, (∀ o ∈ occ, o % 4 = 0) → o' ∉ occ →
      (occ.foldl blacken m)[o' + j]? = m[o' + j]? := by
  induction occ with
  | nil => intro m _ _; rfl
  | cons x occ ih =>
    intro m hin hno
    rw [List.foldl_cons, ih _ (fun o ho => hin o (List.mem_cons_of_mem _ ho))
      (fun h => hno (List.mem_cons_of_mem _ h))]
    exact blacken_other m x o' j (hin x (List.mem_cons_self _ _)) ho'
      (fun e => hno (e ▸ List.mem_cons_self _ _)) hj

theorem buildMask_maskOf (img : ImageData) (hw : 0 < img.width) (hh : 0 < img.height)
    (task : Task) : buildMask img task = some (maskOf img task.2) := by
  have : ¬ (img.width = 0 ∨ img.height = 0) := by omega
  simp [buildMask, blankMask, this, maskOf]

theorem maskOf_pixels (img : ImageData) (occurrences : List Nat)
    (hin : ∀ o ∈ occurrences, o % 4 = 0 ∧ o + 3 < img.width * img.height * 4)
    (o : Nat) (ho : o % 4 = 0) (hlt : o + 3 < img.width * img.height * 4) :
    (o ∈ occurrences → isBlack (maskOf img occurrences).data o) ∧
    (o ∉ occurrences → isWhite (maskOf img occurrences).data o) := by
  have hdata : (maskOf img occurrences).data =
      occurrences.foldl blacken (List.replicate (img.width * img.height * 4) 255) := rfl
  rw [hdata]
  constructor
  · intro hmem
    exact foldl_blacken_black o ho occurrences _ (by simpa using hin) (Or.inr hmem)
  · intro hno
    have hw : ∀ j, j < 4 →
        (List.replicate (img.width * img.height * 4) (255 : Byte))[o + j]? = some 255 := by
      intro j hj
      rw [List.getElem?_replicate]
      simp; omega
    have h0 := foldl_blacken_other o 0 ho (by omega) occurrences
      (List.replicate (img.width * img.height * 4) 255) (fun x hx => (hin x hx).1) hno
    have h1 := foldl_blacken_other o 1 ho (by omega) occurrences
      (List.replicate (img.width * img.height * 4) 255) (fun x hx => (hin x hx).1) hno
    have h2 := foldl_blacken_other o 2 ho (by omega) occurrences
      (List.replicate (img.width * img.height * 4) 255) (fun x hx => (hin x hx).1) hno
    have h3 := foldl_blacken_other o 3 ho (by omega) occurrences
      (List.replicate (img.width * img.height * 4) 255) (fun x hx => (hin x hx).1) hno
    simp only [Nat.add_zero] at h0
    have w0 := hw 0 (by omega)
    simp only [Nat.add_zero] at w0
    exact ⟨h0.trans w0, h1.trans (hw 1 (by omega)), h2.trans (hw 2 (by omega)),
      h3.trans (hw 3 (by omega))⟩

theorem isBlack_maskOf_iff (img : ImageData) (occurrences : List Nat)
    (hin : ∀ o ∈ occurrences, o % 4 = 0 ∧ o + 3 < img.width * img.height * 4)
    (o : Nat) (ho : o % 4 = 0) (hlt : o + 3 < img.width * img.height * 4) :
    isBlack (maskOf img occurrences).data o ↔ o ∈ occurrences := by
  obtain ⟨h1, h2⟩ := maskOf_pixels img occurrences hin o ho hlt
  constructor
  · intro hb
    by_contra hno
    have hw := h2 hno
    have := hb.1.symm.trans hw.1
    exact absurd this (by decide)
  · exact h1

/-- Claim C14. For an image and an occurrence list of pixel offsets inside a
buffer of width × height × 4 bytes, the mask that a tracing task builds has
width × height × 4 bytes; its pixel at a pixel offset `o` is opaque black iff
`o` is in the occurrence list, and opaque white otherwise.  A task, whose
occurrence list is never empty, does build this mask. -/
theorem mask_pixels (img : ImageData) (color : Str) (occurrences : List Nat)
    (hin : ∀ o ∈ occurrences, o % 4 = 0 ∧ o + 3 < img.width * img.height * 4) :
    (maskOf img occurrences).data.length = img.width * img.height * 4 ∧
    (∀ o, o % 4 = 0 → o + 3 < img.width * img.height * 4 →
      (isBlack (maskOf img occurrences).data o ↔ o ∈ occurrences) ∧
      (o ∉ occurrences → isWhite (maskOf img occurrences).data o)) ∧
    (occurrences ≠ [] → buildMask img (color, occurrences) = some (maskOf img occurrences)) := by
  refine ⟨?_, ?_, ?_⟩
  · show (occurrences.foldl blacken _).length = _
    rw [length_foldl_blacken, List.length_replicate]
  · intro o ho hlt
    exact ⟨isBlack_maskOf_iff img occurrences hin o ho hlt,
      (maskOf_pixels img occurrences hin o ho hlt).2⟩
  · intro hne
    obtain ⟨x, hx⟩ := List.exists_mem_of_ne_nil _ hne
    have := (hin x hx).2
    have hw : 0 < img.width := by
      rcases Nat.eq_zero_or_pos img.width with h | h
      · rw [h] at this; simp at this
      · exact h
    have hh : 0 < img.height := by
      rcases Nat.eq_zero_or_pos img.height with h | h
      · rw [h] at this; simp at this
      · exact h
    exact buildMask_maskOf img hw hh (color, occurrences)

theorem mask_pixels_witness :
    (maskOf fourPixels [0, 8]).data.length = fourPixels.width * fourPixels.height * 4 ∧
    (∀ o, o % 4 = 0 → o + 3 < fourPixels.width * fourPixels.height * 4 →
      (isBlack (maskOf fourPixels [0, 8]).data o ↔ o ∈ [0, 8]) ∧
      (o ∉ [0, 8] → isWhite (maskOf fourPixels [0, 8]).data o)) ∧
    (([0, 8] : List Nat) ≠ [] →
      buildMask fourPixels ("255,0,0,255".toList, [0, 8]) = some (maskOf fourPixels [0, 8])) :=
  mask_pixels fourPixels "255,0,0,255".toList [0, 8] (by decide)

/-! ### The masks of the colour keys -/

theorem extractColors_lists_disjoint (data : List Byte) (h : data.length % 4 = 0) :
    ((extractColors data).map Prod.snd).Pairwise List.Disjoint :=
  (List.nodup_flatten.mp
    ((extractColors_offsets data h).nodup_iff.mpr (opaqueOffsets_nodup data))).2

theorem occurrence_inside (data : List Byte) (h : data.length % 4 = 0)
    (e : Str × List Nat) (he : e ∈ extractColors data) (o : Nat) (ho : o ∈ e.2) :
    o % 4 = 0 ∧ o + 3 < data.length := by
  obtain ⟨hm, a, ha, -⟩ := (mem_extractColors_iff data h o).mp ⟨e, he, ho⟩
  refine ⟨hm, ?_⟩
  by_contra hc
  rw [List.getElem?_eq_none (by omega)] at ha
  exact absurd ha (by simp)

theorem not_isBlack_outside (mask : List Byte) (o : Nat) (h : mask.length ≤ o + 3) :
    ¬ isBlack mask o := by
  intro hb
  have := hb.2.2.2
  rw [List.getElem?_eq_none h] at this
  exact absurd this (by simp)

theorem length_maskOf (img : ImageData) (occ : List Nat) :
    (maskOf img occ).data.length = img.width * img.height * 4 := by
  show (occ.foldl blacken _).length = _
  rw [length_foldl_blacken, List.length_replicate]

theorem foldl_blacken_inside (o' : Nat) (ho' : o' % 4 = 0) (occ : List Nat) :
    ∀ m : List Byte, (∀ o ∈ occ, o % 4 = 0) → o' + 3 < m.length →
      (isBlack m o' ∨ o' ∈ occ) → isBlack (occ.foldl blacken m) o' := by
  induction occ with
  | nil =>
    intro m _ _ h
    rcases h with h | h
    · exact h
    · exact absurd h (List.not_mem_nil _)
  | cons x occ ih =>
    intro m hin hlt h
    have hx := hin x (List.mem_cons_self _ _)
    rw [List.foldl_cons]
    apply ih
    · intro o ho
      exact hin o (List.mem_cons_of_mem _ ho)
    · rw [length_blacken]
      exact hlt
    · by_cases hxo : x = o'
      · subst hxo
        exact Or.inl (blacken_at m x hlt)
      · rcases h with h | h
        · exact Or.inl ((isBlack_blacken_other m x o' hx ho' hxo).mpr h)
        · rcases List.mem_cons.mp h with h | h
          · exact absurd h.symm hxo
          · exact Or.inr h

theorem isBlack_maskOf_inside (img : ImageData) (occ : List Nat) (hocc : ∀ x ∈ occ, x % 4 = 0)
    (o : Nat) (ho : o % 4 = 0) (hlt : o + 3 < img.width * img.height * 4) :
    isBlack (maskOf img occ).data o ↔ o ∈ occ := by
  have hdata : (maskOf img occ).data =
      occ.foldl blacken (List.replicate (img.width * img.height * 4) 255) := rfl
  rw [hdata]
  constructor
  · intro hb
    by_contra hno
    have h0 := foldl_blacken_other o 0 ho (by omega) occ
      (List.replicate (img.width * img.height * 4) 255) hocc hno
    simp only [Nat.add_zero] at h0
    have hw : (List.replicate (img.width * img.height * 4) (255 : Byte))[o]? = some 255 := by
      rw [List.getElem?_replicate]
      simp; omega
    have := hb.1.symm.trans (h0.trans hw)
    exact absurd this (by decide)
  · intro hmem
    exact foldl_blacken_inside o ho occ _ hocc (by simpa using hlt) (Or.inr hmem)

theorem isBlack_task_iff (img : ImageData) (h4 : img.data.length % 4 = 0)
    (e : Str × List Nat) (he : e ∈ extractColors img.data) (o : Nat) (ho : o % 4 = 0) :
    isBlack (maskOf img e.2).data o ↔ o ∈ e.2 ∧ o + 3 < img.width * img.height * 4 := by
  have hocc : ∀ x ∈ e.2, x % 4 = 0 :=
    fun x hx => (occurrence_inside img.data h4 e he x hx).1
  by_cases hlt : o + 3 < img.width * img.height * 4
  · rw [isBlack_maskOf_inside img e.2 hocc o ho hlt]
    exact ⟨fun h => ⟨h, hlt⟩, fun h => h.1⟩
  · constructor
    · intro hb
      exact absurd hb (not_isBlack_outside _ o (by rw [length_maskOf]; omega))
    · intro hm
      exact absurd hm.2 hlt

set_option maxRecDepth 100000 in
/-- Claim C18 as stated, refuted. The buffer of the image has 8 bytes, a
multiple of 4, and the image is one by one pixel: the pixel at offset 4 has the
alpha byte 255 and is black in no mask, since the masks have 4 bytes. -/
theorem masks_overlong_counterexample :
    overlong.data.length % 4 = 0 ∧
    overlong.data[4 + 3]? = some 255 ∧
    ¬ ∃ e ∈ extractColors overlong.data, isBlack (maskOf overlong e.2).data 4 := by
  unfold isBlack
  decide

/-- Claim C18 as amended. For every image whose buffer length is a multiple of
4, the masks that the tracing tasks build for the colour keys of
`extractColors` have pairwise disjoint sets of black pixels; a pixel of the
source whose offset lies inside the width × height × 4 bytes of the masks is
black in exactly one mask iff its alpha byte is not 0 and black in no mask iff
its alpha byte is 0, and a pixel of the source beyond these bytes is black in
no mask.  When the buffer has exactly width × height × 4 bytes, every pixel of
the source is inside. -/
theorem masks_partition (img : ImageData) (h4 : img.data.length % 4 = 0) :
    (extractColors img.data).Pairwise (fun e e' => ∀ o, o % 4 = 0 →
      ¬ (isBlack (maskOf img e.2).data o ∧ isBlack (maskOf img e'.2).data o)) ∧
    (∀ o a, o % 4 = 0 → img.data[o + 3]? = some a →
      (o + 3 < img.width * img.height * 4 →
        (a.val ≠ 0 ↔ ∃! e, e ∈ extractColors img.data ∧ isBlack (maskOf img e.2).data o) ∧
        (a.val = 0 ↔ ∀ e ∈ extractColors img.data, ¬ isBlack (maskOf img e.2).data o)) ∧
      (img.width * img.height * 4 ≤ o + 3 →
        ∀ e ∈ extractColors img.data, ¬ isBlack (maskOf img e.2).data o)) ∧
    (img.data.length = img.width * img.height * 4 →
      ∀ o a, o % 4 = 0 → img.data[o + 3]? = some a →
        (a.val ≠ 0 ↔ ∃! e, e ∈ extractColors img.data ∧ isBlack (maskOf img e.2).data o) ∧
        (a.val = 0 ↔ ∀ e ∈ extractColors img.data, ¬ isBlack (maskOf img e.2).data o)) := by
  have hpair : (extractColors img.data).Pairwise (fun e e' => ∀ o, o % 4 = 0 →
      ¬ (isBlack (maskOf img e.2).data o ∧ isBlack (maskOf img e'.2).data o)) := by
    have hd := List.pairwise_map.mp (extractColors_lists_disjoint img.data h4)
    refine List.Pairwise.imp_of_mem ?_ hd
    intro e e' he he' hdis o ho hb
    exact hdis ((isBlack_task_iff img h4 e he o ho).mp hb.1).1
      ((isBlack_task_iff img h4 e' he' o ho).mp hb.2).1
  have hex : ∀ o a, o % 4 = 0 → img.data[o + 3]? = some a →
      o + 3 < img.width * img.height * 4 →
      (a.val ≠ 0 ↔ ∃ e ∈ extractColors img.data, isBlack (maskOf img e.2).data o) := by
    intro o a ho ha hlt
    constructor
    · intro hne
      obtain ⟨e, he, hm⟩ := (mem_extractColors_iff img.data h4 o).mpr ⟨ho, a, ha, hne⟩
      exact ⟨e, he, (isBlack_task_iff img h4 e he o ho).mpr ⟨hm, hlt⟩⟩
    · rintro ⟨e, he, hb⟩
      obtain ⟨-, a', ha', hne⟩ := (mem_extractColors_iff img.data h4 o).mp
        ⟨e, he, ((isBlack_task_iff img h4 e he o ho).mp hb).1⟩
      rw [ha] at ha'
      rw [Option.some.inj ha']
      exact hne
  have hsym : Symmetric (fun e e' : Str × List Nat => ∀ o, o % 4 = 0 →
      ¬ (isBlack (maskOf img e.2).data o ∧ isBlack (maskOf img e'.2).data o)) :=
    fun e e' h o ho hb => h o ho ⟨hb.2, hb.1⟩
  have hin : ∀ o a, o % 4 = 0 → img.data[o + 3]? = some a →
      o + 3 < img.width * img.height * 4 →
      (a.val ≠ 0 ↔ ∃! e, e ∈ extractColors img.data ∧ isBlack (maskOf img e.2).data o) ∧
      (a.val = 0 ↔ ∀ e ∈ extractColors img.data, ¬ isBlack (maskOf img e.2).data o) := by
    intro o a ho ha hlt
    constructor
    · constructor
      · intro hne
        obtain ⟨e, he, hb⟩ := (hex o a ho ha hlt).mp hne
        refine ⟨e, ⟨he, hb⟩, ?_⟩
        rintro e' ⟨he', hb'⟩
        by_contra hne'
        exact hpair.forall hsym he' he hne' o ho ⟨hb', hb⟩
      · rintro ⟨e, ⟨he, hb⟩, -⟩
        exact (hex o a ho ha hlt).mpr ⟨e, he, hb⟩
    · constructor
      · intro h0 e he hb
        exact (hex o a ho ha hlt).mpr ⟨e, he, hb⟩ h0
      · intro hall
        by_contra hne
        obtain ⟨e, he, hb⟩ := (hex o a ho ha hlt).mp hne
        exact hall e he hb
  refine ⟨hpair, ?_, ?_⟩
  · intro o a ho ha
    refine ⟨hin o a ho ha, ?_⟩
    intro hge e he hb
    have := ((isBlack_task_iff img h4 e he o ho).mp hb).2
    omega
  · intro hsize o a ho ha
    apply hin o a ho ha
    rw [← hsize]
    by_contra hc
    rw [List.getElem?_eq_none (by omega)] at ha
    exact absurd ha (by simp)

theorem masks_partition_witness :
    fourPixels.data.length % 4 = 0 ∧
    (extractColors fourPixels.data).Pairwise (fun e e' => ∀ o, o % 4 = 0 →
      ¬ (isBlack (maskOf fourPixels e.2).data o ∧ isBlack (maskOf fourPixels e'.2).data o)) ∧
    (∀ o a, o % 4 = 0 → fourPixels.data[o + 3]? = some a →
      (o + 3 < fourPixels.width * fourPixels.height * 4 →
        (a.val ≠ 0 ↔
          ∃! e, e ∈ extractColors fourPixels.data ∧ isBlack (maskOf fourPixels e.2).data o) ∧
        (a.val = 0 ↔
          ∀ e ∈ extractColors fourPixels.data, ¬ isBlack (maskOf fourPixels e.2).data o)) ∧
      (fourPixels.width * fourPixels.height * 4 ≤ o + 3 →
        ∀ e ∈ extractColors fourPixels.data, ¬ isBlack (maskOf fourPixels e.2).data o)) ∧
    (fourPixels.data.length = fourPixels.width * fourPixels.height * 4 →
      ∀ o a, o % 4 = 0 → fourPixels.data[o + 3]? = some a →
        (a.val ≠ 0 ↔
          ∃! e, e ∈ extractColors fourPixels.data ∧ isBlack (maskOf fourPixels e.2).data o) ∧
        (a.val = 0 ↔
          ∀ e ∈ extractColors fourPixels.data, ¬ isBlack (maskOf fourPixels e.2).data o)) :=
  ⟨by decide, masks_partition fourPixels (by decide)⟩

/-! ### The result of a task -/

theorem hasPath_nil : hasPath [] = false := by decide

theorem matchHere_lit_isSome (p s : Str) :
    (matchHere [.lit p] s).isSome = true ↔ p <+: s := by
  unfold matchHere
  rw [run]
  cases h : stripPrefix p s with
  | none =>
    simp only [Option.isSome_none]
    constructor
    · intro h'; exact absurd h' (by decide)
    · rintro ⟨t, ht⟩
      rw [(stripPrefix_eq_some p s t).mpr ht.symm] at h
      exact absurd h (by simp)
  | some s' =>
    simp only [run, Option.isSome_some, true_iff]
    exact ⟨s', ((stripPrefix_eq_some p s s').mp h).symm⟩

theorem search_lit_isSome (p : Str) (s : Str) :
    (search [.lit p] s).isSome = true ↔ p <:+: s := by
  induction s with
  | nil =>
    rw [search, matchHere_lit_isSome]
    constructor
    · exact List.IsPrefix.isInfix
    · intro h
      rw [List.eq_nil_of_infix_nil h]
  | cons c cs ih =>
    rw [search, List.infix_cons_iff, ← ih, ← matchHere_lit_isSome]
    cases matchHere [.lit p] (c :: cs) with
    | none => simp
    | some m => simp

theorem hasPath_iff (s : Str) : hasPath s = true ↔ pathOpen <:+: s :=
  search_lit_isSome pathOpen s

theorem specHasPathElement_infix (s : Str) (h : specHasPathElement s = true) :
    pathOpen <:+: s := by
  induction s with
  | nil => exact absurd h (by decide)
  | cons c cs ih =>
    rw [specHasPathElement, Bool.or_eq_true] at h
    rcases h with h | h
    · cases hs : stripPrefix pathOpen (c :: cs) with
      | none => rw [hs] at h; exact absurd h (by decide)
      | some rest =>
        exact List.IsPrefix.isInfix ⟨rest, ((stripPrefix_eq_some _ _ _).mp hs).symm⟩
    · exact List.infix_cons (ih h)

theorem specHasPathElement_append_left (pre s : Str) (h : specHasPathElement s = true) :
    specHasPathElement (pre ++ s) = true := by
  induction pre with
  | nil => exact h
  | cons c pre ih =>
    rw [List.cons_append, specHasPathElement, ih, Bool.or_true]

theorem specHasPathElement_pathElement (pre d post : Str) :
    specHasPathElement (pre ++ pathElement d ++ post) = true := by
  rw [List.append_assoc]
  apply specHasPathElement_append_left
  have e : pathElement d ++ post = '<' :: "path".toList ++ ' ' :: (dOpen ++ d ++ pathClose ++ post) := by
    simp [pathElement, pathOpen]
  have e2 : ('<' :: "path".toList ++ ' ' :: (dOpen ++ d ++ pathClose ++ post) : Str) =
      pathOpen ++ ' ' :: (dOpen ++ d ++ pathClose ++ post) := rfl
  rw [e, List.cons_append, specHasPathElement, ← List.cons_append, e2, stripPrefix_append]
  rfl

theorem taskResult_cases (color : Str) (params : Params) (traced : Str) :
    (pathOpen <:+: postProcess color params traced ∧
      hasPath (postProcess color params traced) = true ∧
      postProcess color params traced ≠ [] ∧
      taskResult color params traced = postProcess color params traced) ∨
    (¬ pathOpen <:+: postProcess color params traced ∧
      hasPath (postProcess color params traced) = false ∧
      taskResult color params traced = []) := by
  cases hp : hasPath (postProcess color params traced) with
  | false =>
    refine Or.inr ⟨?_, rfl, ?_⟩
    · intro h
      rw [(hasPath_iff _).mpr h] at hp
      exact absurd hp (by decide)
    · simp [taskResult, hp]
  | true =>
    refine Or.inl ⟨(hasPath_iff _).mp hp, rfl, ?_, ?_⟩
    · intro h
      rw [h] at hp
      exact absurd hp (by decide)
    · simp [taskResult, hp]

/-- Claim C15 as stated, refuted. For the fragment `<svg a><pathology/></svg>`
no path element remains in the filtered, recoloured fragment, and yet the
result of the task is not the empty string: it is the fragment, and the
progress message carries it as `svg`. -/
theorem taskResult_pathology_counterexample :
    specHasPathElement (postProcess opaqueGreen sampleParams pathology) = false ∧
    taskResult opaqueGreen sampleParams pathology = pathology ∧
    taskResult opaqueGreen sampleParams pathology ≠ [] ∧
    (progressEvent 1 1 (postProcess opaqueGreen sampleParams pathology)).svg = some pathology := by
  decide

/-- Claim C15 as amended. The result of a tracing task is the empty string iff
the text `<path` occurs nowhere in the recoloured fragment after filtering, and
is otherwise exactly the filtered, recoloured fragment; so a fragment in which
a path element remains is returned whole and is not empty.  The progress
message of the task carries an `svg` field iff the result is not empty, and the
field is then the result. -/
theorem taskResult_event (color : Str) (params : Params) (traced : Str) (processed total : Nat) :
    (taskResult color params traced = [] ↔
      ¬ "<path".toList <:+: postProcess color params traced) ∧
    ("<path".toList <:+: postProcess color params traced →
      taskResult color params traced = postProcess color params traced) ∧
    (specHasPathElement (postProcess color params traced) = true →
      taskResult color params traced = postProcess color params traced ∧
      taskResult color params traced ≠ []) ∧
    ((progressEvent processed total (postProcess color params traced)).svg.isSome = true ↔
      taskResult color params traced ≠ []) ∧
    (taskResult color params traced ≠ [] →
      (progressEvent processed total (postProcess color params traced)).svg =
        some (taskResult color params traced)) := by
  have hspec := specHasPathElement_infix (postProcess color params traced)
  rcases taskResult_cases color params traced with ⟨hin, hp, hne, hres⟩ | ⟨hno, hp, hres⟩
  · rw [hres]
    refine ⟨⟨fun h => absurd h hne, fun h => absurd hin h⟩, fun _ => rfl,
      fun _ => ⟨rfl, hne⟩, ?_, ?_⟩
    · rw [progressEvent, if_pos hp]
      exact ⟨fun _ => hne, fun _ => rfl⟩
    · intro _
      rw [progressEvent, if_pos hp]
  · rw [hres]
    refine ⟨⟨fun _ => hno, fun _ => rfl⟩, fun h => absurd h hno,
      fun h => absurd (hspec h) hno, ?_, fun h => absurd rfl h⟩
    rw [progressEvent, if_neg (by rw [hp]; decide)]
    exact ⟨fun h => absurd h Bool.false_ne_true, fun h => absurd rfl h⟩

/-! ## The batching loop -/

theorem chunkLoop_nil {α : Type} (size fuel : Nat) : chunkLoop size fuel ([] : List α) = [] := by
  cases fuel <;> rfl

theorem chunkLoopRest_nil {α : Type} (size fuel : Nat) :
    chunkLoopRest size fuel ([] : List α) = [] := by
  cases fuel <;> rfl

theorem chunkLoop_fuel {α : Type} (size : Nat) (hsize : 0 < size) :
    ∀ (fuel fuel' : Nat) (ps : List α), ps.length ≤ fuel → ps.length ≤ fuel' →
      chunkLoop size fuel ps = chunkLoop size fuel' ps
  | _, _, [], _, _ => by rw [chunkLoop_nil, chunkLoop_nil]
  | 0, _, p :: ps, h, _ => by simp at h
  | _ + 1, 0, p :: ps, _, h => by simp at h
  | fuel + 1, fuel' + 1, p :: ps, h, h' => by
    have h1 : ((p :: ps).drop size).length ≤ fuel := by
      simp only [List.length_drop, List.length_cons] at h ⊢; omega
    have h2 : ((p :: ps).drop size).length ≤ fuel' := by
      simp only [List.length_drop, List.length_cons] at h' ⊢; omega
    simp only [chunkLoop, chunkLoop_fuel size hsize fuel fuel' _ h1 h2]

theorem chunkLoopRest_eq_nil {α : Type} (size : Nat) (hsize : 0 < size) :
    ∀ (fuel : Nat) (ps : List α), ps.length ≤ fuel → chunkLoopRest size fuel ps = []
  | _, [], _ => chunkLoopRest_nil _ _
  | 0, p :: ps, h => by simp at h
  | fuel + 1, p :: ps, h => by
    have h1 : ((p :: ps).drop size).length ≤ fuel := by
      simp only [List.length_drop, List.length_cons] at h ⊢; omega
    simp only [chunkLoopRest, chunkLoopRest_eq_nil size hsize fuel _ h1]

theorem promiseChunks_step {α : Type} (size : Nat) (hsize : 0 < size) (p : α) (ps : List α) :
    promiseChunks size (p :: ps) =
      (p :: ps).take size :: promiseChunks size ((p :: ps).drop size) := by
  have h1 : ((p :: ps).drop size).length ≤ ps.length := by
    simp only [List.length_drop, List.length_cons]; omega
  simp only [promiseChunks, List.length_cons, chunkLoop]
  rw [chunkLoop_fuel size hsize ps.length _ _ h1 (Nat.le_refl _)]

theorem promiseChunks_nil {α : Type} (size : Nat) : promiseChunks size ([] : List α) = [] := rfl

theorem promiseChunks_batched {α : Type} (size : Nat) (hsize : 0 < size) :
    ∀ (n : Nat) (ps : List α), ps.length = n → Batched size n (promiseChunks size ps) := by
  intro n
  induction n using Nat.strong_induction_on with
  | _ n ih =>
    intro ps hn
    cases ps with
    | nil =>
      subst hn
      refine ⟨?_, by simp [promiseChunks_nil], by simp [promiseChunks_nil]⟩
      simp only [promiseChunks_nil, List.length_nil, Nat.zero_add]
      exact (Nat.div_eq_of_lt (by omega)).symm
    | cons p ps =>
      rw [promiseChunks_step size hsize]
      have hlen : ((p :: ps).drop size).length = n - size := by
        rw [List.length_drop, hn]
      have hpos : 0 < n := by rw [← hn]; simp
      obtain ⟨i1, i2, i3⟩ := ih (n - size) (by omega) _ hlen
      have htake : ((p :: ps).take size).length = min size n := by
        rw [List.length_take, hn]
      refine ⟨?_, ?_, ?_⟩
      · rw [List.length_cons, i1]
        by_cases hle : n ≤ size
        · have e0 : n - size = 0 := by omega
          rw [e0, Nat.zero_add, Nat.div_eq_of_lt (by omega)]
          have : (n + size - 1) / size = 1 := by
            have e : n + size - 1 = (n - 1) + size := by omega
            rw [e, Nat.add_div_right _ hsize, Nat.div_eq_of_lt (by omega)]
          rw [this]
        · have e : n + size - 1 = (n - size + size - 1) + size := by omega
          rw [e, Nat.add_div_right _ hsize]
      · intro chunk hc
        rcases List.mem_cons.mp hc with rfl | hc
        · constructor
          · intro h
            have := congrArg List.length h
            rw [htake] at this
            simp at this
            omega
          · rw [htake]; omega
        · exact i2 chunk hc
      · intro chunk hc
        cases hrest : promiseChunks size ((p :: ps).drop size) with
        | nil => rw [hrest] at hc; simp at hc
        | cons x xs =>
          rw [hrest, List.dropLast_cons₂] at hc
          rcases List.mem_cons.mp hc with rfl | hc
          · rw [htake]
            have hne : (p :: ps).drop size ≠ [] := by
              intro h0
              rw [h0, promiseChunks_nil] at hrest
              exact absurd hrest (by simp)
            have : 0 < ((p :: ps).drop size).length := List.length_pos.mpr hne
            rw [hlen] at this
            omega
          · rw [hrest] at i3
            exact i3 chunk hc

/-- Claim C20. For a task list of length `n` and a batch size `c ≥ 1` the
batching loop terminates: with any bound of at least `n` rounds it leaves the
task list empty and produces the same batches; they are `⌈n / c⌉` in number,
none is empty and all but the last hold exactly `c` tasks.  The batch size
computed from the hardware concurrency, absent, zero or positive, is at least 1. -/
theorem chunkLoop_terminates {α : Type} (promises : List α) (c : Nat) (hc : 1 ≤ c)
    (hardwareConcurrency : Option Nat) :
    (∀ fuel, promises.length ≤ fuel →
      chunkLoopRest c fuel promises = [] ∧
      chunkLoop c fuel promises = promiseChunks c promises) ∧
    (promiseChunks c promises).length = (promises.length + c - 1) / c ∧
    (∀ chunk ∈ promiseChunks c promises, chunk ≠ []) ∧
    (∀ chunk ∈ (promiseChunks c promises).dropLast, chunk.length = c) ∧
    1 ≤ chunkSize hardwareConcurrency := by
  obtain ⟨h1, h2, h3⟩ := promiseChunks_batched c hc promises.length promises rfl
  refine ⟨fun fuel hf => ⟨chunkLoopRest_eq_nil c hc fuel promises hf,
    chunkLoop_fuel c hc fuel _ promises hf (Nat.le_refl _)⟩, h1,
    fun chunk hm => (h2 chunk hm).1, h3, chunkSize_pos hardwareConcurrency⟩

theorem chunkLoop_terminates_witness :
    (∀ fuel, [1, 2, 3, 4, 5].length ≤ fuel →
      chunkLoopRest 2 fuel [1, 2, 3, 4, 5] = [] ∧
      chunkLoop 2 fuel [1, 2, 3, 4, 5] = promiseChunks 2 [1, 2, 3, 4, 5]) ∧
    (promiseChunks 2 [1, 2, 3, 4, 5]).length = ([1, 2, 3, 4, 5].length + 2 - 1) / 2 ∧
    (∀ chunk ∈ promiseChunks 2 [1, 2, 3, 4, 5], chunk ≠ []) ∧
    (∀ chunk ∈ (promiseChunks 2 [1, 2, 3, 4, 5]).dropLast, chunk.length = 2) ∧
    1 ≤ chunkSize (some 0) :=
  chunkLoop_terminates [1, 2, 3, 4, 5] 2 (by decide) (some 0)


/-! ### Batches and the order of the results -/

theorem buildMask_eq_some (img : ImageData) (task : Task) (mask : ImageData)
    (h : buildMask img task = some mask) : mask = maskOf img task.2 := by
  unfold buildMask blankMask at h
  split at h
  · simp at h
  · simp only [Option.map_some', Option.some.injEq] at h
    rw [← h]; rfl

theorem startChunk_eq_some (img : ImageData) :
    ∀ (chunk : List Task) (masks : List ImageData), startChunk img chunk = some masks →
      masks = chunk.map fun task => maskOf img task.2
  | [], masks, h => by
    simp only [startChunk, List.map_nil, allValues, Option.some.injEq] at h
    rw [← h]; rfl
  | task :: chunk, masks, h => by
    simp only [startChunk, List.map_cons] at h
    cases hb : buildMask img task with
    | none => rw [hb] at h; simp [allValues] at h
    | some mask =>
      rw [hb] at h
      simp only [allValues, Option.map_eq_some'] at h
      obtain ⟨rest, hrest, e⟩ := h
      rw [← e, buildMask_eq_some img task mask hb,
        startChunk_eq_some img chunk rest hrest]
      rfl

theorem chunk_values (tracer : ImageData → Traced) (params : Params) (img : ImageData)
    (chunk : List Task) (masks : List ImageData) (values : List Str)
    (hs : startChunk img chunk = some masks)
    (hv : allValues ((chunk.zip masks).map (taskValue tracer params)) = some values) :
    values.map some = chunk.map (taskOutcome tracer params img) := by
  rw [startChunk_eq_some img chunk masks hs, zip_map_self, List.map_map] at hv
  rw [← allValues_eq_some _ _ hv]
  rfl

theorem awaitChunks_flatten (tracer : ImageData → Traced) (params : Params) (img : ImageData) :
    ∀ (chunks : List (List Task)) (svgs₀ svgs : List (List Str)),
      awaitChunks tracer params img chunks svgs₀ = some svgs →
      svgs.flatten.map some =
        svgs₀.flatten.map some ++ chunks.flatten.map (taskOutcome tracer params img) ∧
      svgs.map List.length = svgs₀.map List.length ++ chunks.map List.length
  | [], svgs₀, svgs, h => by
    simp only [awaitChunks, Option.some.injEq] at h
    rw [h]; simp
  | chunk :: chunks, svgs₀, svgs, h => by
    unfold awaitChunks at h
    cases hs : startChunk img chunk with
    | none => rw [hs] at h; simp at h
    | some masks =>
      rw [hs] at h
      simp only at h
      cases hv : allValues ((chunk.zip masks).map (taskValue tracer params)) with
      | none => rw [hv] at h; simp at h
      | some values =>
        rw [hv] at h
        simp only at h
        obtain ⟨h1, h2⟩ := awaitChunks_flatten tracer params img chunks _ svgs h
        have hval := chunk_values tracer params img chunk masks values hs hv
        have hlen : values.length = chunk.length := by
          have := congrArg List.length hval
          simpa using this
        constructor
        · rw [h1]
          simp only [List.flatten_append, List.flatten_cons, List.flatten_nil, List.append_nil,
            List.map_append, hval, List.append_assoc]
        · rw [h2]
          simp [hlen]

theorem runChunks_await (tracer : ImageData → Traced) (params : Params) (img : ImageData)
    (total : Nat) (order : Nat → List Nat) :
    ∀ (chunks : List (List Task)) (k : Nat) (svgs₀ : List (List Str)) (st : RunState)
      (doc : Str) (log : List Action),
      runChunks tracer params img total order chunks k svgs₀ st = (.resolved doc, log) →
      ∃ svgs, awaitChunks tracer params img chunks svgs₀ = some svgs ∧
        doc = mergeSvgs svgs.flatten
  | [], _, svgs₀, st, doc, log, h => by
    simp only [runChunks, Prod.mk.injEq, Outcome.resolved.injEq] at h
    exact ⟨svgs₀, rfl, h.1.symm⟩
  | chunk :: chunks, k, svgs₀, st, doc, log, h => by
    unfold runChunks at h
    unfold awaitChunks
    cases hs : startChunk img chunk with
    | none => rw [hs] at h; simp at h
    | some masks =>
      rw [hs] at h
      simp only at h ⊢
      cases hv : allValues ((chunk.zip masks).map (taskValue tracer params)) with
      | none => rw [hv] at h; simp at h
      | some values =>
        rw [hv] at h
        simp only at h ⊢
        exact runChunks_await tracer params img total order chunks (k + 1) _ _ doc log h

/-- Claim C12. For a task list and a batch size `c ≥ 1`, the batches are
consecutive pieces of the list of at most `c` tasks each.  When every batch is
fulfilled, the flattened batch results are the results of the tasks in the
original order of the tasks, batch by batch; the completion order inside the
batches has no part in them, and the document of a fulfilled conversion is
merged from them for every completion order.  The batch size is twice the
hardware concurrency when that is known and positive, and 16 otherwise. -/
theorem batches_in_order (tasks : List Task) (c : Nat) (hc : 1 ≤ c)
    (tracer : ImageData → Traced) (params : Params) (img : ImageData) (total : Nat) :
    (promiseChunks c tasks).flatten = tasks ∧
    (∀ chunk ∈ promiseChunks c tasks, chunk.length ≤ c) ∧
    (∀ svgs, awaitChunks tracer params img (promiseChunks c tasks) [] = some svgs →
      svgs.flatten.map some = tasks.map (taskOutcome tracer params img) ∧
      svgs.map List.length = (promiseChunks c tasks).map List.length) ∧
    (∀ (order : Nat → List Nat) (doc : Str) (log : List Action),
      runChunks tracer params img total order (promiseChunks c tasks) 0 [] ⟨0, []⟩ =
        (.resolved doc, log) →
      ∃ svgs, awaitChunks tracer params img (promiseChunks c tasks) [] = some svgs ∧
        doc = mergeSvgs svgs.flatten) ∧
    (∀ n, 0 < n → chunkSize (some n) = 2 * n) ∧
    chunkSize (some 0) = 16 ∧ chunkSize none = 16 := by
  have hflat := promiseChunks_flatten c hc tasks
  refine ⟨hflat, fun chunk hm => ((promiseChunks_batched c hc _ tasks rfl).2.1 chunk hm).2,
    ?_, ?_, ?_, rfl, rfl⟩
  · intro svgs h
    have := awaitChunks_flatten tracer params img _ [] svgs h
    rw [hflat] at this
    simpa using this
  · intro order doc log h
    exact runChunks_await tracer params img total order _ 0 [] _ doc log h
  · intro n hn
    have : 2 * n ≠ 0 := by omega
    simp [chunkSize, this]

set_option maxRecDepth 100000 in
theorem batches_in_order_witness :
    awaitChunks sampleTracer sampleParams redGreen
        (promiseChunks 1 (extractColors redGreen.data)) [] =
      some [[taskResult "255,0,0,255".toList sampleParams tracedTwoPaths],
        [taskResult "0,255,0,128".toList sampleParams tracedTwoPaths]] ∧
    ((promiseChunks 1 (extractColors redGreen.data)).flatten = extractColors redGreen.data ∧
    (∀ chunk ∈ promiseChunks 1 (extractColors redGreen.data), chunk.length ≤ 1) ∧
    (∀ svgs, awaitChunks sampleTracer sampleParams redGreen
        (promiseChunks 1 (extractColors redGreen.data)) [] = some svgs →
      svgs.flatten.map some =
        (extractColors redGreen.data).map (taskOutcome sampleTracer sampleParams redGreen) ∧
      svgs.map List.length = (promiseChunks 1 (extractColors redGreen.data)).map List.length) ∧
    (∀ (order : Nat → List Nat) (doc : Str) (log : List Action),
      runChunks sampleTracer sampleParams redGreen 2 order
        (promiseChunks 1 (extractColors redGreen.data)) 0 [] ⟨0, []⟩ = (.resolved doc, log) →
      ∃ svgs, awaitChunks sampleTracer sampleParams redGreen
          (promiseChunks 1 (extractColors redGreen.data)) [] = some svgs ∧
        doc = mergeSvgs svgs.flatten) ∧
    (∀ n, 0 < n → chunkSize (some n) = 2 * n) ∧
    chunkSize (some 0) = 16 ∧ chunkSize none = 16) :=
  ⟨by decide,
    batches_in_order (extractColors redGreen.data) 1 (by decide) sampleTracer sampleParams
      redGreen 2⟩


/-! ### Tasks in flight -/

theorem paced_append (size : Nat) :
    ∀ (l₁ l₂ : List Action) (s d : Nat),
      Paced size s d (l₁ ++ l₂) ↔
        Paced size s d l₁ ∧ Paced size (s + (traces l₁).length) (d + (posts l₁).length) l₂
  | [], l₂, s, d => by simp [Paced, traces, posts]
  | .trace m :: l₁, l₂, s, d => by
    have ih := paced_append size l₁ l₂ (s + 1) d
    have e : s + 1 + (traces l₁).length = s + ((traces l₁).length + 1) := by omega
    rw [e] at ih
    show (size * (s / size) ≤ d ∧ s + 1 ≤ d + size ∧ Paced size (s + 1) d (l₁ ++ l₂)) ↔
      (size * (s / size) ≤ d ∧ s + 1 ≤ d + size ∧ Paced size (s + 1) d l₁) ∧
        Paced size (s + ((traces l₁).length + 1)) (d + (posts l₁).length) l₂
    rw [ih]
    tauto
  | .post ev :: l₁, l₂, s, d => by
    have ih := paced_append size l₁ l₂ s (d + 1)
    have e : d + 1 + (posts l₁).length = d + ((posts l₁).length + 1) := by omega
    rw [e] at ih
    exact ih

theorem paced_of_no_traces (size : Nat) :
    ∀ (l : List Action) (s d : Nat), traces l = [] → Paced size s d l
  | [], _, _, _ => trivial
  | .trace m :: l, _, _, h => by simp [traces] at h
  | .post ev :: l, s, d, h => by
    simp only [Paced]
    exact paced_of_no_traces size l s (d + 1) (by simpa [traces] using h)

theorem paced_traces (size : Nat) (hsize : 0 < size) (s₀ : Nat) (hdiv : size ∣ s₀) :
    ∀ (masks : List ImageData) (i : Nat), i + masks.length ≤ size →
      Paced size (s₀ + i) s₀ (masks.map Action.trace)
  | [], _, _ => trivial
  | m :: masks, i, h => by
    simp only [List.length_cons] at h
    simp only [List.map_cons, Paced]
    obtain ⟨q, rfl⟩ := hdiv
    refine ⟨?_, by omega, ?_⟩
    · have : (size * q + i) / size = q := by
        rw [Nat.mul_add_div hsize, Nat.div_eq_of_lt (by omega), Nat.add_zero]
      rw [this]
    · have := paced_traces size hsize (size * q) ⟨q, rfl⟩ masks (i + 1) (by omega)
      simpa [Nat.add_assoc] using this

theorem counted_posts_length (total : Nat) (st : RunState) (h : st.Counted total) :
    (posts st.log).length = st.processed := by
  have := congrArg List.length h.1
  simpa using this

theorem runChunks_paced (tracer : ImageData → Traced) (params : Params) (img : ImageData)
    (total : Nat) (order : Nat → List Nat) (size : Nat) (hsize : 0 < size) :
    ∀ (chunks : List (List Task)) (k : Nat) (svgs : List (List Str)) (st : RunState),
      (∀ chunk ∈ chunks, chunk.length ≤ size) →
      (∀ chunk ∈ chunks.dropLast, chunk.length = size) →
      (∀ j, j < chunks.length → (order (k + j)).Perm (List.range (chunks.getD j []).length)) →
      st.Counted total → (traces st.log).length = st.processed →
      (chunks ≠ [] → size ∣ st.processed) →
      Paced size 0 0 st.log →
      Paced size 0 0 (runChunks tracer params img total order chunks k svgs st).2
  | [], _, _, st, _, _, _, _, _, _, hp => by simpa [runChunks] using hp
  | chunk :: chunks, k, svgs, st, hle, hfull, horder, hcount, htr, hdiv, hp => by
    unfold runChunks
    cases hs : startChunk img chunk with
    | none => exact hp
    | some masks =>
      simp only
      have hml : masks.length = chunk.length := startChunk_length img chunk masks hs
      have hzl : (chunk.zip masks).length = chunk.length := by simp [hml]
      obtain ⟨extra, he, hte⟩ := completeChunk_extends tracer params total (chunk.zip masks)
        (order k) ⟨st.processed, st.log ++ masks.map .trace⟩
      simp only at he
      have hposts := counted_posts_length total st hcount
      have hdone : Paced size 0 0 (completeChunk tracer params total (chunk.zip masks)
          (order k) ⟨st.processed, st.log ++ masks.map .trace⟩).log := by
        rw [he, List.append_assoc, paced_append]
        refine ⟨hp, ?_⟩
        rw [Nat.zero_add, Nat.zero_add, htr, hposts, paced_append]
        refine ⟨?_, paced_of_no_traces _ _ _ _ hte⟩
        have := paced_traces size hsize st.processed (hdiv (by simp)) masks 0
          (by rw [hml]; simpa using hle chunk (List.mem_cons_self _ _))
        simpa using this
      cases hv : allValues ((chunk.zip masks).map (taskValue tracer params)) with
      | none => exact hdone
      | some values =>
        simp only
        have hperm := horder 0 (by simp)
        simp only [Nat.add_zero, List.getD_cons_zero] at hperm
        have hidx : ∀ i ∈ order k, i < (chunk.zip masks).length := by
          intro i hi
          rw [hzl]
          exact List.mem_range.mp (hperm.mem_iff.mp hi)
        have hstart : RunState.Counted total ⟨st.processed, st.log ++ masks.map .trace⟩ := by
          constructor
          · simp only [posts_append, posts_map_trace, List.append_nil]; exact hcount.1
          · intro e he'
            simp only [posts_append, posts_map_trace, List.append_nil] at he'
            exact hcount.2 e he'
        have hc := completeChunk_counted tracer params total (chunk.zip masks)
          (taskValue_ok tracer params _ values hv) (order k) _ hidx hstart
        have hl : (order k).length = chunk.length := by simpa using hperm.length_eq
        apply runChunks_paced tracer params img total order size hsize chunks (k + 1)
        · exact fun c hc' => hle c (List.mem_cons_of_mem _ hc')
        · intro c hc'
          cases chunks with
          | nil => simp at hc'
          | cons x xs =>
            rw [List.dropLast_cons₂] at hfull
            exact hfull c (List.mem_cons_of_mem _ hc')
        · intro j hj
          have := horder (j + 1) (by simpa using hj)
          simpa [Nat.add_assoc, Nat.add_comm 1 j] using this
        · exact hc.1
        · rw [he, traces_append, traces_append, hte, traces_map_trace, List.append_nil,
            List.length_append, htr, hc.2, hml, hl]
        · intro hne
          rw [hc.2, hl]
          cases chunks with
          | nil => exact absurd rfl hne
          | cons x xs =>
            rw [List.dropLast_cons₂] at hfull
            rw [hfull chunk (List.mem_cons_self _ _)]
            exact Nat.dvd_add (hdiv (by simp)) (Nat.dvd_refl _)
        · exact hdone

theorem paced_prefix_bound (size : Nat) :
    ∀ (log p : List Action) (s d : Nat), Paced size s d log → p <+: log → s ≤ d + size →
      s + (traces p).length ≤ d + (posts p).length + size
  | _, [], s, d, _, _, h => by simpa [traces, posts] using h
  | [], a :: p, _, _, _, hp, _ => by simp at hp
  | .trace m :: log, a :: p, s, d, hpaced, hp, h => by
    obtain ⟨rfl, hp'⟩ := List.cons_prefix_cons.mp hp
    simp only [Paced] at hpaced
    have := paced_prefix_bound size log p (s + 1) d hpaced.2.2 hp' hpaced.2.1
    simp only [traces, posts, List.length_cons]
    omega
  | .post ev :: log, a :: p, s, d, hpaced, hp, h => by
    obtain ⟨rfl, hp'⟩ := List.cons_prefix_cons.mp hp
    simp only [Paced] at hpaced
    have := paced_prefix_bound size log p s (d + 1) hpaced hp' (by omega)
    simp only [traces, posts, List.length_cons]
    omega

theorem paced_start (size : Nat) (mask : ImageData) :
    ∀ (log q : List Action) (s d : Nat), Paced size s d log → q ++ [.trace mask] <+: log →
      size * ((s + (traces q).length) / size) ≤ d + (posts q).length
  | [], q, _, _, _, hp => by
    have := List.prefix_nil.mp hp
    simp at this
  | a :: log, [], s, d, hpaced, hp => by
    obtain ⟨rfl, -⟩ := List.cons_prefix_cons.mp hp
    simp only [Paced] at hpaced
    simpa [traces, posts] using hpaced.1
  | .trace m :: log, a :: q, s, d, hpaced, hp => by
    obtain ⟨rfl, hp'⟩ := List.cons_prefix_cons.mp hp
    simp only [Paced] at hpaced
    have := paced_start size mask log q (s + 1) d hpaced.2.2 hp'
    simp only [traces, posts, List.length_cons]
    have e : s + ((traces q).length + 1) = s + 1 + (traces q).length := by omega
    rw [e]
    exact this
  | .post ev :: log, a :: q, s, d, hpaced, hp => by
    obtain ⟨rfl, hp'⟩ := List.cons_prefix_cons.mp hp
    simp only [Paced] at hpaced
    have := paced_start size mask log q s (d + 1) hpaced hp'
    simp only [traces, posts, List.length_cons]
    omega

/-- Claim C13. For every completion order inside the batches, at no point of a
conversion are more tracing tasks in flight, started and not yet completed,
than the batch size: after every beginning of the log the number of tracer
calls exceeds the number of progress messages by at most the batch size.  No
task of a batch is started before every task of the batches before it has
completed: when the tracer is called for task number `t`, counted from 0, the
first `c ⌊t / c⌋` tasks have posted their message. -/
theorem in_flight_bound (tracer : ImageData → Traced) (hc : Option Nat)
    (order : Nat → List Nat) (img : ImageData) (params : Params)
    (horder : ∀ k, (order k).Perm (List.range
      ((promiseChunks (chunkSize hc) (extractColors img.data)).getD k []).length)) :
    (∀ p, p <+: (convertToColorSVG tracer hc order img params).2 →
      (traces p).length ≤ (posts p).length + chunkSize hc) ∧
    (∀ q mask, q ++ [.trace mask] <+: (convertToColorSVG tracer hc order img params).2 →
      chunkSize hc * ((traces q).length / chunkSize hc) ≤ (posts q).length) := by
  have hpos := chunkSize_pos hc
  obtain ⟨-, h2, h3⟩ := promiseChunks_batched (chunkSize hc) hpos _
    (extractColors img.data) rfl
  have hpaced : Paced (chunkSize hc) 0 0 (convertToColorSVG tracer hc order img params).2 :=
    runChunks_paced tracer params img _ order (chunkSize hc) hpos _ 0 [] ⟨0, []⟩
      (fun chunk hm => (h2 chunk hm).2) h3 (fun j _ => by simpa using horder j)
      ⟨rfl, fun e he => absurd he (List.not_mem_nil _)⟩ rfl (fun _ => Nat.dvd_zero _) trivial
  constructor
  · intro p hp
    have := paced_prefix_bound _ _ p 0 0 hpaced hp (by omega)
    omega
  · intro q mask hq
    have := paced_start _ mask _ q 0 0 hpaced hq
    simpa using this

theorem in_flight_bound_witness :
    (∀ p, p <+: (convertToColorSVG sampleTracer none secondFirst redGreen sampleParams).2 →
      (traces p).length ≤ (posts p).length + chunkSize none) ∧
    (∀ q mask,
      q ++ [.trace mask] <+:
        (convertToColorSVG sampleTracer none secondFirst redGreen sampleParams).2 →
      chunkSize none * ((traces q).length / chunkSize none) ≤ (posts q).length) :=
  in_flight_bound sampleTracer none secondFirst redGreen sampleParams
    (by
      intro k
      have hs : promiseChunks (chunkSize none) (extractColors redGreen.data) =
          [[("255,0,0,255".toList, [0]), ("0,255,0,128".toList, [4])]] := by decide
      rw [hs]
      cases k with
      | zero => decide
      | succ k => simp [secondFirst])

end ColorWorker
